import Mathlib

/-!
Verification of the `DeleteUndefined` LLVM pass (src/src/DeleteUndefined.cpp).

The development shallowly embeds the parts of the LLVM IR that the pass
inspects or mutates: a module is a list of named functions (each with an
optional body, a list of instructions), a list of global variables, and a
fresh-id counter standing for the allocator (LLVM works with object
pointers; we use numeric ids, freshness of `new` objects becomes
`nextId`-freshness).  Function bodies are flattened instruction lists: the
pass walks instructions with `inst_iterator`, which enumerates all blocks
in order, and the only position it ever distinguishes is the very first
instruction of `main`'s entry block, which under flattening is the head of
`main`'s list.

Fallible code: `assert(main && "Do not have main")` is modelled as the
error `PassErr.assertNoMain`, while `*(block.begin())` on an empty entry
block has no assertion in the source (only a comment) and is modelled as
the distinct error `PassErr.derefEmptyEntry`.

Not modelled (not needed by any claim): instruction metadata / debug
locations (`CloneMetadata`, `CallAddMetadata`), linkage tags (both created
globals use `PrivateLinkage`), argument/parameter types of function
declarations, and the `delete DL` / unused-variable noise in
`replaceCall`.  `assert(callee->hasName())` is subsumed by the modelling
choice that a resolved callee is identified by its name string.
-/

set_option maxHeartbeats 1000000

namespace DU

/-- LLVM value types as far as the pass inspects them: void, integer types
of a given bit width, pointers, and the i8-array types of the string
constants the pass creates (`"nondet"` is a `[7 x i8]` array). -/
inductive LlvmTy
  | void
  | int (bits : Nat)
  | ptr
  | arrayI8 (len : Nat)
deriving DecidableEq, Repr

/-- Operands of instructions: results of other instructions (by id),
addresses of globals (by id), the constant-expression pointer cast of a
global (`ConstantExpr::getPointerCast`), null/integer constants. -/
inductive Operand
  | val (id : Nat)
  | globalRef (gid : Nat)
  | castGlobal (gid : Nat)
  | nullConst (ty : LlvmTy)
  | intConst (ty : LlvmTy) (v : Nat)
deriving DecidableEq, Repr

/-- The called operand of a `CallInst`, after the view the pass takes of
it: inline assembly, a value that does not strip to a `Function`
(indirect), or a direct reference to the named function
(`getCalledValue()->stripPointerCasts()` resolving to a `Function`). -/
inductive CalleeRef
  | inlineAsm
  | indirect
  | direct (fname : String)
deriving DecidableEq, Repr

/-- Instructions, with result ids.  `call` carries the callee reference,
the call's result type (`CI->getType()`) and argument operands; `load` and
`ptrCast` are the instructions the pass creates; `other` stands for any
other instruction kind, seen by the pass only as a user of operands. -/
inductive Instr
  | call (id : Nat) (callee : CalleeRef) (retTy : LlvmTy) (args : List Operand)
  | load (id : Nat) (src : Operand)
  | ptrCast (id : Nat) (src : Operand)
  | other (id : Nat) (ops : List Operand)
deriving DecidableEq, Repr

/-- Result id of an instruction. -/
def Instr.id : Instr → Nat
  | .call i _ _ _ => i
  | .load i _ => i
  | .ptrCast i _ => i
  | .other i _ => i

/-- Operand list of an instruction (its uses of other values). -/
def Instr.opList : Instr → List Operand
  | .call _ _ _ args => args
  | .load _ s => [s]
  | .ptrCast _ s => [s]
  | .other _ ops => ops

/-- Map a function over the operands of an instruction (used to model
`replaceAllUsesWith`, which rewrites uses and nothing else). -/
def Instr.mapOps (h : Operand → Operand) : Instr → Instr
  | .call i c r args => .call i c r (args.map h)
  | .load i s => .load i (h s)
  | .ptrCast i s => .ptrCast i (h s)
  | .other i ops => .other i (ops.map h)

/-- Initializer of a global variable: the null value of its type, or the
`ConstantDataArray` string `"nondet"`. -/
inductive GlobalInit
  | nullOf (ty : LlvmTy)
  | strNondet
deriving DecidableEq, Repr

/-- A module-level global variable.  Both globals the pass creates use
`PrivateLinkage`, so linkage is not distinguished here; `isConstant`
records the `constant` flag. -/
structure GlobalVar where
  gid : Nat
  name : String
  ty : LlvmTy
  isConstant : Bool
  init : GlobalInit
deriving DecidableEq, Repr

/-- A function of the module: a name, the intrinsic flag, and an optional
body.  `body = none` models `isDeclaration()` (no body in the unit). -/
structure Func where
  name : String
  isIntrinsic : Bool
  body : Option (List Instr)
deriving DecidableEq, Repr

/-- A module: data-layout pointer width, functions, globals, and the
fresh-id allocator. -/
structure Module where
  ptrBits : Nat
  funcs : List Func
  globals : List GlobalVar
  nextId : Nat
deriving DecidableEq, Repr

/-- Look a function up by name in a list of functions. -/
def findFuncIn (fs : List Func) (nm : String) : Option Func :=
  fs.find? (fun f => f.name = nm)

/-- `Module::getFunction` by name. -/
def Module.findFunc (M : Module) (nm : String) : Option Func :=
  findFuncIn M.funcs nm

/-- Flattened instruction list of the named function (empty for a
declaration or an absent function). -/
def Module.bodyOf (M : Module) (nm : String) : List Instr :=
  match M.findFunc nm with
  | some f => f.body.getD []
  | none => []

/-- All instructions of the module, in function order. -/
def Module.allInstrs (M : Module) : List Instr :=
  M.funcs.flatMap (fun f => f.body.getD [])

/-- Find an instruction of the module by its result id. -/
def Module.findInstrById (M : Module) (j : Nat) : Option Instr :=
  M.allInstrs.find? (fun i => i.id = j)

/-- Replace the body of the named function. -/
def Module.setBody (M : Module) (nm : String) (b : List Instr) : Module :=
  { M with funcs := M.funcs.map (fun f => if f.name = nm then { f with body := some b } else f) }

/-- Insert `new` immediately before the first instruction whose id is
`tid` (`Instruction::insertBefore`; the target is identified by id where
LLVM identifies it by pointer — ids are unique under `WF`). -/
def insertBeforeId (tid : Nat) (new : Instr) : List Instr → List Instr
  | [] => []
  | i :: rest => if i.id = tid then new :: i :: rest else i :: insertBeforeId tid new rest

/-- `insertBefore` lifted to a module: insert into the named function. -/
def Module.insertBefore (M : Module) (fname : String) (tid : Nat) (new : Instr) : Module :=
  { M with funcs := M.funcs.map (fun f =>
      if f.name = fname then { f with body := f.body.map (insertBeforeId tid new) } else f) }

/-- `eraseFromParent`: remove the (unique, under `WF`) instruction with id
`tid` from the named function's body. -/
def Module.eraseInstr (M : Module) (fname : String) (tid : Nat) : Module :=
  { M with funcs := M.funcs.map (fun f =>
      if f.name = fname then { f with body := f.body.map (List.eraseP (fun i => i.id = tid)) } else f) }

/-- One use-rewrite step of `replaceAllUsesWith old new`: uses of the
value `old` become `new`, every other operand is untouched. -/
def rauwOp (old : Nat) (new : Operand) : Operand → Operand
  | .val i => if i = old then new else .val i
  | op => op

/-- `Value::replaceAllUsesWith` over the whole module (LLVM rewrites every
use of the value; uses live in instruction operand lists here). -/
def Module.rauw (M : Module) (old : Nat) (new : Operand) : Module :=
  { M with funcs := M.funcs.map (fun f =>
      { f with body := f.body.map (fun b => b.map (Instr.mapOps (rauwOp old new))) }) }

/-- `StringRef::startswith`. -/
def strStartsWith (s pre : String) : Bool :=
  pre.data.isPrefixOf s.data

/-- The `leave_calls` allow-list array (DeleteUndefined.cpp lines
220-242), NULL terminator dropped. -/
def leave_calls : List String :=
  ["__assert_fail", "abort", "klee_make_symbolic", "klee_assume", "klee_abort",
   "klee_silent_exit", "klee_report_error", "klee_warning_once", "exit", "_exit",
   "malloc", "calloc", "realloc", "free", "memset", "memcmp", "memcpy", "memmove",
   "kzalloc", "__errno_location"]

/-- `array_match`: walk the NULL-terminated array testing `name.equals`. -/
def array_match (name : String) : List String → Bool
  | [] => false
  | c :: rest => if name = c then true else array_match name rest

/-- `DataLayout::getTypeAllocSize`, for the types of the model (a whole
number of bytes; alignment padding does not arise for these types). -/
def typeAllocSize (ptrBits : Nat) : LlvmTy → Nat
  | .void => 0
  | .int bits => (bits + 7) / 8
  | .ptr => ptrBits / 8
  | .arrayI8 len => len

/-- Errors of the fallible paths of the pass.  `assertNoMain` is the
failure of `assert(main && "Do not have main")`; `derefEmptyEntry` is the
dereference `*(block.begin())` when `main` has no instruction to offer —
the source carries no assertion there, only the comment "there must be
some instruction, otherwise we would not be calling this function". -/
inductive PassErr
  | assertNoMain
  | derefEmptyEntry
deriving DecidableEq, Repr

/-- The mutable fields of the `DeleteUndefined` pass object: the cached
`_vms` function (by name), the cached `_size_t_Ty`, the `_nosym` policy
flag, and the `added_globals` type-to-global map (an association list;
the C++ `unordered_map` is keyed by `Type*`). -/
structure PassState where
  vms : Option String
  size_t_Ty : Option LlvmTy
  nosym : Bool
  added_globals : List (LlvmTy × Nat)
deriving DecidableEq, Repr

/-- `unordered_map::find` on the type-to-global map. -/
def lookupTy : List (LlvmTy × Nat) → LlvmTy → Option Nat
  | [], _ => none
  | (t, g) :: rest, T => if t = T then some g else lookupTy rest T

/-- Pass state of a freshly constructed pass instance
(`DeleteUndefined()` sets `_nosym = false`, the `DeleteUndefinedNoSym`
constructor chain sets `_nosym = true`). -/
def freshPassState (nosym : Bool) : PassState :=
  ⟨none, none, nosym, []⟩

/-- `DeleteUndefined::get_size_t`: cached; 64-bit when the pointer width
exceeds 32 bits, else 32-bit. -/
def get_size_t (M : Module) (st : PassState) : LlvmTy × PassState :=
  match st.size_t_Ty with
  | some t => (t, st)
  | none =>
    let t := if M.ptrBits > 32 then LlvmTy.int 64 else LlvmTy.int 32
    (t, { st with size_t_Ty := some t })

/-- `Module::getOrInsertFunction("__VERIFIER_make_symbolic", ...)`: return
the module unchanged when the function exists, otherwise append its
declaration. -/
def Module.getOrInsertVms (M : Module) : Module :=
  match M.findFunc "__VERIFIER_make_symbolic" with
  | some _ => M
  | none => { M with funcs := M.funcs ++ [⟨"__VERIFIER_make_symbolic", false, none⟩] }

/-- `DeleteUndefined::get_verifier_make_symbolic`: cached in `_vms`; on a
miss the signature is built (forcing `get_size_t`) and the declaration is
inserted. -/
def get_verifier_make_symbolic (M : Module) (st : PassState) : String × Module × PassState :=
  match st.vms with
  | some f => (f, M, st)
  | none =>
    let st1 := (get_size_t M st).2
    ("__VERIFIER_make_symbolic", M.getOrInsertVms,
      { st1 with vms := some "__VERIFIER_make_symbolic" })

/-- `DeleteUndefined::getGlobalNondet` (lines 147-194).  On a cache hit
the cached global is returned with no side effect.  On a miss, in source
order: the zero-initialized `nondet_gl_undef` global of type `Ty` is
created, the map entry is recorded, `_vms` is resolved, the pointer-cast
instruction is built, the size argument is computed, the constant
`"nondet"` name string global is created, the call to
`__VERIFIER_make_symbolic` is built, then `main` is looked up
(`assert(main)`) and cast plus call are inserted before `main`'s first
instruction. -/
def getGlobalNondet (Ty : LlvmTy) (M : Module) (st : PassState) :
    Except PassErr (Nat × Module × PassState) :=
  match lookupTy st.added_globals Ty with
  | some g => .ok (g, M, st)
  | none =>
    let gid := M.nextId
    let M1 : Module := { M with
      globals := M.globals ++ [⟨gid, "nondet_gl_undef", Ty, false, .nullOf Ty⟩],
      nextId := M.nextId + 1 }
    let st1 : PassState := { st with added_globals := st.added_globals ++ [(Ty, gid)] }
    match get_verifier_make_symbolic M1 st1 with
    | (vms, M2, st2) =>
      let castId := M2.nextId
      let M3 : Module := { M2 with nextId := M2.nextId + 1 }
      let castI : Instr := .ptrCast castId (.globalRef gid)
      match get_size_t M3 st2 with
      | (szTy, st3) =>
        let nameGid := M3.nextId
        let M4 : Module := { M3 with
          globals := M3.globals ++ [⟨nameGid, "", .arrayI8 7, true, .strNondet⟩],
          nextId := M3.nextId + 1 }
        let args : List Operand :=
          [.val castId, .intConst szTy (typeAllocSize M4.ptrBits Ty), .castGlobal nameGid]
        let ciId := M4.nextId
        let M5 : Module := { M4 with nextId := M4.nextId + 1 }
        let ci : Instr := .call ciId (.direct vms) .void args
        match M5.findFunc "main" with
        | none => .error .assertNoMain
        | some mainF =>
          match mainF.body.getD [] with
          | [] => .error .derefEmptyEntry
          | _ :: _ => .ok (gid, M5.setBody "main" (castI :: ci :: (mainF.body.getD [])), st3)

/-- `DeleteUndefined::replaceCall` (lines 197-218).  A fresh constant
`"nondet"` string global is created unconditionally (its `GlobalVariable`
local is never used afterwards); the asserts `!Ty->isVoidTy()` and
`Ty->isSized()` hold for every type routed here (the caller guards void;
every non-void type of the model is sized); the per-type nondet global is
obtained, a load of it is inserted before the call, and all uses of the
call are redirected to the load.  The erase itself is done by the caller
(`runOnFunction`). -/
def replaceCall (fname : String) (ciId : Nat) (Ty : LlvmTy) (M : Module) (st : PassState) :
    Except PassErr (Module × PassState) :=
  let nameGid := M.nextId
  let M1 : Module := { M with
    globals := M.globals ++ [⟨nameGid, "", .arrayI8 7, true, .strNondet⟩],
    nextId := M.nextId + 1 }
  match getGlobalNondet Ty M1 st with
  | .error e => .error e
  | .ok (g, M2, st2) =>
    let liId := M2.nextId
    let M3 : Module := { M2 with nextId := M2.nextId + 1 }
    let M4 := M3.insertBefore fname ciId (.load liId (.globalRef g))
    .ok (M4.rauw ciId (.val liId), st2)

/-- Call-site classification, mirroring the skip cascade of
`runOnFunction` (lines 255-277): inline asm, unresolved callee, intrinsic,
`nondet_int`/`klee_int`/`leave_calls` names, the `__VERIFIER_` prefix,
and finally `isDeclaration()` deciding eligibility.  `true` means the
call reaches the rewrite branch. -/
def eligibleIn (fs : List Func) : Instr → Bool
  | .call _ (.direct nm) _ _ =>
    match findFuncIn fs nm with
    | none => false
    | some callee =>
      if callee.isIntrinsic then false
      else if nm = "nondet_int" || nm = "klee_int" || array_match nm leave_calls then false
      else if strStartsWith nm "__VERIFIER_" then false
      else callee.body.isNone
  | _ => false

/-- Classification read off a module. -/
def Module.eligible (M : Module) (ins : Instr) : Bool :=
  eligibleIn M.funcs ins

/-- The diagnostic line printed on the first elimination of a callee
(lines 280-287). -/
def diagMsg (nm : String) (isVoid : Bool) (nosym : Bool) : String :=
  "Prepare: removed calls to '" ++ nm ++ "' (function is undefined" ++
    (if !isVoid then
      (if nosym then ", retval set to 0)\n" else ", retval made symbolic)\n")
     else ")\n")

/-- The state threaded through a run: the module, the pass-object state,
the function-local `static` set `removed_calls` (process lifetime, shared
by every pass instance — modelled here as explicitly threaded state), and
the `errs()` diagnostic lines emitted so far. -/
structure PState where
  M : Module
  st : PassState
  removed : List String
  logs : List String
deriving DecidableEq, Repr

/-- Processing of one instruction of the `inst_iterator` walk (lines
253-303).  Skip branches are the identity; the eligible branch reports
once per callee (`removed_calls.insert(callee).second`), substitutes for
a non-void result (zero under `_nosym`, `replaceCall` otherwise) and
erases the call.  Returns the updated state and whether this instruction
modified the program. -/
def processInstr (fname : String) (ins : Instr) (s : PState) : Except PassErr (PState × Bool) :=
  match ins with
  | .call ciId (.direct nm) retTy _args =>
    (match findFuncIn s.M.funcs nm with
     | none => .ok (s, false)
     | some callee =>
       if callee.isIntrinsic then .ok (s, false)
       else if nm = "nondet_int" || nm = "klee_int" || array_match nm leave_calls then .ok (s, false)
       else if strStartsWith nm "__VERIFIER_" then .ok (s, false)
       else if callee.body.isNone then
         let rl : List String × List String :=
           if s.removed.contains nm then (s.removed, s.logs)
           else (nm :: s.removed, s.logs ++ [diagMsg nm (retTy = .void) s.st.nosym])
         if retTy = .void then
           .ok (⟨s.M.eraseInstr fname ciId, s.st, rl.1, rl.2⟩, true)
         else if s.st.nosym then
           .ok (⟨(s.M.rauw ciId (.nullConst retTy)).eraseInstr fname ciId, s.st, rl.1, rl.2⟩, true)
         else
           match replaceCall fname ciId retTy s.M s.st with
           | .error e => .error e
           | .ok (M1, st1) => .ok (⟨M1.eraseInstr fname ciId, st1, rl.1, rl.2⟩, true)
       else .ok (s, false))
  | .call _ .inlineAsm _ _ => .ok (s, false)
  | .call _ .indirect _ _ => .ok (s, false)
  | _ => .ok (s, false)

/-- Process a list of instructions in order, or-accumulating the modified
flag.  `runOnFunction` iterates with an `inst_iterator` advanced before
any mutation; every instruction the pass inserts lands strictly behind
the iterator (the load goes immediately before the already-passed current
call, the `main`-front injections go before `main`'s first instruction,
which the iterator has passed by the time any call is rewritten), and the
only instruction ever erased is the current one — so the instructions the
iterator visits are exactly the entry-time snapshot of the body, which is
what this function walks. -/
def processList (fname : String) : List Instr → PState → Except PassErr (PState × Bool)
  | [], s => .ok (s, false)
  | ins :: rest, s =>
    match processInstr fname ins s with
    | .error e => .error e
    | .ok (s1, b1) =>
      match processList fname rest s1 with
      | .error e => .error e
      | .ok (s2, b2) => .ok (s2, b1 || b2)

/-- `DeleteUndefined::runOnFunction` on the named function. -/
def runOnFunction (fname : String) (s : PState) : Except PassErr (PState × Bool) :=
  processList fname (s.M.bodyOf fname) s

/-- Run the pass over a list of function names in order. -/
def runOnFuncs : List String → PState → Except PassErr (PState × Bool)
  | [], s => .ok (s, false)
  | nm :: rest, s =>
    match runOnFunction nm s with
    | .error e => .error e
    | .ok (s1, b1) =>
      match runOnFuncs rest s1 with
      | .error e => .error e
      | .ok (s2, b2) => .ok (s2, b1 || b2)

/-- One full run of the pass over every function of the module (the
driver invokes `runOnFunction` once per function; a function added
mid-run — only the bodyless `__VERIFIER_make_symbolic` declaration — has
no instructions to visit, so walking the entry snapshot of names is
equivalent). -/
def runOnModule (s : PState) : Except PassErr (PState × Bool) :=
  runOnFuncs (s.M.funcs.map Func.name) s

/-- Number of `nondet_gl_undef` globals (the nondeterministic globals) of
a module. -/
def countNondetGl (M : Module) : Nat :=
  (M.globals.filter (fun g => g.name = "nondet_gl_undef")).length

/-- Number of globals initialized with the `"nondet"` string. -/
def countStrNondet (M : Module) : Nat :=
  (M.globals.filter (fun g => g.init = GlobalInit.strNondet)).length

/-- Recognize the initialization call of the nondeterministic global `g`:
a call to `__VERIFIER_make_symbolic` whose first argument is the value of
a pointer-cast instruction of `g`'s address. -/
def isVmsInitFor (M : Module) (g : Nat) (ins : Instr) : Bool :=
  match ins with
  | .call _ (.direct nm) _ (Operand.val c :: _) =>
    nm = "__VERIFIER_make_symbolic" &&
      (match M.findInstrById c with
       | some (.ptrCast _ (.globalRef g')) => g' = g
       | _ => false)
  | _ => false

/-- Repeated requests to the per-type cache (arbitrarily many call sites
requesting globals for a list of types, in order). -/
def requestAll : List LlvmTy → Module → PassState → Except PassErr (Module × PassState)
  | [], M, st => .ok (M, st)
  | T :: rest, M, st =>
    match getGlobalNondet T M st with
    | .error e => .error e
    | .ok (_, M1, st1) => requestAll rest M1 st1

/-- Bound on the ids an operand mentions. -/
def Operand.refsBelow (bound : Nat) : Operand → Prop
  | .val i => i < bound
  | .globalRef g => g < bound
  | .castGlobal g => g < bound
  | .nullConst _ => True
  | .intConst _ _ => True

instance (bound : Nat) (op : Operand) : Decidable (op.refsBelow bound) := by
  cases op <;> simp [Operand.refsBelow] <;> infer_instance

/-- Well-formedness of a module: instruction ids are globally distinct
and below `nextId`, global ids likewise, operands only mention allocated
ids, and function names are distinct (LLVM guarantees each through
pointer identity and symbol-table uniqueness). -/
def WF (M : Module) : Prop :=
  ((M.allInstrs.map Instr.id).Nodup) ∧
  (∀ ins ∈ M.allInstrs, ins.id < M.nextId) ∧
  ((M.globals.map GlobalVar.gid).Nodup) ∧
  (∀ g ∈ M.globals, g.gid < M.nextId) ∧
  (∀ ins ∈ M.allInstrs, ∀ op ∈ ins.opList, op.refsBelow M.nextId) ∧
  ((M.funcs.map Func.name).Nodup)

/-- Well-formedness of the pass state relative to a module: the `_vms`
cache only ever holds the `__VERIFIER_make_symbolic` function, map keys
are distinct (an `unordered_map` holds one entry per key), and cached
globals are allocated ids. -/
def StWF (M : Module) (st : PassState) : Prop :=
  (st.vms = none ∨ st.vms = some "__VERIFIER_make_symbolic") ∧
  ((st.added_globals.map Prod.fst).Nodup) ∧
  (∀ p ∈ st.added_globals, p.2 < M.nextId)

instance (M : Module) : Decidable (WF M) := by
  unfold WF; infer_instance

instance (M : Module) (st : PassState) : Decidable (StWF M st) := by
  unfold StWF; infer_instance

/-- Two instructions of the same shape: same id, same constructor, and
same classification-relevant fields (callee, result type); only operands
may differ.  `replaceAllUsesWith` only moves instructions within this
relation. -/
def sameShape : Instr → Instr → Prop
  | .call i c r _, .call i' c' r' _ => i = i' ∧ c = c' ∧ r = r'
  | .load i _, .load i' _ => i = i'
  | .ptrCast i _, .ptrCast i' _ => i = i'
  | .other i _, .other i' _ => i = i'
  | _, _ => False

/-! Classification stability.  A run step only ever (a) rewrites operands,
(b) erases or inserts instructions, (c) gives `main` a new (still present)
body, or (d) inserts the bodyless `__VERIFIER_make_symbolic` declaration.
`SigStable` captures what survives: every resolvable callee keeps its
intrinsic flag and its has-body status, and an unresolvable name stays
unresolvable unless it is the `__VERIFIER_`-prefixed hook. -/

def SigStable (M M' : Module) : Prop :=
  ∀ nm : String,
    (M.findFunc nm = none → (M'.findFunc nm = none ∨ nm = "__VERIFIER_make_symbolic")) ∧
    (∀ f, M.findFunc nm = some f → ∃ f', M'.findFunc nm = some f' ∧
       f'.isIntrinsic = f.isIntrinsic ∧ f'.body.isNone = f.body.isNone)

/-- Instructions that no module can classify as eligible: non-calls, and
calls to the `__VERIFIER_`-prefixed make-symbolic hook.  Everything the
pass ever inserts is of this kind. -/
def neverElig (ins : Instr) : Prop := ∀ fs : List Func, eligibleIn fs ins = false

/-- Evolution of the reporter's state across part of a run: the set of
reported callees only grows (newly reported names prepended), each newly
reported name was unreported before, no name is reported twice, and
exactly one diagnostic line is emitted per newly reported name. -/
def Reported (s s' : PState) : Prop :=
  ∃ new newlogs, s'.removed = new ++ s.removed ∧ s'.logs = s.logs ++ newlogs ∧
    newlogs.length = new.length ∧ new.Nodup ∧ ∀ x ∈ new, x ∉ s.removed

/-! Concrete example programs used by the witnesses. -/

/-- A one-instruction `main`. -/
def exMain : Func := ⟨"main", false, some [.other 0 []]⟩

/-- Example module: just `main`, allocator at 1. -/
def exM : Module := ⟨64, [exMain], [], 1⟩

/-- `exM` after one `int 32` request. -/
def exM1 : Module :=
  ⟨64,
   [⟨"main", false, some
      [.ptrCast 2 (.globalRef 1),
       .call 4 (.direct "__VERIFIER_make_symbolic") .void
         [.val 2, .intConst (.int 64) 4, .castGlobal 3],
       .other 0 []]⟩,
    ⟨"__VERIFIER_make_symbolic", false, none⟩],
   [⟨1, "nondet_gl_undef", .int 32, false, .nullOf (.int 32)⟩,
    ⟨3, "", .arrayI8 7, true, .strNondet⟩],
   5⟩

/-- Pass state after one `int 32` request from a fresh symbolic pass. -/
def exSt1 : PassState :=
  ⟨some "__VERIFIER_make_symbolic", some (.int 64), false, [(.int 32, 1)]⟩

/-- A module with `main` present but with an empty body. -/
def emptyMainM : Module := ⟨64, [⟨"main", false, some []⟩], [], 0⟩

/-- A module with no `main` at all. -/
def noMainM : Module := ⟨64, [], [], 0⟩

/-- A `main` calling the undefined non-void `foo`, using its result, and
calling the undefined void `bar`. -/
def zMainBody : List Instr :=
  [.call 1 (.direct "foo") (.int 32) [],
   .other 2 [.val 1],
   .call 3 (.direct "bar") .void [.val 1]]

/-- Module for the Zero-policy examples. -/
def zM : Module :=
  ⟨64, [⟨"main", false, some zMainBody⟩, ⟨"foo", false, none⟩, ⟨"bar", false, none⟩], [], 4⟩

/-- A fresh Zero-policy (`-nosym`) pass on `zM`. -/
def zS : PState := ⟨zM, freshPassState true, [], []⟩

/-- `zS` after eliminating the `foo` call. -/
def zS1 : PState :=
  ⟨⟨64,
    [⟨"main", false, some
       [.other 2 [.nullConst (.int 32)],
        .call 3 (.direct "bar") .void [.nullConst (.int 32)]]⟩,
     ⟨"foo", false, none⟩, ⟨"bar", false, none⟩], [], 4⟩,
   freshPassState true, ["foo"], [diagMsg "foo" false true]⟩

/-- `zS` after the full Zero-policy run. -/
def zSfin : PState :=
  ⟨⟨64,
    [⟨"main", false, some [.other 2 [.nullConst (.int 32)]]⟩,
     ⟨"foo", false, none⟩, ⟨"bar", false, none⟩], [], 4⟩,
   freshPassState true, ["bar", "foo"],
   [diagMsg "foo" false true, diagMsg "bar" true true]⟩

/-- A `main` calling the undefined non-void `foo` and using its result,
for the Symbolic-policy examples. -/
def sMainBody : List Instr :=
  [.call 1 (.direct "foo") (.int 32) [],
   .other 2 [.val 1]]

/-- Module for the Symbolic-policy examples. -/
def sM : Module := ⟨64, [⟨"main", false, some sMainBody⟩, ⟨"foo", false, none⟩], [], 4⟩

/-- A fresh Symbolic-policy pass on `sM`. -/
def sS : PState := ⟨sM, freshPassState false, [], []⟩

/-- `sS` after rewriting the `foo` call: injected cast + init call at the
front of `main`, a load where the call stood, the call's use redirected
to the load, two fresh `"nondet"` string globals and one
nondeterministic global. -/
def sSp : PState :=
  ⟨⟨64,
    [⟨"main", false, some
       [.ptrCast 6 (.globalRef 5),
        .call 8 (.direct "__VERIFIER_make_symbolic") .void
          [.val 6, .intConst (.int 64) 4, .castGlobal 7],
        .load 9 (.globalRef 5),
        .other 2 [.val 9]]⟩,
     ⟨"foo", false, none⟩,
     ⟨"__VERIFIER_make_symbolic", false, none⟩],
    [⟨4, "", .arrayI8 7, true, .strNondet⟩,
     ⟨5, "nondet_gl_undef", .int 32, false, .nullOf (.int 32)⟩,
     ⟨7, "", .arrayI8 7, true, .strNondet⟩],
    10⟩,
   ⟨some "__VERIFIER_make_symbolic", some (.int 64), false, [(.int 32, 5)]⟩,
   ["foo"], [diagMsg "foo" false false]⟩

/-- A fresh Zero-policy pass instance on `zM` that inherits `"foo"` in
the process-lifetime `static removed_calls` set from an earlier run. -/
def c9S : PState := ⟨zM, freshPassState true, ["foo"], []⟩

/-- `c9S` after eliminating the `foo` call: rewritten, but silently. -/
def c9S1 : PState := ⟨zS1.M, freshPassState true, ["foo"], []⟩

/-- Which functions a run can encounter: every function of the current
module was in the entry-time name snapshot, except the hook declaration
the pass itself inserts — which, when it was not part of the snapshot,
has no body. -/
def NamesInv (ns : List String) (M : Module) : Prop :=
  (∀ f ∈ M.funcs, f.name ∈ ns ∨ f.name = "__VERIFIER_make_symbolic") ∧
  ("__VERIFIER_make_symbolic" ∉ ns → M.bodyOf "__VERIFIER_make_symbolic" = [])

/-- What the operand-rewriting map of one eligible step can be: the
identity (void result), or `rauwOp` of the erased call's id with a
substitute that is never a global reference and, when it is a value
reference, references a freshly allocated id. -/
def RhoOk (N ciId : Nat) (ρ : Operand → Operand) : Prop :=
  ρ = (fun op => op) ∨
  ∃ v, ρ = rauwOp ciId v ∧ (∀ q, v ≠ Operand.globalRef q) ∧
    (∀ li, v = Operand.val li → N ≤ li)

/-- A `main` whose result of an undefined `foo` call is passed to the
allow-listed `free`. -/
def c6M : Module :=
  ⟨64,
   [⟨"main", false, some
      [.call 1 (.direct "foo") (.int 32) [],
       .call 2 (.direct "free") .void [.val 1]]⟩,
    ⟨"foo", false, none⟩,
    ⟨"free", false, none⟩], [], 3⟩

/-- A fresh Zero-policy pass on `c6M`. -/
def c6S : PState := ⟨c6M, freshPassState true, [], []⟩

/-- `c6S` after the run: the skipped `free` call's argument has been
rewritten by the module-wide use replacement. -/
def c6fin : PState :=
  ⟨⟨64,
    [⟨"main", false, some [.call 2 (.direct "free") .void [.nullConst (.int 32)]]⟩,
     ⟨"foo", false, none⟩,
     ⟨"free", false, none⟩], [], 3⟩,
   freshPassState true, ["foo"], [diagMsg "foo" false true]⟩

/-- Syntactic shape of the initialization call of the global `g` as the
pass creates it: a call to the hook whose first argument is the value of
the pointer cast allocated right after `g` (id `g + 1`). -/
def isInitShape (g : Nat) : Instr → Bool
  | .call _ (.direct nm) _ (Operand.val c :: _) =>
    nm = "__VERIFIER_make_symbolic" && c = g + 1
  | _ => false

/-- The per-global bookkeeping: exactly one initialization-shaped call,
the cast of the global's address is present, and it is the only cast of
that address (so it carries id `g + 1`). -/
def CastFacts (g : Nat) (M : Module) : Prop :=
  (M.allInstrs.filter (fun i => isInitShape g i)).length = 1 ∧
  Instr.ptrCast (g + 1) (.globalRef g) ∈ M.allInstrs ∧
  (∀ i ∈ M.allInstrs, ∀ k src, i = Instr.ptrCast k src →
     src = Operand.globalRef g → k = g + 1)

/-- The run-level invariant behind C3, relative to the allocator mark
`N0` at run entry: every cached nondeterministic global satisfies
`CastFacts` with its initialization call sitting in a fresh-id prefix of
the entry function's body, and every instruction with a fresh id
anywhere is one the pass inserted — never eligible. -/
def C3Inv (N0 : Nat) (s : PState) : Prop :=
  (∀ p ∈ s.st.added_globals,
     N0 ≤ p.2 ∧ p.2 + 4 ≤ s.M.nextId ∧
     CastFacts p.2 s.M ∧
     (∃ inj rest, s.M.bodyOf "main" = inj ++ rest ∧ (∀ i ∈ inj, N0 ≤ i.id) ∧
        ∃ c ∈ inj, isInitShape p.2 c = true)) ∧
  (∀ nm, ∀ i ∈ s.M.bodyOf nm, N0 ≤ i.id → neverElig i)

/-! Basic structural lemmas about instructions and the module editing
primitives. -/

@[simp] theorem Instr.id_mapOps (h : Operand → Operand) (ins : Instr) :
    (Instr.mapOps h ins).id = ins.id := by
  cases ins <;> rfl

theorem sameShape.refl (a : Instr) : sameShape a a := by
  cases a <;> simp [sameShape]

theorem sameShape.symm {a b : Instr} (h : sameShape a b) : sameShape b a := by
  cases a <;> cases b <;> simp_all [sameShape]

theorem sameShape.trans {a b c : Instr} (h1 : sameShape a b) (h2 : sameShape b c) :
    sameShape a c := by
  cases a <;> cases b <;> cases c <;> simp_all [sameShape]

theorem sameShape.id_eq {a b : Instr} (h : sameShape a b) : a.id = b.id := by
  cases a <;> cases b <;> simp_all [sameShape, Instr.id]

theorem sameShape_mapOps (h : Operand → Operand) (a : Instr) :
    sameShape (Instr.mapOps h a) a := by
  cases a <;> simp [sameShape, Instr.mapOps]

theorem eligibleIn_of_sameShape (fs : List Func) {a b : Instr} (h : sameShape a b) :
    eligibleIn fs a = eligibleIn fs b := by
  cases a <;> cases b <;> simp_all [sameShape, eligibleIn]
  rename_i c _ _ c' _ _
  cases c <;> cases c' <;> simp_all [eligibleIn]

/-! Lemmas about function lookup and the name-indexed editing maps. -/

theorem findFuncIn_name {fs : List Func} {nm : String} {f : Func}
    (h : findFuncIn fs nm = some f) : f.name = nm := by
  have := List.find?_some h
  simpa using this

theorem findFuncIn_mem {fs : List Func} {nm : String} {f : Func}
    (h : findFuncIn fs nm = some f) : f ∈ fs :=
  List.mem_of_find?_eq_some h

theorem findFuncIn_map_presName (h : Func → Func)
    (hn : ∀ f, (h f).name = f.name) (fs : List Func) (nm : String) :
    findFuncIn (fs.map h) nm = (findFuncIn fs nm).map h := by
  induction fs with
  | nil => rfl
  | cons f rest ih =>
    unfold findFuncIn at ih ⊢
    by_cases hf : f.name = nm
    · rw [List.map_cons,
        List.find?_cons_of_pos _ (by simp [hn, hf]),
        List.find?_cons_of_pos _ (by simp [hf])]
      rfl
    · rw [List.map_cons,
        List.find?_cons_of_neg _ (by simp [hn, hf]),
        List.find?_cons_of_neg _ (by simp [hf])]
      exact ih

theorem findFuncIn_decomp {fs : List Func} {nm : String} {f : Func}
    (h : findFuncIn fs nm = some f) :
    ∃ l1 l2, fs = l1 ++ f :: l2 ∧ ∀ f' ∈ l1, f'.name ≠ nm := by
  induction fs with
  | nil => simp [findFuncIn] at h
  | cons g rest ih =>
    by_cases hg : g.name = nm
    · unfold findFuncIn at h
      rw [List.find?_cons_of_pos _ (by simp [hg])] at h
      injection h with h2
      subst h2
      exact ⟨[], rest, rfl, by simp⟩
    · unfold findFuncIn at h
      rw [List.find?_cons_of_neg _ (by simp [hg])] at h
      obtain ⟨l1, l2, hfs, hl1⟩ := ih h
      refine ⟨g :: l1, l2, by simp [hfs], ?_⟩
      intro f' hf'
      rcases List.mem_cons.mp hf' with h' | h'
      · subst h'; exact hg
      · exact hl1 f' h'

theorem findFuncIn_append (fs gs : List Func) (nm : String) :
    findFuncIn (fs ++ gs) nm =
      (match findFuncIn fs nm with
       | some f => some f
       | none => findFuncIn gs nm) := by
  induction fs with
  | nil => rfl
  | cons f rest ih =>
    unfold findFuncIn at ih ⊢
    by_cases hf : f.name = nm
    · rw [List.cons_append,
        List.find?_cons_of_pos _ (by simp [hf]),
        List.find?_cons_of_pos _ (by simp [hf])]
    · rw [List.cons_append,
        List.find?_cons_of_neg _ (by simp [hf]),
        List.find?_cons_of_neg _ (by simp [hf])]
      exact ih

theorem findFuncIn_of_prefix_nomatch {l1 l2 : List Func} {f : Func} {nm : String}
    (hf : f.name = nm) (hl1 : ∀ f' ∈ l1, f'.name ≠ nm) :
    findFuncIn (l1 ++ f :: l2) nm = some f := by
  rw [findFuncIn_append]
  have h1 : findFuncIn l1 nm = none := by
    unfold findFuncIn
    apply List.find?_eq_none.mpr
    intro f' hf'
    simpa using hl1 f' hf'
  rw [h1]
  unfold findFuncIn
  rw [List.find?_cons_of_pos _ (by simp [hf])]

/-- Unfolding equation for classification at a direct call. -/
theorem eligibleIn_direct (fs : List Func) (i : Nat) (nm : String) (r : LlvmTy)
    (a : List Operand) :
    eligibleIn fs (.call i (.direct nm) r a) =
      (match findFuncIn fs nm with
       | none => false
       | some callee =>
         if callee.isIntrinsic then false
         else if nm = "nondet_int" || nm = "klee_int" || array_match nm leave_calls then false
         else if strStartsWith nm "__VERIFIER_" then false
         else callee.body.isNone) := rfl

theorem SigStable.rfl (M : Module) : SigStable M M := by
  intro nm
  exact ⟨fun h => Or.inl h, fun f h => ⟨f, h, Eq.refl _, Eq.refl _⟩⟩

theorem SigStable.of_funcs_eq {M M' : Module} (h : M'.funcs = M.funcs) : SigStable M M' := by
  intro nm
  unfold Module.findFunc
  rw [h]
  exact ⟨fun h1 => Or.inl h1, fun f h1 => ⟨f, h1, Eq.refl _, Eq.refl _⟩⟩

theorem SigStable.comp {M1 M2 M3 : Module} (h1 : SigStable M1 M2) (h2 : SigStable M2 M3) :
    SigStable M1 M3 := by
  intro nm
  obtain ⟨n1, s1⟩ := h1 nm
  obtain ⟨n2, s2⟩ := h2 nm
  constructor
  · intro h
    rcases n1 h with h' | h'
    · exact n2 h'
    · exact Or.inr h'
  · intro f h
    obtain ⟨f', hf', hi, hb⟩ := s1 f h
    obtain ⟨f'', hf'', hi', hb'⟩ := s2 f' hf'
    exact ⟨f'', hf'', hi'.trans hi, hb'.trans hb⟩

theorem strStartsWith_vms : strStartsWith "__VERIFIER_make_symbolic" "__VERIFIER_" = true := by
  decide

/-- A skip-classified call site stays skip-classified across any
`SigStable` module evolution. -/
theorem eligible_false_stable {M M' : Module} (h : SigStable M M') {ins : Instr}
    (he : eligibleIn M.funcs ins = false) : eligibleIn M'.funcs ins = false := by
  cases ins with
  | call i c r a =>
    cases c with
    | inlineAsm => rfl
    | indirect => rfl
    | direct nm =>
      obtain ⟨hnone, hsome⟩ := h nm
      rw [eligibleIn_direct] at he ⊢
      cases hM : findFuncIn M.funcs nm with
      | none =>
        rcases hnone hM with h' | h'
        · have h2 : findFuncIn M'.funcs nm = none := h'
          rw [h2]
        · subst h'
          cases hM' : findFuncIn M'.funcs "__VERIFIER_make_symbolic" with
          | none => rfl
          | some f' =>
            by_cases hi : f'.isIntrinsic
            · simp [hi]
            · simp [hi, strStartsWith_vms]
      | some f =>
        obtain ⟨f', hf', hi, hb⟩ := hsome f hM
        have h2 : findFuncIn M'.funcs nm = some f' := hf'
        rw [hM] at he
        rw [h2]
        simp only at he ⊢
        rw [hi, hb]
        exact he
  | load i s => rfl
  | ptrCast i s => rfl
  | other i ops => rfl

theorem neverElig_load (i : Nat) (s : Operand) : neverElig (.load i s) := fun _ => rfl

theorem neverElig_ptrCast (i : Nat) (s : Operand) : neverElig (.ptrCast i s) := fun _ => rfl

theorem neverElig_other (i : Nat) (ops : List Operand) : neverElig (.other i ops) := fun _ => rfl

theorem neverElig_vmsCall (i : Nat) (r : LlvmTy) (a : List Operand) :
    neverElig (.call i (.direct "__VERIFIER_make_symbolic") r a) := by
  intro fs
  rw [eligibleIn_direct]
  cases h : findFuncIn fs "__VERIFIER_make_symbolic" with
  | none => rfl
  | some f =>
    by_cases hi : f.isIntrinsic
    · simp [hi]
    · simp [hi, strStartsWith_vms]

theorem neverElig_stable {M' : Module} {ins : Instr} (h : neverElig ins) :
    eligibleIn M'.funcs ins = false := h M'.funcs

/-! Equations for the name-indexed editing maps used by `setBody`,
`insertBefore` and `eraseInstr`, and for the plain map used by `rauw`. -/

theorem findFuncIn_edit (fs : List Func) (nm nm' : String) (g : Func → Func)
    (hg : ∀ f, (g f).name = f.name) :
    findFuncIn (fs.map (fun f => if f.name = nm then g f else f)) nm' =
      (if nm' = nm then (findFuncIn fs nm').map g else findFuncIn fs nm') := by
  rw [findFuncIn_map_presName _ (fun f => by by_cases hf : f.name = nm <;> simp [hf, hg])]
  cases hfind : findFuncIn fs nm' with
  | none => by_cases h : nm' = nm <;> simp [h]
  | some f =>
    have hname := findFuncIn_name hfind
    by_cases h : nm' = nm
    · subst h
      simp [hname]
    · simp [hname, h]

theorem map_editNamed_id {nm : String} (g : Func → Func) :
    ∀ (l : List Func), (∀ f' ∈ l, f'.name ≠ nm) →
      l.map (fun f' => if f'.name = nm then g f' else f') = l := by
  intro l hl
  induction l with
  | nil => rfl
  | cons a t ih =>
    rw [List.map_cons, if_neg (hl a (by simp)), ih (fun x hx => hl x (by simp [hx]))]

theorem funcs_editNamed_decomp {fs : List Func} {nm : String} {f : Func}
    (hnodup : (fs.map Func.name).Nodup) (hfind : findFuncIn fs nm = some f)
    (g : Func → Func) :
    ∃ l1 l2, fs = l1 ++ f :: l2 ∧
      fs.map (fun f' => if f'.name = nm then g f' else f') = l1 ++ g f :: l2 ∧
      (∀ f' ∈ l1, f'.name ≠ nm) ∧ (∀ f' ∈ l2, f'.name ≠ nm) := by
  obtain ⟨l1, l2, hfs, hl1⟩ := findFuncIn_decomp hfind
  have hfname : f.name = nm := findFuncIn_name hfind
  have hl2 : ∀ f' ∈ l2, f'.name ≠ nm := by
    subst hfs
    rw [List.map_append, List.map_cons] at hnodup
    have h2 := (List.nodup_append.mp hnodup).2.1
    rw [List.nodup_cons] at h2
    intro f' hf' heq
    apply h2.1
    rw [hfname, ← heq]
    exact List.mem_map_of_mem Func.name hf'
  refine ⟨l1, l2, hfs, ?_, hl1, hl2⟩
  subst hfs
  rw [List.map_append, List.map_cons, map_editNamed_id g l1 hl1,
    map_editNamed_id g l2 hl2, if_pos hfname]

theorem Option.getD_map_nil (o : Option (List Instr)) (h : List Instr → List Instr)
    (hnil : h [] = []) : (o.map h).getD [] = h (o.getD []) := by
  cases o <;> simp [hnil]

/-! `findFunc` and `bodyOf` equations for each editing primitive. -/

theorem findFunc_setBody (M : Module) (nm b nm') :
    (M.setBody nm b).findFunc nm' =
      (if nm' = nm then (M.findFunc nm').map (fun f => { f with body := some b })
       else M.findFunc nm') := by
  unfold Module.setBody Module.findFunc
  exact findFuncIn_edit M.funcs nm nm' _ (fun f => rfl)

theorem findFunc_insertBefore (M : Module) (fname tid new nm') :
    (M.insertBefore fname tid new).findFunc nm' =
      (if nm' = fname then
        (M.findFunc nm').map (fun f => { f with body := f.body.map (insertBeforeId tid new) })
       else M.findFunc nm') := by
  unfold Module.insertBefore Module.findFunc
  exact findFuncIn_edit M.funcs fname nm' _ (fun f => rfl)

theorem findFunc_eraseInstr (M : Module) (fname tid nm') :
    (M.eraseInstr fname tid).findFunc nm' =
      (if nm' = fname then
        (M.findFunc nm').map
          (fun f => { f with body := f.body.map (List.eraseP (fun i => i.id = tid)) })
       else M.findFunc nm') := by
  unfold Module.eraseInstr Module.findFunc
  exact findFuncIn_edit M.funcs fname nm' _ (fun f => rfl)

theorem findFunc_rauw (M : Module) (old new nm') :
    (M.rauw old new).findFunc nm' =
      (M.findFunc nm').map
        (fun f => { f with body := f.body.map (fun b => b.map (Instr.mapOps (rauwOp old new))) }) := by
  unfold Module.rauw Module.findFunc
  dsimp only
  exact findFuncIn_map_presName
    (fun f => { f with body := f.body.map (fun b => b.map (Instr.mapOps (rauwOp old new))) })
    (fun f => rfl) M.funcs nm'

theorem getOrInsertVms_found {M : Module} {f : Func}
    (h : M.findFunc "__VERIFIER_make_symbolic" = some f) : M.getOrInsertVms = M := by
  unfold Module.getOrInsertVms
  rw [show M.findFunc "__VERIFIER_make_symbolic" = some f from h]

theorem getOrInsertVms_none {M : Module}
    (h : M.findFunc "__VERIFIER_make_symbolic" = none) :
    M.getOrInsertVms =
      { M with funcs := M.funcs ++ [⟨"__VERIFIER_make_symbolic", false, none⟩] } := by
  unfold Module.getOrInsertVms
  rw [show M.findFunc "__VERIFIER_make_symbolic" = none from h]

theorem findFunc_getOrInsertVms_of_some {M : Module} {nm' : String} {f : Func}
    (h : M.findFunc nm' = some f) : M.getOrInsertVms.findFunc nm' = some f := by
  cases hv : M.findFunc "__VERIFIER_make_symbolic" with
  | some f0 => rw [getOrInsertVms_found hv]; exact h
  | none =>
    rw [getOrInsertVms_none hv]
    show findFuncIn (M.funcs ++ _) nm' = some f
    rw [findFuncIn_append, show findFuncIn M.funcs nm' = some f from h]

theorem findFunc_getOrInsertVms_of_none {M : Module} {nm' : String}
    (h : M.findFunc nm' = none) :
    M.getOrInsertVms.findFunc nm' =
      (if nm' = "__VERIFIER_make_symbolic"
       then some ⟨"__VERIFIER_make_symbolic", false, none⟩ else none) := by
  cases hv : M.findFunc "__VERIFIER_make_symbolic" with
  | some f0 =>
    rw [getOrInsertVms_found hv, h]
    have hne : nm' ≠ "__VERIFIER_make_symbolic" := by
      intro hc; rw [hc, hv] at h; cases h
    rw [if_neg hne]
  | none =>
    rw [getOrInsertVms_none hv]
    show findFuncIn (M.funcs ++ _) nm' = _
    rw [findFuncIn_append, show findFuncIn M.funcs nm' = none from h]
    by_cases hc : nm' = "__VERIFIER_make_symbolic"
    · subst hc
      simp [findFuncIn, List.find?, if_pos]
    · have : (⟨"__VERIFIER_make_symbolic", false, none⟩ : Func).name ≠ nm' :=
        fun hx => hc (hx ▸ rfl)
      simp [findFuncIn, List.find?, this, hc]

theorem bodyOf_getOrInsertVms (M : Module) (nm') :
    M.getOrInsertVms.bodyOf nm' = M.bodyOf nm' := by
  unfold Module.bodyOf
  cases hf : M.findFunc nm' with
  | some f => rw [findFunc_getOrInsertVms_of_some hf]
  | none =>
    rw [findFunc_getOrInsertVms_of_none hf]
    by_cases hc : nm' = "__VERIFIER_make_symbolic" <;> simp [hc]

theorem bodyOf_setBody_same {M : Module} {nm b} (h : (M.findFunc nm).isSome) :
    (M.setBody nm b).bodyOf nm = b := by
  unfold Module.bodyOf
  rw [findFunc_setBody, if_pos (Eq.refl _)]
  cases hf : M.findFunc nm with
  | none => rw [hf] at h; simp at h
  | some f => simp

theorem bodyOf_setBody_other {M : Module} {nm b nm'} (h : nm' ≠ nm) :
    (M.setBody nm b).bodyOf nm' = M.bodyOf nm' := by
  unfold Module.bodyOf
  rw [findFunc_setBody, if_neg h]

theorem bodyOf_insertBefore_same (M : Module) (fname tid new) :
    (M.insertBefore fname tid new).bodyOf fname = insertBeforeId tid new (M.bodyOf fname) := by
  unfold Module.bodyOf
  rw [findFunc_insertBefore, if_pos (Eq.refl _)]
  cases hf : M.findFunc fname with
  | none => rfl
  | some f =>
    simp only [Option.map_some]
    exact Option.getD_map_nil f.body _ rfl

theorem bodyOf_insertBefore_other {M : Module} {fname tid new nm'} (h : nm' ≠ fname) :
    (M.insertBefore fname tid new).bodyOf nm' = M.bodyOf nm' := by
  unfold Module.bodyOf
  rw [findFunc_insertBefore, if_neg h]

theorem bodyOf_eraseInstr_same (M : Module) (fname tid) :
    (M.eraseInstr fname tid).bodyOf fname =
      (M.bodyOf fname).eraseP (fun i => i.id = tid) := by
  unfold Module.bodyOf
  rw [findFunc_eraseInstr, if_pos (Eq.refl _)]
  cases hf : M.findFunc fname with
  | none => rfl
  | some f =>
    simp only [Option.map_some]
    exact Option.getD_map_nil f.body _ rfl

theorem bodyOf_eraseInstr_other {M : Module} {fname tid nm'} (h : nm' ≠ fname) :
    (M.eraseInstr fname tid).bodyOf nm' = M.bodyOf nm' := by
  unfold Module.bodyOf
  rw [findFunc_eraseInstr, if_neg h]

theorem bodyOf_rauw (M : Module) (old new nm') :
    (M.rauw old new).bodyOf nm' = (M.bodyOf nm').map (Instr.mapOps (rauwOp old new)) := by
  unfold Module.bodyOf
  rw [findFunc_rauw]
  cases hf : M.findFunc nm' with
  | none => rfl
  | some f =>
    simp only [Option.map_some]
    exact Option.getD_map_nil f.body _ rfl

/-! `SigStable` holds for every editing primitive the pass performs. -/

theorem SigStable_setBody {M : Module} {nm : String} (b : List Instr)
    (h : ∀ f, M.findFunc nm = some f → f.body.isNone = false) :
    SigStable M (M.setBody nm b) := by
  intro nm'
  constructor
  · intro hn
    left
    rw [findFunc_setBody]
    by_cases hc : nm' = nm
    · subst hc; simp [hn]
    · simp [hc, hn]
  · intro f hf
    rw [findFunc_setBody]
    by_cases hc : nm' = nm
    · subst hc
      refine ⟨{ f with body := some b }, by simp [hf], Eq.refl _, ?_⟩
      simp [h f hf]
    · exact ⟨f, by simp [hc, hf], Eq.refl _, Eq.refl _⟩

theorem SigStable_insertBefore (M : Module) (fname : String) (tid : Nat) (new : Instr) :
    SigStable M (M.insertBefore fname tid new) := by
  intro nm'
  constructor
  · intro hn
    left
    rw [findFunc_insertBefore]
    by_cases hc : nm' = fname
    · subst hc; simp [hn]
    · simp [hc, hn]
  · intro f hf
    rw [findFunc_insertBefore]
    by_cases hc : nm' = fname
    · subst hc
      refine ⟨{ f with body := f.body.map (insertBeforeId tid new) }, by simp [hf], Eq.refl _, ?_⟩
      cases hb : f.body <;> simp [hb]
    · exact ⟨f, by simp [hc, hf], Eq.refl _, Eq.refl _⟩

theorem SigStable_eraseInstr (M : Module) (fname : String) (tid : Nat) :
    SigStable M (M.eraseInstr fname tid) := by
  intro nm'
  constructor
  · intro hn
    left
    rw [findFunc_eraseInstr]
    by_cases hc : nm' = fname
    · subst hc; simp [hn]
    · simp [hc, hn]
  · intro f hf
    rw [findFunc_eraseInstr]
    by_cases hc : nm' = fname
    · subst hc
      refine ⟨{ f with body := f.body.map (List.eraseP (fun i => i.id = tid)) },
        by simp [hf], Eq.refl _, ?_⟩
      cases hb : f.body <;> simp [hb]
    · exact ⟨f, by simp [hc, hf], Eq.refl _, Eq.refl _⟩

theorem SigStable_rauw (M : Module) (old : Nat) (new : Operand) :
    SigStable M (M.rauw old new) := by
  intro nm'
  constructor
  · intro hn
    left
    rw [findFunc_rauw]
    simp [hn]
  · intro f hf
    rw [findFunc_rauw]
    refine ⟨{ f with body := f.body.map (fun b => b.map (Instr.mapOps (rauwOp old new))) },
      by simp [hf], Eq.refl _, ?_⟩
    cases hb : f.body <;> simp [hb]

theorem SigStable_getOrInsertVms (M : Module) : SigStable M M.getOrInsertVms := by
  intro nm'
  constructor
  · intro hn
    rw [findFunc_getOrInsertVms_of_none hn]
    by_cases hc : nm' = "__VERIFIER_make_symbolic"
    · exact Or.inr hc
    · simp [hc]
  · intro f hf
    exact ⟨f, findFunc_getOrInsertVms_of_some hf, Eq.refl _, Eq.refl _⟩

/-! `allInstrs` equations for the editing primitives. -/

theorem allInstrs_funcs_decomp {l1 l2 : List Func} {f : Func} {M : Module}
    (h : M.funcs = l1 ++ f :: l2) :
    M.allInstrs = (l1.flatMap (fun f' => f'.body.getD [])) ++ f.body.getD [] ++
      (l2.flatMap (fun f' => f'.body.getD [])) := by
  unfold Module.allInstrs
  rw [h, List.flatMap_append, List.flatMap_cons, List.append_assoc]

theorem allInstrs_editNamed (M : Module) {nm : String} {f : Func}
    (hnodup : (M.funcs.map Func.name).Nodup)
    (hfind : M.findFunc nm = some f) (g : Func → Func) (gl : List GlobalVar) (ni : Nat) :
    ∃ A1 A2, M.allInstrs = A1 ++ f.body.getD [] ++ A2 ∧
      (Module.mk M.ptrBits
        (M.funcs.map (fun f' => if f'.name = nm then g f' else f')) gl ni).allInstrs
        = A1 ++ (g f).body.getD [] ++ A2 := by
  obtain ⟨l1, l2, hfs, hmap, hl1, hl2⟩ := funcs_editNamed_decomp hnodup hfind g
  refine ⟨l1.flatMap (fun f' => f'.body.getD []), l2.flatMap (fun f' => f'.body.getD []), ?_, ?_⟩
  · exact allInstrs_funcs_decomp hfs
  · unfold Module.allInstrs
    dsimp only
    rw [hmap, List.flatMap_append, List.flatMap_cons, List.append_assoc]

theorem allInstrs_rauw (M : Module) (old : Nat) (new : Operand) :
    (M.rauw old new).allInstrs = M.allInstrs.map (Instr.mapOps (rauwOp old new)) := by
  unfold Module.rauw Module.allInstrs
  dsimp only
  induction M.funcs with
  | nil => rfl
  | cons f fs ih =>
    rw [List.map_cons, List.flatMap_cons, List.flatMap_cons, List.map_append, ih]
    congr 1
    exact Option.getD_map_nil f.body _ rfl

theorem allInstrs_getOrInsertVms (M : Module) :
    M.getOrInsertVms.allInstrs = M.allInstrs := by
  cases hv : M.findFunc "__VERIFIER_make_symbolic" with
  | some f => rw [getOrInsertVms_found hv]
  | none =>
    rw [getOrInsertVms_none hv]
    unfold Module.allInstrs
    dsimp only
    rw [List.flatMap_append]
    simp

theorem funcsNames_editNamed (fs : List Func) (nm : String) (g : Func → Func)
    (hg : ∀ f, (g f).name = f.name) :
    (fs.map (fun f' => if f'.name = nm then g f' else f')).map Func.name = fs.map Func.name := by
  rw [List.map_map]
  apply List.map_congr_left
  intro a ha
  by_cases hc : a.name = nm <;> simp [hc, hg]

theorem funcsNames_editBody (fs : List Func) (nm : String) (bf : Func → Option (List Instr)) :
    (fs.map (fun f' => if f'.name = nm then { f' with body := bf f' } else f')).map Func.name
      = fs.map Func.name :=
  funcsNames_editNamed fs nm (fun f' => { f' with body := bf f' }) (fun _ => rfl)

theorem findFunc_congr_funcs {M M' : Module} (h : M'.funcs = M.funcs) (nm : String) :
    M'.findFunc nm = M.findFunc nm := by
  unfold Module.findFunc
  rw [h]

theorem bodyOf_congr_funcs {M M' : Module} (h : M'.funcs = M.funcs) (nm : String) :
    M'.bodyOf nm = M.bodyOf nm := by
  unfold Module.bodyOf
  rw [findFunc_congr_funcs h]

theorem allInstrs_congr_funcs {M M' : Module} (h : M'.funcs = M.funcs) :
    M'.allInstrs = M.allInstrs := by
  unfold Module.allInstrs
  rw [h]

/-- What `get_size_t` can do: it returns some type and only touches the
`_size_t_Ty` cache field. -/
theorem get_size_t_spec (M : Module) (st : PassState) :
    ∃ t st', get_size_t M st = (t, st') ∧
      st'.added_globals = st.added_globals ∧ st'.vms = st.vms ∧ st'.nosym = st.nosym := by
  unfold get_size_t
  cases hs : st.size_t_Ty with
  | some t => exact ⟨t, st, rfl, rfl, rfl, rfl⟩
  | none =>
    refine ⟨_, _, rfl, rfl, rfl, rfl⟩

/-- What `get_verifier_make_symbolic` can do, given that the `_vms` cache
is well formed: it returns the hook's name, possibly inserts the hook's
declaration, and only touches the `_vms` / `_size_t_Ty` cache fields. -/
theorem gvms_spec (M : Module) (st : PassState)
    (hvms : st.vms = none ∨ st.vms = some "__VERIFIER_make_symbolic") :
    ∃ M2 st2, get_verifier_make_symbolic M st = ("__VERIFIER_make_symbolic", M2, st2) ∧
      (M2.funcs = M.funcs ∨
        (M.findFunc "__VERIFIER_make_symbolic" = none ∧
          M2.funcs = M.funcs ++ [⟨"__VERIFIER_make_symbolic", false, none⟩])) ∧
      M2.globals = M.globals ∧ M2.nextId = M.nextId ∧ M2.ptrBits = M.ptrBits ∧
      st2.added_globals = st.added_globals ∧ st2.nosym = st.nosym ∧
      st2.vms = some "__VERIFIER_make_symbolic" := by
  unfold get_verifier_make_symbolic
  rcases hvms with hv | hv
  · rw [hv]
    refine ⟨M.getOrInsertVms, _, rfl, ?_, ?_, ?_, ?_, ?_, ?_, rfl⟩
    · cases hvf : M.findFunc "__VERIFIER_make_symbolic" with
      | some f => rw [getOrInsertVms_found hvf]; exact Or.inl rfl
      | none => rw [getOrInsertVms_none hvf]; exact Or.inr ⟨rfl, rfl⟩
    · cases hvf : M.findFunc "__VERIFIER_make_symbolic" with
      | some f => rw [getOrInsertVms_found hvf]
      | none => rw [getOrInsertVms_none hvf]
    · cases hvf : M.findFunc "__VERIFIER_make_symbolic" with
      | some f => rw [getOrInsertVms_found hvf]
      | none => rw [getOrInsertVms_none hvf]
    · cases hvf : M.findFunc "__VERIFIER_make_symbolic" with
      | some f => rw [getOrInsertVms_found hvf]
      | none => rw [getOrInsertVms_none hvf]
    · obtain ⟨t, st', hs, ha, _, _⟩ := get_size_t_spec M st
      rw [hs]
      exact ha
    · obtain ⟨t, st', hs, _, _, hn⟩ := get_size_t_spec M st
      rw [hs]
      exact hn
  · rw [hv]
    exact ⟨M, st, rfl, Or.inl rfl, rfl, rfl, rfl, rfl, rfl, hv⟩

theorem getGlobalNondet_hit {Ty : LlvmTy} {M : Module} {st : PassState} {g : Nat}
    (h : lookupTy st.added_globals Ty = some g) :
    getGlobalNondet Ty M st = .ok (g, M, st) := by
  unfold getGlobalNondet
  rw [h]

theorem findFuncIn_none_not_mem {fs : List Func} {nm : String}
    (h : findFuncIn fs nm = none) : nm ∉ fs.map Func.name := by
  intro hmem
  obtain ⟨f, hf, hfn⟩ := List.mem_map.mp hmem
  have := List.find?_eq_none.mp h f hf
  simp [hfn] at this

theorem nodup_names_append_vms {fs : List Func}
    (h : (fs.map Func.name).Nodup) (hnone : findFuncIn fs "__VERIFIER_make_symbolic" = none) :
    ((fs ++ [(⟨"__VERIFIER_make_symbolic", false, none⟩ : Func)]).map Func.name).Nodup := by
  rw [List.map_append]
  rw [List.nodup_append]
  refine ⟨h, by simp, ?_⟩
  intro a ha hb
  simp only [List.map_cons, List.map_nil, List.mem_singleton] at hb
  subst hb
  exact findFuncIn_none_not_mem hnone ha

theorem allInstrs_append_decl (fs : List Func) :
    (fs ++ [(⟨"__VERIFIER_make_symbolic", false, none⟩ : Func)]).flatMap
      (fun f => f.body.getD []) = fs.flatMap (fun f => f.body.getD []) := by
  rw [List.flatMap_append]
  simp

theorem getGlobalNondet_miss {Ty : LlvmTy} {M : Module} {st : PassState} {mainF : Func}
    (hmiss : lookupTy st.added_globals Ty = none)
    (hvms : st.vms = none ∨ st.vms = some "__VERIFIER_make_symbolic")
    (hmain : M.findFunc "main" = some mainF)
    (hne : mainF.body.getD [] ≠ []) :
    ∃ M' st' szTy,
      getGlobalNondet Ty M st = .ok (M.nextId, M', st') ∧
      M'.bodyOf "main" =
        Instr.ptrCast (M.nextId + 1) (.globalRef M.nextId) ::
        Instr.call (M.nextId + 3) (.direct "__VERIFIER_make_symbolic") .void
          [.val (M.nextId + 1), .intConst szTy (typeAllocSize M.ptrBits Ty),
           .castGlobal (M.nextId + 2)] ::
        M.bodyOf "main" ∧
      (∀ nm, nm ≠ "main" → M'.bodyOf nm = M.bodyOf nm) ∧
      M'.globals = M.globals ++
        [⟨M.nextId, "nondet_gl_undef", Ty, false, .nullOf Ty⟩,
         ⟨M.nextId + 2, "", .arrayI8 7, true, .strNondet⟩] ∧
      M'.nextId = M.nextId + 4 ∧ M'.ptrBits = M.ptrBits ∧
      st'.added_globals = st.added_globals ++ [(Ty, M.nextId)] ∧
      st'.nosym = st.nosym ∧ st'.vms = some "__VERIFIER_make_symbolic" ∧
      SigStable M M' ∧
      (M'.funcs.map Func.name = M.funcs.map Func.name ∨
        (findFuncIn M.funcs "__VERIFIER_make_symbolic" = none ∧
         M'.funcs.map Func.name = M.funcs.map Func.name ++ ["__VERIFIER_make_symbolic"])) ∧
      ((M.funcs.map Func.name).Nodup →
        ∃ A1 A2, M.allInstrs = A1 ++ M.bodyOf "main" ++ A2 ∧
          M'.allInstrs = A1 ++
            (Instr.ptrCast (M.nextId + 1) (.globalRef M.nextId) ::
             Instr.call (M.nextId + 3) (.direct "__VERIFIER_make_symbolic") .void
               [.val (M.nextId + 1), .intConst szTy (typeAllocSize M.ptrBits Ty),
                .castGlobal (M.nextId + 2)] ::
             M.bodyOf "main") ++ A2) := by
  have hbody : M.bodyOf "main" = mainF.body.getD [] := by
    unfold Module.bodyOf
    rw [hmain]
  unfold getGlobalNondet
  rw [hmiss]
  obtain ⟨M2, st2, hg, hfu, hgl, hni, hpb, hag, hns, hv2⟩ :=
    gvms_spec { M with
      globals := M.globals ++ [⟨M.nextId, "nondet_gl_undef", Ty, false, .nullOf Ty⟩],
      nextId := M.nextId + 1 }
      { st with added_globals := st.added_globals ++ [(Ty, M.nextId)] }
      (by simpa using hvms)
  simp only [hg]
  obtain ⟨szTy, st3, hs, hag3, hv3, hns3⟩ := get_size_t_spec { M2 with nextId := M2.nextId + 1 } st2
  simp only [hs]
  simp only at hgl hni hpb hag hns
  have hfu' : M2.funcs = M.funcs ∨
      (findFuncIn M.funcs "__VERIFIER_make_symbolic" = none ∧
       M2.funcs = M.funcs ++ [⟨"__VERIFIER_make_symbolic", false, none⟩]) := by
    rcases hfu with h | ⟨hv, h⟩
    · exact Or.inl h
    · exact Or.inr ⟨hv, h⟩
  clear hfu
  have hfind : findFuncIn M2.funcs "main" = some mainF := by
    rcases hfu' with h | ⟨hv, h⟩
    · rw [h]; exact hmain
    · rw [h, findFuncIn_append, show findFuncIn M.funcs "main" = some mainF from hmain]
  have hfind2 :
      (Module.mk M2.ptrBits M2.funcs
        (M2.globals ++ [⟨M2.nextId + 1, "", .arrayI8 7, true, .strNondet⟩])
        (M2.nextId + 1 + 1 + 1)).findFunc "main" = some mainF := hfind
  rw [hfind2]
  dsimp only
  cases hb : mainF.body.getD [] with
  | nil => exact absurd hb hne
  | cons x xs =>
    rw [hb] at hbody
    refine ⟨_, st3, szTy, rfl, ?_, ?_, ?_, ?_, ?_, ?_, ?_, ?_, ?_, ?_, ?_⟩
    · rw [bodyOf_setBody_same (Option.isSome_iff_exists.mpr ⟨mainF, hfind2⟩), hbody, hni, hpb]
    · intro nm hnm
      rw [bodyOf_setBody_other hnm]
      rcases hfu' with h | ⟨hv, h⟩
      · exact bodyOf_congr_funcs h nm
      · unfold Module.bodyOf Module.findFunc
        dsimp only
        rw [h, findFuncIn_append]
        cases hf : findFuncIn M.funcs nm with
        | some f => rfl
        | none =>
          by_cases hc : nm = "__VERIFIER_make_symbolic"
          · subst hc
            simp [findFuncIn, List.find?]
          · have hne2 : (⟨"__VERIFIER_make_symbolic", false, none⟩ : Func).name ≠ nm :=
              fun hx => hc (hx ▸ rfl)
            simp [findFuncIn, List.find?, hne2]
    · unfold Module.setBody
      dsimp only
      rw [hgl, hni, List.append_assoc]
      rfl
    · unfold Module.setBody
      dsimp only
      omega
    · unfold Module.setBody
      dsimp only
      exact hpb
    · rw [hag3, hag]
    · rw [hns3, hns]
    · rw [hv3, hv2]
    · have s1 : SigStable M (Module.mk M2.ptrBits M2.funcs
          (M2.globals ++ [⟨M2.nextId + 1, "", .arrayI8 7, true, .strNondet⟩])
          (M2.nextId + 1 + 1 + 1)) := by
        rcases hfu' with h | ⟨hv, h⟩
        · exact SigStable.of_funcs_eq h
        · intro nm
          constructor
          · intro hn
            unfold Module.findFunc
            dsimp only
            rw [h, findFuncIn_append, show findFuncIn M.funcs nm = none from hn]
            by_cases hc : nm = "__VERIFIER_make_symbolic"
            · exact Or.inr hc
            · left
              have hne2 : (⟨"__VERIFIER_make_symbolic", false, none⟩ : Func).name ≠ nm :=
                fun hx => hc (hx ▸ rfl)
              simp [findFuncIn, List.find?, hne2]
          · intro f hf
            refine ⟨f, ?_, Eq.refl _, Eq.refl _⟩
            unfold Module.findFunc
            dsimp only
            rw [h, findFuncIn_append, show findFuncIn M.funcs nm = some f from hf]
      refine SigStable.comp s1 (SigStable_setBody _ ?_)
      intro f hf
      rw [hfind2] at hf
      injection hf with hf2
      subst hf2
      cases hmb : mainF.body with
      | none => rw [hmb] at hb; exact absurd hb (by simp)
      | some l => simp [hmb]
    · unfold Module.setBody
      dsimp only
      rw [funcsNames_editBody]
      rcases hfu' with h | ⟨hv, h⟩
      · left; rw [h]
      · exact Or.inr ⟨hv, by rw [h, List.map_append]; rfl⟩
    · intro hnodup
      have hnodup2 : (M2.funcs.map Func.name).Nodup := by
        rcases hfu' with h | ⟨hv, h⟩
        · rw [h]; exact hnodup
        · rw [h]; exact nodup_names_append_vms hnodup hv
      have hpre : (Module.mk M2.ptrBits M2.funcs
          (M2.globals ++ [⟨M2.nextId + 1, "", .arrayI8 7, true, .strNondet⟩])
          (M2.nextId + 1 + 1 + 1)).allInstrs = M.allInstrs := by
        unfold Module.allInstrs
        dsimp only
        rcases hfu' with h | ⟨hv, h⟩
        · rw [h]
        · rw [h]; exact allInstrs_append_decl M.funcs
      obtain ⟨A1, A2, hA, hA'⟩ := allInstrs_editNamed (Module.mk M2.ptrBits M2.funcs
          (M2.globals ++ [⟨M2.nextId + 1, "", .arrayI8 7, true, .strNondet⟩])
          (M2.nextId + 1 + 1 + 1)) hnodup2 hfind2
          (fun f => { f with body := some (Instr.ptrCast M2.nextId (Operand.globalRef M.nextId) ::
             Instr.call (M2.nextId + 1 + 1) (CalleeRef.direct "__VERIFIER_make_symbolic")
               LlvmTy.void
               [Operand.val M2.nextId, Operand.intConst szTy (typeAllocSize M2.ptrBits Ty),
                Operand.castGlobal (M2.nextId + 1)] :: (x :: xs)) })
          (M2.globals ++ [⟨M2.nextId + 1, "", .arrayI8 7, true, .strNondet⟩])
          (M2.nextId + 1 + 1 + 1)
      rw [hpre] at hA
      rw [hb] at hA
      refine ⟨A1, A2, by rw [hA, hbody], ?_⟩
      rw [hbody, hni, hpb]
      rw [hni, hpb] at hA'
      exact hA'

/-- When the per-type cache misses and the module has no `main`, the run
dies on `assert(main && "Do not have main")`. -/
theorem getGlobalNondet_noMain {Ty : LlvmTy} {M : Module} {st : PassState}
    (hmiss : lookupTy st.added_globals Ty = none)
    (hvms : st.vms = none ∨ st.vms = some "__VERIFIER_make_symbolic")
    (hmain : M.findFunc "main" = none) :
    getGlobalNondet Ty M st = .error .assertNoMain := by
  unfold getGlobalNondet
  rw [hmiss]
  obtain ⟨M2, st2, hg, hfu, hgl, hni, hpb, hag, hns, hv2⟩ :=
    gvms_spec { M with
      globals := M.globals ++ [⟨M.nextId, "nondet_gl_undef", Ty, false, .nullOf Ty⟩],
      nextId := M.nextId + 1 }
      { st with added_globals := st.added_globals ++ [(Ty, M.nextId)] }
      (by simpa using hvms)
  simp only [hg]
  obtain ⟨szTy, st3, hs, hag3, hv3, hns3⟩ := get_size_t_spec { M2 with nextId := M2.nextId + 1 } st2
  simp only [hs]
  have hfu' : M2.funcs = M.funcs ∨
      M2.funcs = M.funcs ++ [⟨"__VERIFIER_make_symbolic", false, none⟩] := by
    rcases hfu with h | ⟨hv, h⟩
    · exact Or.inl h
    · exact Or.inr h
  have hfind : findFuncIn M2.funcs "main" = none := by
    rcases hfu' with h | h
    · rw [h]; exact hmain
    · rw [h, findFuncIn_append, show findFuncIn M.funcs "main" = none from hmain]
      have hne2 : (⟨"__VERIFIER_make_symbolic", false, none⟩ : Func).name ≠ "main" := by
        show "__VERIFIER_make_symbolic" ≠ "main"
        decide
      simp [findFuncIn, List.find?, hne2]
  have hfind2 :
      (Module.mk M2.ptrBits M2.funcs
        (M2.globals ++ [⟨M2.nextId + 1, "", .arrayI8 7, true, .strNondet⟩])
        (M2.nextId + 1 + 1 + 1)).findFunc "main" = none := hfind
  rw [hfind2]

/-- When the per-type cache misses and `main` exists but offers no
instruction, the run fails at the unchecked dereference
`*(block.begin())` — there is no assertion guarding this case. -/
theorem getGlobalNondet_emptyMain {Ty : LlvmTy} {M : Module} {st : PassState} {mainF : Func}
    (hmiss : lookupTy st.added_globals Ty = none)
    (hvms : st.vms = none ∨ st.vms = some "__VERIFIER_make_symbolic")
    (hmain : M.findFunc "main" = some mainF)
    (hempty : mainF.body.getD [] = []) :
    getGlobalNondet Ty M st = .error .derefEmptyEntry := by
  unfold getGlobalNondet
  rw [hmiss]
  obtain ⟨M2, st2, hg, hfu, hgl, hni, hpb, hag, hns, hv2⟩ :=
    gvms_spec { M with
      globals := M.globals ++ [⟨M.nextId, "nondet_gl_undef", Ty, false, .nullOf Ty⟩],
      nextId := M.nextId + 1 }
      { st with added_globals := st.added_globals ++ [(Ty, M.nextId)] }
      (by simpa using hvms)
  simp only [hg]
  obtain ⟨szTy, st3, hs, hag3, hv3, hns3⟩ := get_size_t_spec { M2 with nextId := M2.nextId + 1 } st2
  simp only [hs]
  have hfu' : M2.funcs = M.funcs ∨
      M2.funcs = M.funcs ++ [⟨"__VERIFIER_make_symbolic", false, none⟩] := by
    rcases hfu with h | ⟨hv, h⟩
    · exact Or.inl h
    · exact Or.inr h
  have hfind : findFuncIn M2.funcs "main" = some mainF := by
    rcases hfu' with h | h
    · rw [h]; exact hmain
    · rw [h, findFuncIn_append, show findFuncIn M.funcs "main" = some mainF from hmain]
  have hfind2 :
      (Module.mk M2.ptrBits M2.funcs
        (M2.globals ++ [⟨M2.nextId + 1, "", .arrayI8 7, true, .strNondet⟩])
        (M2.nextId + 1 + 1 + 1)).findFunc "main" = some mainF := hfind
  rw [hfind2]
  dsimp only
  rw [hempty]

theorem lookupTy_mem {l : List (LlvmTy × Nat)} {T : LlvmTy} {g : Nat}
    (h : lookupTy l T = some g) : (T, g) ∈ l := by
  induction l with
  | nil => simp [lookupTy] at h
  | cons p rest ih =>
    obtain ⟨t, g'⟩ := p
    unfold lookupTy at h
    by_cases hc : t = T
    · rw [if_pos hc] at h
      injection h with h2
      subst hc
      subst h2
      exact List.mem_cons_self _ _
    · rw [if_neg hc] at h
      exact List.mem_cons_of_mem _ (ih h)

theorem lookupTy_append_self {l : List (LlvmTy × Nat)} {T : LlvmTy} (g : Nat)
    (h : lookupTy l T = none) : lookupTy (l ++ [(T, g)]) T = some g := by
  induction l with
  | nil => simp [lookupTy]
  | cons p rest ih =>
    obtain ⟨t, g'⟩ := p
    simp only [lookupTy, List.cons_append] at h ⊢
    by_cases hc : t = T
    · rw [if_pos hc] at h
      cases h
    · rw [if_neg hc] at h ⊢
      exact ih h

/-- Inversion of a successful `replaceCall`: it unconditionally creates
one constant `"nondet"` string global, obtains the per-type global
(creating it, its own name string and its initialization call on a cache
miss), inserts a load of it right before the call, and redirects every
use of the call to the load. -/
theorem replaceCall_inv {fname : String} {ciId : Nat} {Ty : LlvmTy} {M : Module}
    {st : PassState} {M' : Module} {st' : PassState}
    (hst : StWF M st)
    (hok : replaceCall fname ciId Ty M st = .ok (M', st')) :
    ∃ M2 g szTy,
      M' = (({ M2 with nextId := M2.nextId + 1 } : Module).insertBefore fname ciId
              (.load M2.nextId (.globalRef g))).rauw ciId (.val M2.nextId) ∧
      st'.nosym = st.nosym ∧
      (st'.vms = none ∨ st'.vms = some "__VERIFIER_make_symbolic") ∧
      lookupTy st'.added_globals Ty = some g ∧
      g < M2.nextId ∧ M.nextId < M2.nextId ∧
      M2.ptrBits = M.ptrBits ∧
      SigStable M M2 ∧
      ((lookupTy st.added_globals Ty = some g ∧ st' = st ∧
        M2.funcs = M.funcs ∧
        M2.globals = M.globals ++ [⟨M.nextId, "", .arrayI8 7, true, .strNondet⟩] ∧
        M2.nextId = M.nextId + 1)
       ∨
       (lookupTy st.added_globals Ty = none ∧ g = M.nextId + 1 ∧
        st'.added_globals = st.added_globals ++ [(Ty, M.nextId + 1)] ∧
        st'.vms = some "__VERIFIER_make_symbolic" ∧
        M2.bodyOf "main" =
          Instr.ptrCast (M.nextId + 2) (.globalRef (M.nextId + 1)) ::
          Instr.call (M.nextId + 4) (.direct "__VERIFIER_make_symbolic") .void
            [.val (M.nextId + 2), .intConst szTy (typeAllocSize M.ptrBits Ty),
             .castGlobal (M.nextId + 3)] ::
          M.bodyOf "main" ∧
        (∀ nm, nm ≠ "main" → M2.bodyOf nm = M.bodyOf nm) ∧
        M2.globals = M.globals ++
          [⟨M.nextId, "", .arrayI8 7, true, .strNondet⟩,
           ⟨M.nextId + 1, "nondet_gl_undef", Ty, false, .nullOf Ty⟩,
           ⟨M.nextId + 3, "", .arrayI8 7, true, .strNondet⟩] ∧
        M2.nextId = M.nextId + 5 ∧
        (M2.funcs.map Func.name = M.funcs.map Func.name ∨
          (findFuncIn M.funcs "__VERIFIER_make_symbolic" = none ∧
           M2.funcs.map Func.name = M.funcs.map Func.name ++ ["__VERIFIER_make_symbolic"])) ∧
        ((M.funcs.map Func.name).Nodup →
          ∃ A1 A2, M.allInstrs = A1 ++ M.bodyOf "main" ++ A2 ∧
            M2.allInstrs = A1 ++
              (Instr.ptrCast (M.nextId + 2) (.globalRef (M.nextId + 1)) ::
               Instr.call (M.nextId + 4) (.direct "__VERIFIER_make_symbolic") .void
                 [.val (M.nextId + 2), .intConst szTy (typeAllocSize M.ptrBits Ty),
                  .castGlobal (M.nextId + 3)] ::
               M.bodyOf "main") ++ A2))) := by
  obtain ⟨hvms, hkeys, hbound⟩ := hst
  unfold replaceCall at hok
  cases hlk : lookupTy st.added_globals Ty with
  | some g0 =>
    simp only [getGlobalNondet_hit hlk] at hok
    injection hok with hok1
    injection hok1 with hM hst2
    subst hM
    subst hst2
    refine ⟨{ M with
        globals := M.globals ++ [⟨M.nextId, "", .arrayI8 7, true, .strNondet⟩],
        nextId := M.nextId + 1 }, g0, .int 32, rfl, rfl, hvms, hlk, ?_, ?_, rfl,
      SigStable.of_funcs_eq rfl, Or.inl ⟨rfl, rfl, rfl, rfl, rfl⟩⟩
    · have := hbound _ (lookupTy_mem hlk)
      simpa using Nat.lt_succ_of_lt this
    · simp
  | none =>
    have hlk1 : lookupTy st.added_globals Ty = none := hlk
    cases hmain : M.findFunc "main" with
    | none =>
      simp only [getGlobalNondet_noMain hlk1 hvms
        (show ({ M with
          globals := M.globals ++ [⟨M.nextId, "", .arrayI8 7, true, .strNondet⟩],
          nextId := M.nextId + 1 } : Module).findFunc "main" = none from hmain)] at hok
      exact Except.noConfusion hok
    | some mainF =>
      cases hb : mainF.body.getD [] with
      | nil =>
        simp only [getGlobalNondet_emptyMain hlk1 hvms
          (show ({ M with
            globals := M.globals ++ [⟨M.nextId, "", .arrayI8 7, true, .strNondet⟩],
            nextId := M.nextId + 1 } : Module).findFunc "main" = some mainF from hmain) hb] at hok
        exact Except.noConfusion hok
      | cons x xs =>
        obtain ⟨M2, st2, szTy, heq, hbodyMain, hbodyOther, hglobals, hnext, hptr,
            hag, hns, hv2, hsig, hnames, hallI⟩ :=
          getGlobalNondet_miss hlk1 hvms
            (show ({ M with
              globals := M.globals ++ [⟨M.nextId, "", .arrayI8 7, true, .strNondet⟩],
              nextId := M.nextId + 1 } : Module).findFunc "main" = some mainF from hmain)
            (by rw [hb]; simp)
        simp only [heq] at hok
        injection hok with hok1
        injection hok1 with hM hst2
        subst hM
        subst hst2
        simp only at hbodyMain hbodyOther hglobals hnext hptr hnames hallI
        refine ⟨M2, M.nextId + 1, szTy, rfl, hns, Or.inr hv2, ?_, ?_, ?_, hptr, ?_,
          Or.inr ⟨rfl, rfl, hag, hv2, ?_, ?_, ?_, hnext, ?_, ?_⟩⟩
        · rw [hag, lookupTy_append_self (M.nextId + 1) hlk]
        · omega
        · omega
        · refine SigStable.comp (SigStable.of_funcs_eq rfl) hsig
        · rw [hbodyMain]
          have : ({ M with
            globals := M.globals ++ [⟨M.nextId, "", .arrayI8 7, true, .strNondet⟩],
            nextId := M.nextId + 1 } : Module).bodyOf "main" = M.bodyOf "main" :=
            bodyOf_congr_funcs rfl "main"
          rw [this]
        · intro nm hnm
          rw [hbodyOther nm hnm]
          exact bodyOf_congr_funcs rfl nm
        · rw [hglobals]
          simp
        · exact hnames
        · intro hnodup
          obtain ⟨A1, A2, h1, h2⟩ := hallI hnodup
          have hai : ({ M with
            globals := M.globals ++ [⟨M.nextId, "", .arrayI8 7, true, .strNondet⟩],
            nextId := M.nextId + 1 } : Module).allInstrs = M.allInstrs :=
            allInstrs_congr_funcs rfl
          have hbm : ({ M with
            globals := M.globals ++ [⟨M.nextId, "", .arrayI8 7, true, .strNondet⟩],
            nextId := M.nextId + 1 } : Module).bodyOf "main" = M.bodyOf "main" :=
            bodyOf_congr_funcs rfl "main"
          rw [hai, hbm] at h1
          rw [hbm] at h2
          exact ⟨A1, A2, h1, h2⟩

/-- Unfolding equation for `processInstr` at a direct call. -/
theorem processInstr_direct (fname : String) (s : PState) (ciId : Nat) (nm : String)
    (retTy : LlvmTy) (args : List Operand) :
    processInstr fname (.call ciId (.direct nm) retTy args) s =
      (match findFuncIn s.M.funcs nm with
       | none => .ok (s, false)
       | some callee =>
         if callee.isIntrinsic then .ok (s, false)
         else if nm = "nondet_int" || nm = "klee_int" || array_match nm leave_calls then
           .ok (s, false)
         else if strStartsWith nm "__VERIFIER_" then .ok (s, false)
         else if callee.body.isNone then
           let rl : List String × List String :=
             if s.removed.contains nm then (s.removed, s.logs)
             else (nm :: s.removed, s.logs ++ [diagMsg nm (retTy = .void) s.st.nosym])
           if retTy = .void then
             .ok (⟨s.M.eraseInstr fname ciId, s.st, rl.1, rl.2⟩, true)
           else if s.st.nosym then
             .ok (⟨(s.M.rauw ciId (.nullConst retTy)).eraseInstr fname ciId, s.st, rl.1, rl.2⟩,
               true)
           else
             match replaceCall fname ciId retTy s.M s.st with
             | .error e => .error e
             | .ok (M1, st1) => .ok (⟨M1.eraseInstr fname ciId, st1, rl.1, rl.2⟩, true)
         else .ok (s, false)) := rfl

/-- A skip-classified instruction is processed with no effect at all:
classification has no side effects and leaves the program unchanged. -/
theorem processInstr_skip {fname : String} {ins : Instr} {s : PState}
    (he : eligibleIn s.M.funcs ins = false) :
    processInstr fname ins s = .ok (s, false) := by
  cases ins with
  | call i c r a =>
    cases c with
    | inlineAsm => rfl
    | indirect => rfl
    | direct nm =>
      rw [processInstr_direct]
      rw [eligibleIn_direct] at he
      cases hf : findFuncIn s.M.funcs nm with
      | none => rfl
      | some callee =>
        rw [hf] at he
        by_cases h1 : callee.isIntrinsic
        · simp [h1]
        · by_cases h2 : (nm = "nondet_int" || nm = "klee_int" || array_match nm leave_calls : Bool)
          · simp [h1, h2]
          · by_cases h3 : strStartsWith nm "__VERIFIER_"
            · simp [h1, h2, h3]
            · simp only [h1, h2, h3] at he
              simp only [if_neg, Bool.false_eq_true, if_false] at he ⊢
              simp [h1, h2, h3, he]
  | load i s' => rfl
  | ptrCast i s' => rfl
  | other i ops => rfl

/-- Inversion of classification at an eligible direct call. -/
theorem eligible_direct_inv {fs : List Func} {i : Nat} {nm : String} {retTy : LlvmTy}
    {args : List Operand} (h : eligibleIn fs (.call i (.direct nm) retTy args) = true) :
    ∃ callee, findFuncIn fs nm = some callee ∧ callee.isIntrinsic = false ∧
      ((nm = "nondet_int" || nm = "klee_int" || array_match nm leave_calls : Bool) = false) ∧
      strStartsWith nm "__VERIFIER_" = false ∧ callee.body = none := by
  rw [eligibleIn_direct] at h
  cases hf : findFuncIn fs nm with
  | none => rw [hf] at h; cases h
  | some callee =>
    rw [hf] at h
    by_cases h1 : callee.isIntrinsic
    · simp [h1] at h
    · by_cases h2 : (nm = "nondet_int" || nm = "klee_int" || array_match nm leave_calls : Bool)
      · simp [h1, h2] at h
      · by_cases h3 : strStartsWith nm "__VERIFIER_"
        · simp [h1, h2, h3] at h
        · simp only [h1, h2, h3] at h
          simp only [if_neg, Bool.false_eq_true, if_false] at h
          refine ⟨callee, rfl, by simp [h1], by simp [h2], by simp [h3], ?_⟩
          cases hb : callee.body with
          | none => rfl
          | some l => rw [hb] at h; simp at h

/-- Processing of an eligible call: report once, substitute for a
non-void result according to the policy, erase the call. -/
theorem processInstr_elig {fname : String} {s : PState} {ciId : Nat} {nm : String}
    {retTy : LlvmTy} {args : List Operand}
    (he : eligibleIn s.M.funcs (.call ciId (.direct nm) retTy args) = true) :
    processInstr fname (.call ciId (.direct nm) retTy args) s =
      (let rl : List String × List String :=
        if s.removed.contains nm then (s.removed, s.logs)
        else (nm :: s.removed, s.logs ++ [diagMsg nm (retTy = .void) s.st.nosym])
       if retTy = .void then
         .ok (⟨s.M.eraseInstr fname ciId, s.st, rl.1, rl.2⟩, true)
       else if s.st.nosym then
         .ok (⟨(s.M.rauw ciId (.nullConst retTy)).eraseInstr fname ciId, s.st, rl.1, rl.2⟩, true)
       else
         match replaceCall fname ciId retTy s.M s.st with
         | .error e => .error e
         | .ok (M1, st1) => .ok (⟨M1.eraseInstr fname ciId, st1, rl.1, rl.2⟩, true)) := by
  obtain ⟨callee, h1, h2, h3, h4, h5⟩ := eligible_direct_inv he
  rw [processInstr_direct, h1]
  simp only [h2, h3, h4, h5, Bool.false_eq_true, if_false, Option.isNone_none, if_true]

theorem lookupTy_none_iff (l : List (LlvmTy × Nat)) (T : LlvmTy) :
    lookupTy l T = none ↔ T ∉ l.map Prod.fst := by
  induction l with
  | nil => simp [lookupTy]
  | cons p rest ih =>
    obtain ⟨t, g⟩ := p
    simp only [lookupTy, List.map_cons, List.mem_cons]
    by_cases hc : t = T
    · subst hc
      simp
    · rw [if_neg hc, ih]
      constructor
      · intro h hm
        rcases hm with hm | hm
        · exact hc hm.symm
        · exact h hm
      · intro h
        exact fun hm => h (Or.inr hm)

theorem lookupTy_some_mem_keys {l : List (LlvmTy × Nat)} {T : LlvmTy} {g : Nat}
    (h : lookupTy l T = some g) : T ∈ l.map Prod.fst := by
  have := lookupTy_mem h
  exact List.mem_map_of_mem Prod.fst this

/-- Inversion of a successful `getGlobalNondet`: a cache hit returns the
cached global with no side effect at all; a cache miss creates exactly
one new `nondet_gl_undef` global, records it, and advances the allocator. -/
theorem getGlobalNondet_inv {Ty : LlvmTy} {M : Module} {st : PassState} {g : Nat}
    {M' : Module} {st' : PassState} (hst : StWF M st)
    (h : getGlobalNondet Ty M st = .ok (g, M', st')) :
    StWF M' st' ∧ st'.nosym = st.nosym ∧ M.nextId ≤ M'.nextId ∧
    lookupTy st'.added_globals Ty = some g ∧
    ((lookupTy st.added_globals Ty = some g ∧ M' = M ∧ st' = st) ∨
     (lookupTy st.added_globals Ty = none ∧
       st'.added_globals = st.added_globals ++ [(Ty, g)] ∧ g = M.nextId ∧
       countNondetGl M' = countNondetGl M + 1 ∧ M'.nextId = M.nextId + 4)) := by
  obtain ⟨hvms, hkeys, hbound⟩ := hst
  cases hlk : lookupTy st.added_globals Ty with
  | some g0 =>
    rw [getGlobalNondet_hit hlk] at h
    injection h with h1
    injection h1 with hg h2
    injection h2 with hM hst2
    subst hg
    subst hM
    subst hst2
    exact ⟨⟨hvms, hkeys, hbound⟩, rfl, Nat.le.refl, hlk, Or.inl ⟨rfl, rfl, rfl⟩⟩
  | none =>
    cases hmain : M.findFunc "main" with
    | none =>
      rw [getGlobalNondet_noMain hlk hvms hmain] at h
      exact Except.noConfusion h
    | some mainF =>
      cases hb : mainF.body.getD [] with
      | nil =>
        rw [getGlobalNondet_emptyMain hlk hvms hmain hb] at h
        exact Except.noConfusion h
      | cons x xs =>
        obtain ⟨M2, st2, szTy, heq, hbodyMain, hbodyOther, hglobals, hnext, hptr,
            hag, hns, hv2, hsig, hnames, hallI⟩ :=
          getGlobalNondet_miss hlk hvms hmain (by rw [hb]; simp)
        rw [heq] at h
        injection h with h1
        injection h1 with hg h2
        injection h2 with hM hst2
        subst hg
        subst hM
        subst hst2
        have hcount : countNondetGl M2 = countNondetGl M + 1 := by
          unfold countNondetGl
          rw [hglobals, List.filter_append]
          simp [List.length_append]
        refine ⟨⟨Or.inr hv2, ?_, ?_⟩, hns, by omega, ?_,
          Or.inr ⟨rfl, hag, rfl, hcount, hnext⟩⟩
        · rw [hag, List.map_append]
          rw [List.nodup_append]
          refine ⟨hkeys, by simp, ?_⟩
          intro a ha hb2
          simp only [List.map_cons, List.map_nil, List.mem_singleton] at hb2
          subst hb2
          exact (lookupTy_none_iff _ _).mp hlk ha
        · intro p hp
          rw [hag] at hp
          rcases List.mem_append.mp hp with hp | hp
          · have := hbound p hp
            omega
          · simp only [List.mem_singleton] at hp
            subst hp
            omega
        · rw [hag]
          exact lookupTy_append_self M.nextId hlk

/-- Folding arbitrary many per-type requests: the cache keys grow by
exactly the set of newly requested types, one `nondet_gl_undef` global
per new key. -/
theorem requestAll_spec {ts : List LlvmTy} :
    ∀ {M : Module} {st : PassState} {M' : Module} {st' : PassState}, StWF M st →
    requestAll ts M st = .ok (M', st') →
    StWF M' st' ∧
    (∀ T, T ∈ st'.added_globals.map Prod.fst ↔
          T ∈ st.added_globals.map Prod.fst ∨ T ∈ ts) ∧
    countNondetGl M' + st.added_globals.length =
      countNondetGl M + st'.added_globals.length := by
  induction ts with
  | nil =>
    intro M st M' st' hst hok
    unfold requestAll at hok
    injection hok with h1
    injection h1 with hM hst2
    subst hM
    subst hst2
    exact ⟨hst, fun T => by simp, rfl⟩
  | cons T rest ih =>
    intro M st M' st' hst hok
    unfold requestAll at hok
    cases hg : getGlobalNondet T M st with
    | error e => rw [hg] at hok; exact Except.noConfusion hok
    | ok r =>
      obtain ⟨g, M1, st1⟩ := r
      rw [hg] at hok
      obtain ⟨hst1, hns1, hle1, hlk1, hcases⟩ := getGlobalNondet_inv hst hg
      obtain ⟨hst', hmem, hcount⟩ := ih hst1 hok
      refine ⟨hst', ?_, ?_⟩
      · intro T'
        rw [hmem T']
        rcases hcases with ⟨hlk, hM, hstq⟩ | ⟨hlk, hag, hgid, hc, hn⟩
        · subst hM; subst hstq
          constructor
          · intro hh
            rcases hh with hh | hh
            · exact Or.inl hh
            · exact Or.inr (List.mem_cons_of_mem _ hh)
          · intro hh
            rcases hh with hh | hh
            · exact Or.inl hh
            · rcases List.mem_cons.mp hh with hh | hh
              · subst hh
                exact Or.inl (lookupTy_some_mem_keys hlk)
              · exact Or.inr hh
        · rw [hag, List.map_append]
          simp only [List.map_cons, List.map_nil, List.mem_append, List.mem_singleton,
            List.mem_cons]
          constructor
          · intro hh
            rcases hh with (hh | hh) | hh
            · exact Or.inl hh
            · rcases hh with hh | hh
              · exact Or.inr (Or.inl hh)
              · exact absurd hh (List.not_mem_nil _)
            · exact Or.inr (Or.inr hh)
          · intro hh
            rcases hh with hh | hh | hh
            · exact Or.inl (Or.inl hh)
            · exact Or.inl (Or.inr (by simp [hh]))
            · exact Or.inr hh
      · rcases hcases with ⟨hlk, hM, hstq⟩ | ⟨hlk, hag, hgid, hc, hn⟩
        · subst hM; subst hstq
          exact hcount
        · rw [hag, List.length_append] at hcount
          rw [hc] at hcount
          simp only [List.length_cons, List.length_nil] at hcount
          omega

/-- C2: within one run, `getGlobalNondet` is an idempotent per-type
cache: a hit returns the cached global with no side effects, a miss
creates and records exactly one global which every later request for the
same type returns unchanged, and over any request sequence starting from
an empty cache the number of `nondet_gl_undef` globals created equals
the number of distinct requested types. -/
theorem C2_per_type_cache :
    (∀ (Ty : LlvmTy) (M : Module) (st : PassState) (g : Nat),
       lookupTy st.added_globals Ty = some g →
       getGlobalNondet Ty M st = .ok (g, M, st)) ∧
    (∀ (Ty : LlvmTy) (M : Module) (st : PassState) (g : Nat) (M' : Module) (st' : PassState),
       StWF M st → lookupTy st.added_globals Ty = none →
       getGlobalNondet Ty M st = .ok (g, M', st') →
       lookupTy st'.added_globals Ty = some g ∧
       getGlobalNondet Ty M' st' = .ok (g, M', st')) ∧
    (∀ (ts : List LlvmTy) (M : Module) (st : PassState) (M' : Module) (st' : PassState),
       StWF M st → st.added_globals = [] →
       requestAll ts M st = .ok (M', st') →
       st'.added_globals.length = ts.toFinset.card ∧
       countNondetGl M' = countNondetGl M + ts.toFinset.card) := by
  refine ⟨?_, ?_, ?_⟩
  · intro Ty M st g h
    exact getGlobalNondet_hit h
  · intro Ty M st g M' st' hst hmiss hok
    obtain ⟨hst', hns, hle, hlk', hcases⟩ := getGlobalNondet_inv hst hok
    exact ⟨hlk', getGlobalNondet_hit hlk'⟩
  · intro ts M st M' st' hst hempty hok
    obtain ⟨hst', hmem, hcount⟩ := requestAll_spec hst hok
    have hkeynd : (st'.added_globals.map Prod.fst).Nodup := hst'.2.1
    have hfin : (st'.added_globals.map Prod.fst).toFinset = ts.toFinset := by
      ext T
      rw [List.mem_toFinset, List.mem_toFinset, hmem T, hempty]
      simp
    have hlen : (st'.added_globals.map Prod.fst).length = ts.toFinset.card := by
      rw [← List.toFinset_card_of_nodup hkeynd, hfin]
    rw [List.length_map] at hlen
    refine ⟨hlen, ?_⟩
    rw [hempty] at hcount
    simp only [List.length_nil, Nat.add_zero] at hcount
    omega

/-- C2 witness: a fresh symbolic pass on `exM`, requesting `int 32`
twice and `int 8` once. -/
theorem C2_per_type_cache_witness :
    (lookupTy exSt1.added_globals (.int 32) = some 1 ∧
     getGlobalNondet (.int 32) exM1 exSt1 = .ok (1, exM1, exSt1)) ∧
    (StWF exM (freshPassState false) ∧
     lookupTy (freshPassState false).added_globals (.int 32) = none ∧
     getGlobalNondet (.int 32) exM (freshPassState false) = .ok (1, exM1, exSt1) ∧
     lookupTy exSt1.added_globals (.int 32) = some 1 ∧
     getGlobalNondet (.int 32) exM1 exSt1 = .ok (1, exM1, exSt1)) ∧
    (StWF exM (freshPassState false) ∧
     (freshPassState false).added_globals = [] ∧
     ∀ M' st', requestAll [.int 32, .int 32, .int 8] exM (freshPassState false) = .ok (M', st') →
       st'.added_globals.length = ([LlvmTy.int 32, .int 32, .int 8].toFinset).card ∧
       countNondetGl M' = countNondetGl exM + ([LlvmTy.int 32, .int 32, .int 8].toFinset).card) := by
  refine ⟨⟨rfl, C2_per_type_cache.1 _ exM1 exSt1 1 rfl⟩,
    ⟨by decide, rfl, rfl, rfl, C2_per_type_cache.1 _ exM1 exSt1 1 rfl⟩,
    ⟨by decide, rfl, ?_⟩⟩
  intro M' st' hok
  exact C2_per_type_cache.2.2 [.int 32, .int 32, .int 8] exM (freshPassState false) M' st'
    (by decide) rfl hok

/-- C8 (amended): on the Symbolic policy's first injection, the absence
of `main` fails the assertion `assert(main && "Do not have main")`; but
an empty entry block is not guarded by any assertion — the source
dereferences `*(block.begin())` directly (only a comment claims an
instruction must exist), modelled as the distinct non-assert failure
`derefEmptyEntry`. -/
theorem C8_entry_checks :
    (∀ (Ty : LlvmTy) (M : Module) (st : PassState),
       lookupTy st.added_globals Ty = none →
       (st.vms = none ∨ st.vms = some "__VERIFIER_make_symbolic") →
       M.findFunc "main" = none →
       getGlobalNondet Ty M st = .error .assertNoMain) ∧
    (∀ (Ty : LlvmTy) (M : Module) (st : PassState) (mainF : Func),
       lookupTy st.added_globals Ty = none →
       (st.vms = none ∨ st.vms = some "__VERIFIER_make_symbolic") →
       M.findFunc "main" = some mainF → mainF.body.getD [] = [] →
       getGlobalNondet Ty M st = .error .derefEmptyEntry) := by
  constructor
  · intro Ty M st h1 h2 h3
    exact getGlobalNondet_noMain h1 h2 h3
  · intro Ty M st mainF h1 h2 h3 h4
    exact getGlobalNondet_emptyMain h1 h2 h3 h4

/-- C8 witness: concrete modules without `main`, and with an empty
`main`. -/
theorem C8_entry_checks_witness :
    (lookupTy (freshPassState false).added_globals (.int 32) = none ∧
     (freshPassState false).vms = none ∧
     noMainM.findFunc "main" = none ∧
     getGlobalNondet (.int 32) noMainM (freshPassState false) = .error .assertNoMain) ∧
    (emptyMainM.findFunc "main" = some ⟨"main", false, some []⟩ ∧
     (⟨"main", false, some []⟩ : Func).body.getD [] = [] ∧
     getGlobalNondet (.int 32) emptyMainM (freshPassState false) = .error .derefEmptyEntry) := by
  refine ⟨⟨rfl, rfl, rfl, ?_⟩, ⟨rfl, rfl, ?_⟩⟩
  · exact C8_entry_checks.1 (.int 32) noMainM (freshPassState false) rfl (Or.inl rfl) rfl
  · exact C8_entry_checks.2 (.int 32) emptyMainM (freshPassState false) ⟨"main", false, some []⟩
      rfl (Or.inl rfl) rfl rfl

/-- C8 counterexample: with `main` present but its entry block empty, the
failure is the unchecked dereference, not an assertion — refuting the
claim that the non-empty-entry condition is "checked by an assertion"
like the `main`-existence condition is. -/
theorem C8_claim_false :
    getGlobalNondet (.int 32) emptyMainM (freshPassState false) = .error .derefEmptyEntry ∧
    PassErr.derefEmptyEntry ≠ PassErr.assertNoMain := by
  exact ⟨rfl, by decide⟩

/-! Helpers about id-targeted insertion, erasure and the rewrite map on
decomposed bodies. -/

theorem insertBeforeId_cons (tid : Nat) (new i : Instr) (rest : List Instr) :
    insertBeforeId tid new (i :: rest) =
      (if i.id = tid then new :: i :: rest else i :: insertBeforeId tid new rest) := rfl

theorem insertBeforeId_append_nomatch {tid : Nat} {new : Instr} {A B : List Instr}
    (h : ∀ i ∈ A, i.id ≠ tid) :
    insertBeforeId tid new (A ++ B) = A ++ insertBeforeId tid new B := by
  induction A with
  | nil => rfl
  | cons a rest ih =>
    simp only [List.cons_append]
    rw [insertBeforeId_cons, if_neg (h a (List.mem_cons_self a rest)),
      ih (fun i hi => h i (List.mem_cons_of_mem a hi))]

theorem insertBeforeId_cons_match {tid : Nat} {new c : Instr} {B : List Instr}
    (h : c.id = tid) : insertBeforeId tid new (c :: B) = new :: c :: B := by
  rw [insertBeforeId_cons, if_pos h]

theorem mapOps_load (h : Operand → Operand) (i : Nat) (gid : Nat) :
    Instr.mapOps h (.load i (.globalRef gid)) = .load i (h (.globalRef gid)) := rfl

theorem rauwOp_nonval (old : Nat) (new : Operand) (gid : Nat) :
    rauwOp old new (.globalRef gid) = .globalRef gid := rfl

theorem bodyOf_mem_allInstrs {M : Module} {nm : String} {i : Instr}
    (h : i ∈ M.bodyOf nm) : i ∈ M.allInstrs := by
  unfold Module.bodyOf at h
  cases hf : M.findFunc nm with
  | none => rw [hf] at h; cases h
  | some f =>
    rw [hf] at h
    obtain ⟨l1, l2, hfs, _⟩ := findFuncIn_decomp hf
    unfold Module.allInstrs
    rw [hfs, List.flatMap_append, List.flatMap_cons]
    exact List.mem_append.mpr (Or.inr (List.mem_append.mpr (Or.inl h)))

theorem bodyOf_sublist_allInstrs (M : Module) (nm : String) :
    (M.bodyOf nm).Sublist M.allInstrs := by
  unfold Module.bodyOf
  cases hf : M.findFunc nm with
  | none => simp
  | some f =>
    obtain ⟨l1, l2, hfs, _⟩ := findFuncIn_decomp hf
    unfold Module.allInstrs
    rw [hfs, List.flatMap_append, List.flatMap_cons]
    refine List.IsInfix.sublist ⟨l1.flatMap (fun f' => f'.body.getD []),
      l2.flatMap (fun f' => f'.body.getD []), ?_⟩
    rw [List.append_assoc]

theorem WF.body_ids_nodup {M : Module} (hwf : WF M) (nm : String) :
    ((M.bodyOf nm).map Instr.id).Nodup :=
  List.Sublist.nodup (List.Sublist.map Instr.id (bodyOf_sublist_allInstrs M nm)) hwf.1

theorem WF.body_ids_lt {M : Module} (hwf : WF M) (nm : String) :
    ∀ i ∈ M.bodyOf nm, i.id < M.nextId :=
  fun i hi => hwf.2.1 i (bodyOf_mem_allInstrs hi)

theorem map_id_mapOps (h : Operand → Operand) (l : List Instr) :
    (l.map (Instr.mapOps h)).map Instr.id = l.map Instr.id := by
  rw [List.map_map]
  apply List.map_congr_left
  intro a _
  simp [Instr.id_mapOps]

/-- Inversion of processing an eligible non-void call under the Symbolic
policy: the result state is the `replaceCall` output with the call erased,
and the diagnostics are updated first-occurrence-only. -/
theorem processInstr_sym_inv {fname : String} {s : PState} {ciId : Nat} {nm : String}
    {retTy : LlvmTy} {args : List Operand} {s' : PState} {b : Bool}
    (hst : StWF s.M s.st)
    (he : eligibleIn s.M.funcs (.call ciId (.direct nm) retTy args) = true)
    (hvoid : ¬retTy = .void) (hnosym : s.st.nosym = false)
    (hstep : processInstr fname (.call ciId (.direct nm) retTy args) s = .ok (s', b)) :
    b = true ∧
    s'.removed = (if s.removed.contains nm then s.removed else nm :: s.removed) ∧
    s'.logs = (if s.removed.contains nm then s.logs
               else s.logs ++ [diagMsg nm (retTy = .void) s.st.nosym]) ∧
    ∃ M2 g szTy,
      s'.M = ((({ M2 with nextId := M2.nextId + 1 } : Module).insertBefore fname ciId
          (.load M2.nextId (.globalRef g))).rauw ciId (.val M2.nextId)).eraseInstr fname ciId ∧
      s'.st.nosym = s.st.nosym ∧
      (s'.st.vms = none ∨ s'.st.vms = some "__VERIFIER_make_symbolic") ∧
      lookupTy s'.st.added_globals retTy = some g ∧
      g < M2.nextId ∧ s.M.nextId < M2.nextId ∧
      M2.ptrBits = s.M.ptrBits ∧
      SigStable s.M M2 ∧
      ((lookupTy s.st.added_globals retTy = some g ∧ s'.st = s.st ∧
        M2.funcs = s.M.funcs ∧
        M2.globals = s.M.globals ++ [⟨s.M.nextId, "", .arrayI8 7, true, .strNondet⟩] ∧
        M2.nextId = s.M.nextId + 1)
       ∨
       (lookupTy s.st.added_globals retTy = none ∧ g = s.M.nextId + 1 ∧
        s'.st.added_globals = s.st.added_globals ++ [(retTy, s.M.nextId + 1)] ∧
        s'.st.vms = some "__VERIFIER_make_symbolic" ∧
        M2.bodyOf "main" =
          Instr.ptrCast (s.M.nextId + 2) (.globalRef (s.M.nextId + 1)) ::
          Instr.call (s.M.nextId + 4) (.direct "__VERIFIER_make_symbolic") .void
            [.val (s.M.nextId + 2), .intConst szTy (typeAllocSize s.M.ptrBits retTy),
             .castGlobal (s.M.nextId + 3)] ::
          s.M.bodyOf "main" ∧
        (∀ nm', nm' ≠ "main" → M2.bodyOf nm' = s.M.bodyOf nm') ∧
        M2.globals = s.M.globals ++
          [⟨s.M.nextId, "", .arrayI8 7, true, .strNondet⟩,
           ⟨s.M.nextId + 1, "nondet_gl_undef", retTy, false, .nullOf retTy⟩,
           ⟨s.M.nextId + 3, "", .arrayI8 7, true, .strNondet⟩] ∧
        M2.nextId = s.M.nextId + 5 ∧
        (M2.funcs.map Func.name = s.M.funcs.map Func.name ∨
          (findFuncIn s.M.funcs "__VERIFIER_make_symbolic" = none ∧
           M2.funcs.map Func.name = s.M.funcs.map Func.name ++ ["__VERIFIER_make_symbolic"])) ∧
        ((s.M.funcs.map Func.name).Nodup →
          ∃ A1 A2, s.M.allInstrs = A1 ++ s.M.bodyOf "main" ++ A2 ∧
            M2.allInstrs = A1 ++
              (Instr.ptrCast (s.M.nextId + 2) (.globalRef (s.M.nextId + 1)) ::
               Instr.call (s.M.nextId + 4) (.direct "__VERIFIER_make_symbolic") .void
                 [.val (s.M.nextId + 2), .intConst szTy (typeAllocSize s.M.ptrBits retTy),
                  .castGlobal (s.M.nextId + 3)] ::
               s.M.bodyOf "main") ++ A2))) := by
  rw [processInstr_elig he] at hstep
  simp only [if_neg hvoid, hnosym, Bool.false_eq_true, if_false] at hstep
  cases hrc : replaceCall fname ciId retTy s.M s.st with
  | error e => rw [hrc] at hstep; exact Except.noConfusion hstep
  | ok r =>
    obtain ⟨M1, st1⟩ := r
    rw [hrc] at hstep
    injection hstep with h1
    injection h1 with hps hb
    subst hb
    obtain ⟨M2, g, szTy, hM1, hns, hvms', hlk, hg, hn, hpb, hsig, hcases⟩ :=
      replaceCall_inv hst hrc
    refine ⟨rfl, ?_, ?_, M2, g, szTy, ?_, ?_, ?_, ?_, hg, hn, hpb, hsig, ?_⟩
    · rw [← hps]
      show (if s.removed.contains nm then _ else _ : List String × List String).1 = _
      split_ifs <;> rfl
    · rw [← hps]
      show (if s.removed.contains nm then _ else _ : List String × List String).2 = _
      split_ifs <;> simp [hnosym]
    · rw [← hps]
      dsimp only
      rw [hM1]
    · rw [← hps]
      exact hns
    · rw [← hps]
      exact hvms'
    · rw [← hps]
      exact hlk
    · rw [← hps]
      dsimp only
      exact hcases

theorem opList_mapOps (h : Operand → Operand) (i : Instr) :
    (Instr.mapOps h i).opList = i.opList.map h := by
  cases i <;> rfl

/-- After a module-wide `replaceAllUsesWith old new` with `new ≠ old`, no
operand anywhere still mentions the old value. -/
theorem rauw_no_dangling (M : Module) (old : Nat) {newOp : Operand}
    (h : newOp ≠ .val old) :
    ∀ ins ∈ (M.rauw old newOp).allInstrs, ∀ op ∈ ins.opList, op ≠ .val old := by
  intro ins hins op hop
  rw [allInstrs_rauw] at hins
  obtain ⟨i0, hi0, hmap⟩ := List.mem_map.mp hins
  subst hmap
  rw [opList_mapOps] at hop
  obtain ⟨op0, hop0, hmap⟩ := List.mem_map.mp hop
  subst hmap
  cases op0 with
  | val j =>
    simp only [rauwOp]
    by_cases hj : j = old
    · rw [if_pos hj]
      exact h
    · rw [if_neg hj]
      intro hc
      injection hc with hc
      exact hj hc
  | globalRef gid => simp [rauwOp]
  | castGlobal gid => simp [rauwOp]
  | nullConst ty => simp [rauwOp]
  | intConst ty v => simp [rauwOp]

theorem flatMap_sublist_flatMap {α β : Type} (gsub gbig : α → List β) (l : List α)
    (h : ∀ a ∈ l, (gsub a).Sublist (gbig a)) :
    (l.flatMap gsub).Sublist (l.flatMap gbig) := by
  induction l with
  | nil => simp
  | cons a rest ih =>
    rw [List.flatMap_cons, List.flatMap_cons]
    exact List.Sublist.append (h a (List.mem_cons_self a rest))
      (ih (fun x hx => h x (List.mem_cons_of_mem a hx)))

theorem allInstrs_eraseInstr_sublist (M : Module) (fname : String) (tid : Nat) :
    ((M.eraseInstr fname tid).allInstrs).Sublist M.allInstrs := by
  unfold Module.eraseInstr Module.allInstrs
  dsimp only
  rw [List.flatMap_map]
  apply flatMap_sublist_flatMap
  intro f _
  dsimp only [Function.comp]
  by_cases hc : f.name = fname
  · rw [if_pos hc]
    cases hb : f.body with
    | none => exact List.Sublist.refl _
    | some l =>
      simp only [Option.map_some, Option.getD_some]
      exact List.eraseP_sublist l
  · rw [if_neg hc]

/-- Body of the processed function after the Symbolic-policy composition
(load inserted before the call, uses redirected, call erased). -/
theorem comp_bodyOf_fname (M2 : Module) (fname : String) {ciId : Nat} (g : Nat)
    {pre post : List Instr} {e : Instr}
    (hbody : M2.bodyOf fname = pre ++ e :: post) (hid : e.id = ciId)
    (hpre : ∀ i ∈ pre, i.id ≠ ciId) (hfresh : ciId < M2.nextId) :
    (((({ M2 with nextId := M2.nextId + 1 } : Module).insertBefore fname ciId
        (.load M2.nextId (.globalRef g))).rauw ciId (.val M2.nextId)).eraseInstr
          fname ciId).bodyOf fname
      = pre.map (Instr.mapOps (rauwOp ciId (.val M2.nextId)))
        ++ Instr.load M2.nextId (.globalRef g)
          :: post.map (Instr.mapOps (rauwOp ciId (.val M2.nextId))) := by
  rw [bodyOf_eraseInstr_same, bodyOf_rauw, bodyOf_insertBefore_same]
  have hb3 : ({ M2 with nextId := M2.nextId + 1 } : Module).bodyOf fname =
      pre ++ e :: post := by
    rw [bodyOf_congr_funcs
      (show ({ M2 with nextId := M2.nextId + 1 } : Module).funcs = M2.funcs from rfl) fname]
    exact hbody
  rw [hb3, insertBeforeId_append_nomatch hpre, insertBeforeId_cons_match hid]
  rw [List.map_append, List.map_cons, List.map_cons]
  rw [List.eraseP_append_right _ (by
    intro i hi
    obtain ⟨i0, hi0, hmap⟩ := List.mem_map.mp hi
    subst hmap
    simp only [Instr.id_mapOps, decide_eq_true_eq]
    exact hpre i0 hi0)]
  have hload : Instr.mapOps (rauwOp ciId (.val M2.nextId)) (.load M2.nextId (.globalRef g)) =
      .load M2.nextId (.globalRef g) := rfl
  rw [hload]
  rw [List.eraseP_cons_of_neg (by
    simp only [Instr.id, decide_eq_true_eq]
    omega)]
  rw [List.eraseP_cons_of_pos (by simp only [Instr.id_mapOps, hid, decide_eq_true_eq])]

/-- Bodies of the other functions after the Symbolic-policy composition:
only the module-wide use-rewrite touches them. -/
theorem comp_bodyOf_other (M2 : Module) (fname : String) {ciId : Nat} (g : Nat)
    {nm' : String} (hne : nm' ≠ fname) :
    (((({ M2 with nextId := M2.nextId + 1 } : Module).insertBefore fname ciId
        (.load M2.nextId (.globalRef g))).rauw ciId (.val M2.nextId)).eraseInstr
          fname ciId).bodyOf nm'
      = (M2.bodyOf nm').map (Instr.mapOps (rauwOp ciId (.val M2.nextId))) := by
  rw [bodyOf_eraseInstr_other hne, bodyOf_rauw, bodyOf_insertBefore_other hne,
    bodyOf_congr_funcs
      (show ({ M2 with nextId := M2.nextId + 1 } : Module).funcs = M2.funcs from rfl) nm']

theorem comp_globals (M2 : Module) (fname : String) (ciId g liId : Nat) :
    (((({ M2 with nextId := M2.nextId + 1 } : Module).insertBefore fname ciId
        (.load liId (.globalRef g))).rauw ciId (.val liId)).eraseInstr
          fname ciId).globals = M2.globals := rfl

theorem comp_funcs_names (M2 : Module) (fname : String) (ciId g liId : Nat) :
    (((({ M2 with nextId := M2.nextId + 1 } : Module).insertBefore fname ciId
        (.load liId (.globalRef g))).rauw ciId (.val liId)).eraseInstr
          fname ciId).funcs.map Func.name = M2.funcs.map Func.name := by
  unfold Module.eraseInstr Module.rauw Module.insertBefore
  dsimp only
  rw [funcsNames_editBody, List.map_map]
  rw [show (Func.name ∘ fun f => { f with
      body := f.body.map (fun b => b.map (Instr.mapOps (rauwOp ciId (.val liId)))) })
    = Func.name from rfl]
  rw [funcsNames_editBody]

theorem comp_sigStable (M2 : Module) (fname : String) (ciId g liId : Nat) :
    SigStable M2
      ((((({ M2 with nextId := M2.nextId + 1 } : Module)).insertBefore fname ciId
        (.load liId (.globalRef g))).rauw ciId (.val liId)).eraseInstr fname ciId) := by
  refine SigStable.comp (SigStable.of_funcs_eq
    (show ({ M2 with nextId := M2.nextId + 1 } : Module).funcs = M2.funcs from rfl)) ?_
  refine SigStable.comp
    (SigStable_insertBefore ({ M2 with nextId := M2.nextId + 1 } : Module) fname ciId
      (.load liId (.globalRef g))) ?_
  refine SigStable.comp (SigStable_rauw _ ciId (.val liId)) ?_
  exact SigStable_eraseInstr _ fname ciId

theorem rauwOp_fix {ciId : Nat} {newOp : Operand} {op : Operand} (h : op ≠ .val ciId) :
    rauwOp ciId newOp op = op := by
  cases op with
  | val j =>
    simp only [rauwOp]
    rw [if_neg]
    intro hj
    exact h (by rw [hj])
  | globalRef gid => rfl
  | castGlobal gid => rfl
  | nullConst ty => rfl
  | intConst ty v => rfl

theorem map_rauwOp_fix {ciId : Nat} {newOp : Operand} {ops : List Operand}
    (h : ∀ op ∈ ops, op ≠ .val ciId) : ops.map (rauwOp ciId newOp) = ops := by
  induction ops with
  | nil => rfl
  | cons o rest ih =>
    rw [List.map_cons, rauwOp_fix (h o (List.mem_cons_self o rest)),
      ih (fun x hx => h x (List.mem_cons_of_mem o hx))]

theorem mapOps_fix {ciId : Nat} {newOp : Operand} {i : Instr}
    (h : ∀ op ∈ i.opList, op ≠ .val ciId) :
    Instr.mapOps (rauwOp ciId newOp) i = i := by
  cases i with
  | call a c r args =>
    simp only [Instr.mapOps]
    rw [map_rauwOp_fix (show ∀ op ∈ args, op ≠ Operand.val ciId from h)]
  | load a sr =>
    simp only [Instr.mapOps]
    rw [rauwOp_fix (show sr ≠ Operand.val ciId from h sr (by simp [Instr.opList]))]
  | ptrCast a sr =>
    simp only [Instr.mapOps]
    rw [rauwOp_fix (show sr ≠ Operand.val ciId from h sr (by simp [Instr.opList]))]
  | other a ops =>
    simp only [Instr.mapOps]
    rw [map_rauwOp_fix (show ∀ op ∈ ops, op ≠ Operand.val ciId from h)]

theorem nodup_middle_notin {α : Type} {xs ys : List α} {y : α}
    (h : (xs ++ y :: ys).Nodup) : y ∉ xs ∧ y ∉ ys := by
  rw [List.nodup_append] at h
  obtain ⟨h1, h2, hdisj⟩ := h
  rw [List.nodup_cons] at h2
  exact ⟨fun hy => hdisj hy (List.mem_cons_self y ys), h2.1⟩

theorem body_decomp_pre_ids {M : Module} {fname : String} {pre post : List Instr} {e : Instr}
    (hwf : WF M) (hbody : M.bodyOf fname = pre ++ e :: post) :
    (∀ i ∈ pre, i.id ≠ e.id) ∧ (∀ i ∈ post, i.id ≠ e.id) := by
  have hnd := WF.body_ids_nodup hwf fname
  rw [hbody, List.map_append, List.map_cons] at hnd
  have := nodup_middle_notin hnd
  constructor
  · intro i hi hc
    exact this.1 (hc ▸ List.mem_map_of_mem Instr.id hi)
  · intro i hi hc
    exact this.2 (hc ▸ List.mem_map_of_mem Instr.id hi)

/-- C4: under the Symbolic policy, rewriting an eligible non-void call
inserts a load of the per-type nondeterministic global exactly where the
call stood, redirects every use of the call's result to the load's
result, and erases the call leaving no dangling reference; the only other
instructions that can appear in the function are the freshly created
initialization instructions (ids at or above the old allocator mark). -/
theorem C4_symbolic_rewrite {fname : String} {s s' : PState} {b : Bool} {ciId : Nat}
    {nm : String} {retTy : LlvmTy} {args : List Operand} {pre post : List Instr}
    (hwf : WF s.M) (hst : StWF s.M s.st)
    (he : eligibleIn s.M.funcs (.call ciId (.direct nm) retTy args) = true)
    (hvoid : ¬retTy = .void) (hnosym : s.st.nosym = false)
    (hbody : s.M.bodyOf fname = pre ++ Instr.call ciId (.direct nm) retTy args :: post)
    (hstep : processInstr fname (.call ciId (.direct nm) retTy args) s = .ok (s', b)) :
    b = true ∧
    ∃ g liId injF,
      lookupTy s'.st.added_globals retTy = some g ∧
      s.M.nextId ≤ liId ∧
      (∀ i ∈ injF, s.M.nextId ≤ i.id) ∧
      s'.M.bodyOf fname =
        injF ++ pre.map (Instr.mapOps (rauwOp ciId (.val liId)))
          ++ Instr.load liId (.globalRef g)
            :: post.map (Instr.mapOps (rauwOp ciId (.val liId))) ∧
      (∀ ins ∈ s'.M.allInstrs, ∀ op ∈ ins.opList, op ≠ .val ciId) := by
  obtain ⟨hb, hrm, hlg, M2, g, szTy, hMcomp, hns, hvms', hlk, hgb, hnb, hpb, hsig, hcases⟩ :=
    processInstr_sym_inv hst he hvoid hnosym hstep
  have hciIdlt : ciId < s.M.nextId := by
    have hmem : (Instr.call ciId (.direct nm) retTy args) ∈ s.M.bodyOf fname := by
      rw [hbody]
      simp
    exact WF.body_ids_lt hwf fname _ hmem
  have hpren := (body_decomp_pre_ids hwf hbody).1
  have hnodangle : ∀ ins ∈ s'.M.allInstrs, ∀ op ∈ ins.opList, op ≠ .val ciId := by
    rw [hMcomp]
    intro ins hins
    have hins' := List.Sublist.mem hins (allInstrs_eraseInstr_sublist _ fname ciId)
    refine rauw_no_dangling _ ciId ?_ ins hins'
    intro hc
    injection hc with hc
    omega
  refine ⟨hb, ?_⟩
  rcases hcases with ⟨hlk0, hsteq, hfuncs, hglob, hni⟩ |
    ⟨hlk0, hgid, hag, hv2, hbodyM2, hother, hglob, hni, hnames, hallI⟩
  · refine ⟨g, M2.nextId, [], hlk, by omega, by simp, ?_, hnodangle⟩
    have hb2 : M2.bodyOf fname = pre ++ Instr.call ciId (.direct nm) retTy args :: post := by
      rw [bodyOf_congr_funcs hfuncs fname]
      exact hbody
    rw [hMcomp, comp_bodyOf_fname M2 fname g hb2
      (show (Instr.call ciId (CalleeRef.direct nm) retTy args).id = ciId from rfl)
      hpren (by omega)]
    rw [List.nil_append]
  · by_cases hm : fname = "main"
    · subst hm
      refine ⟨g, M2.nextId,
        [Instr.ptrCast (s.M.nextId + 2) (.globalRef (s.M.nextId + 1)),
         Instr.call (s.M.nextId + 4) (.direct "__VERIFIER_make_symbolic") .void
           [.val (s.M.nextId + 2), .intConst szTy (typeAllocSize s.M.ptrBits retTy),
            .castGlobal (s.M.nextId + 3)]],
        hlk, by omega, ?_, ?_, hnodangle⟩
      · intro i hi
        rcases List.mem_cons.mp hi with hh | hh
        · subst hh
          simp [Instr.id]
        · rcases List.mem_cons.mp hh with hh | hh
          · subst hh
            simp [Instr.id]
          · cases hh
      · have hb2 : M2.bodyOf "main" =
            (Instr.ptrCast (s.M.nextId + 2) (.globalRef (s.M.nextId + 1)) ::
             Instr.call (s.M.nextId + 4) (.direct "__VERIFIER_make_symbolic") .void
               [.val (s.M.nextId + 2), .intConst szTy (typeAllocSize s.M.ptrBits retTy),
                .castGlobal (s.M.nextId + 3)] :: pre)
              ++ Instr.call ciId (.direct nm) retTy args :: post := by
          rw [hbodyM2, hbody]
          simp
        have hpren2 : ∀ i ∈
            (Instr.ptrCast (s.M.nextId + 2) (.globalRef (s.M.nextId + 1)) ::
             Instr.call (s.M.nextId + 4) (.direct "__VERIFIER_make_symbolic") .void
               [.val (s.M.nextId + 2), .intConst szTy (typeAllocSize s.M.ptrBits retTy),
                .castGlobal (s.M.nextId + 3)] :: pre), i.id ≠ ciId := by
          intro i hi
          rcases List.mem_cons.mp hi with hh | hh
          · subst hh
            simp only [Instr.id]
            omega
          · rcases List.mem_cons.mp hh with hh | hh
            · subst hh
              simp only [Instr.id]
              omega
            · exact hpren i hh
        rw [hMcomp, comp_bodyOf_fname M2 "main" g hb2
          (show (Instr.call ciId (CalleeRef.direct nm) retTy args).id = ciId from rfl)
          hpren2 (by omega)]
        rw [List.map_cons, List.map_cons]
        rw [mapOps_fix (by
          intro op hop
          simp only [Instr.opList, List.mem_singleton] at hop
          subst hop
          simp)]
        rw [mapOps_fix (by
          intro op hop
          simp only [Instr.opList, List.mem_cons, List.mem_singleton] at hop
          rcases hop with hh | hh | hh
          · subst hh
            intro hc
            injection hc with hc
            omega
          · subst hh
            simp
          · rcases hh with hh | hh
            · subst hh
              simp
            · cases hh)]
        simp
    · refine ⟨g, M2.nextId, [], hlk, by omega, by simp, ?_, hnodangle⟩
      have hb2 : M2.bodyOf fname = pre ++ Instr.call ciId (.direct nm) retTy args :: post := by
        rw [hother fname hm]
        exact hbody
      rw [hMcomp, comp_bodyOf_fname M2 fname g hb2
        (show (Instr.call ciId (CalleeRef.direct nm) retTy args).id = ciId from rfl)
        hpren (by omega)]
      rw [List.nil_append]

/-- C10: every Symbolic-policy rewrite of a non-void call site creates
one fresh constant `"nondet"` string global inside `replaceCall`, even on
a cache hit; a cache miss adds one more (the string created next to the
new nondeterministic global).  So the number of `"nondet"` string globals
grows by one per rewritten non-void call site plus one per newly created
nondeterministic global — not merely one per distinct type. -/
theorem C10_nondet_name_strings {fname : String} {s s' : PState} {b : Bool} {ciId : Nat}
    {nm : String} {retTy : LlvmTy} {args : List Operand}
    (hst : StWF s.M s.st)
    (he : eligibleIn s.M.funcs (.call ciId (.direct nm) retTy args) = true)
    (hvoid : ¬retTy = .void) (hnosym : s.st.nosym = false)
    (hstep : processInstr fname (.call ciId (.direct nm) retTy args) s = .ok (s', b)) :
    countStrNondet s'.M =
      countStrNondet s.M + 1 +
        (if (lookupTy s.st.added_globals retTy).isSome then 0 else 1) := by
  obtain ⟨hb, hrm, hlg, M2, g, szTy, hMcomp, hns, hvms', hlk, hgb, hnb, hpb, hsig, hcases⟩ :=
    processInstr_sym_inv hst he hvoid hnosym hstep
  have hgl : s'.M.globals = M2.globals := by
    rw [hMcomp]
    exact comp_globals M2 fname ciId g M2.nextId
  have hc : countStrNondet s'.M = countStrNondet M2 := by
    unfold countStrNondet
    rw [hgl]
  rw [hc]
  rcases hcases with ⟨hlk0, hsteq, hfuncs, hglob, hni⟩ |
    ⟨hlk0, hgid, hag, hv2, hbodyM2, hother, hglob, hni, hnames, hallI⟩
  · rw [hlk0]
    unfold countStrNondet
    rw [hglob, List.filter_append]
    simp
  · rw [hlk0]
    unfold countStrNondet
    rw [hglob, List.filter_append]
    simp

theorem processInstr_zero_inv {fname : String} {s : PState} {ciId : Nat} {nm : String}
    {retTy : LlvmTy} {args : List Operand} {s' : PState} {b : Bool}
    (he : eligibleIn s.M.funcs (.call ciId (.direct nm) retTy args) = true)
    (hvoid : ¬retTy = .void) (hnosym : s.st.nosym = true)
    (hstep : processInstr fname (.call ciId (.direct nm) retTy args) s = .ok (s', b)) :
    b = true ∧
    s'.M = (s.M.rauw ciId (.nullConst retTy)).eraseInstr fname ciId ∧
    s'.st = s.st ∧
    s'.removed = (if s.removed.contains nm then s.removed else nm :: s.removed) ∧
    s'.logs = (if s.removed.contains nm then s.logs
               else s.logs ++ [diagMsg nm (retTy = .void) s.st.nosym]) := by
  rw [processInstr_elig he] at hstep
  simp only [if_neg hvoid, hnosym, if_true] at hstep
  injection hstep with h1
  injection h1 with hps hb
  subst hb
  refine ⟨rfl, ?_, ?_, ?_, ?_⟩
  · rw [← hps]
  · rw [← hps]
  · rw [← hps]
    show (if s.removed.contains nm then _ else _ : List String × List String).1 = _
    split_ifs <;> rfl
  · rw [← hps]
    show (if s.removed.contains nm then _ else _ : List String × List String).2 = _
    split_ifs <;> simp [hnosym]

theorem processInstr_void_inv {fname : String} {s : PState} {ciId : Nat} {nm : String}
    {args : List Operand} {s' : PState} {b : Bool}
    (he : eligibleIn s.M.funcs (.call ciId (.direct nm) .void args) = true)
    (hstep : processInstr fname (.call ciId (.direct nm) .void args) s = .ok (s', b)) :
    b = true ∧
    s'.M = s.M.eraseInstr fname ciId ∧
    s'.st = s.st ∧
    s'.removed = (if s.removed.contains nm then s.removed else nm :: s.removed) ∧
    s'.logs = (if s.removed.contains nm then s.logs
               else s.logs ++ [diagMsg nm True s.st.nosym]) := by
  rw [processInstr_elig he] at hstep
  simp only [if_pos (Eq.refl (LlvmTy.void))] at hstep
  injection hstep with h1
  injection h1 with hps hb
  subst hb
  refine ⟨rfl, ?_, ?_, ?_, ?_⟩
  · rw [← hps]
  · rw [← hps]
  · rw [← hps]
    show (if s.removed.contains nm then _ else _ : List String × List String).1 = _
    split_ifs <;> rfl
  · rw [← hps]
    show (if s.removed.contains nm then _ else _ : List String × List String).2 = _
    split_ifs <;> simp [diagMsg]

/-- Body of the processed function after a Zero-policy rewrite. -/
theorem zeroComp_bodyOf_fname (M : Module) (fname : String) {ciId : Nat} (z : Operand)
    {pre post : List Instr} {e : Instr}
    (hbody : M.bodyOf fname = pre ++ e :: post) (hid : e.id = ciId)
    (hpre : ∀ i ∈ pre, i.id ≠ ciId) :
    ((M.rauw ciId z).eraseInstr fname ciId).bodyOf fname
      = pre.map (Instr.mapOps (rauwOp ciId z))
        ++ post.map (Instr.mapOps (rauwOp ciId z)) := by
  rw [bodyOf_eraseInstr_same, bodyOf_rauw, hbody, List.map_append, List.map_cons]
  rw [List.eraseP_append_right _ (by
    intro i hi
    obtain ⟨i0, hi0, hmap⟩ := List.mem_map.mp hi
    subst hmap
    simp only [Instr.id_mapOps, decide_eq_true_eq]
    exact hpre i0 hi0)]
  rw [List.eraseP_cons_of_pos (by simp only [Instr.id_mapOps, hid, decide_eq_true_eq])]

/-- Body of the processed function after a void-result erasure. -/
theorem eraseOnly_bodyOf_fname (M : Module) (fname : String) {ciId : Nat}
    {pre post : List Instr} {e : Instr}
    (hbody : M.bodyOf fname = pre ++ e :: post) (hid : e.id = ciId)
    (hpre : ∀ i ∈ pre, i.id ≠ ciId) :
    (M.eraseInstr fname ciId).bodyOf fname = pre ++ post := by
  rw [bodyOf_eraseInstr_same, hbody]
  rw [List.eraseP_append_right _ (by
    intro i hi
    simp only [decide_eq_true_eq]
    exact hpre i hi)]
  rw [List.eraseP_cons_of_pos (by simp only [hid, decide_eq_true_eq])]

/-- One step while the pass runs under the Zero policy (skip, void
erasure, or zero substitution): the pass state is untouched, the globals
are untouched, and every remaining instruction has the shape of one
already present (nothing is created). -/
theorem zero_step_preserve {fname : String} {ins : Instr} {s s' : PState} {b : Bool}
    (hnosym : s.st.nosym = true)
    (hstep : processInstr fname ins s = .ok (s', b)) :
    s'.st = s.st ∧ s'.M.globals = s.M.globals ∧
    (∀ i ∈ s'.M.allInstrs, ∃ i0 ∈ s.M.allInstrs, sameShape i i0) := by
  by_cases he : eligibleIn s.M.funcs ins = true
  · cases ins with
    | call ciId cr retTy args =>
      cases cr with
      | direct nm =>
        by_cases hv : retTy = .void
        · subst hv
          obtain ⟨hb, hM, hstq, hrm, hlg⟩ := processInstr_void_inv he hstep
          refine ⟨hstq, by rw [hM]; rfl, ?_⟩
          intro i hi
          rw [hM] at hi
          have h6 := List.Sublist.mem hi (allInstrs_eraseInstr_sublist s.M fname ciId)
          exact ⟨i, h6, sameShape.refl i⟩
        · obtain ⟨hb, hM, hstq, hrm, hlg⟩ := processInstr_zero_inv he hv hnosym hstep
          refine ⟨hstq, by rw [hM]; rfl, ?_⟩
          intro i hi
          rw [hM] at hi
          have h6 := List.Sublist.mem hi (allInstrs_eraseInstr_sublist _ fname ciId)
          rw [allInstrs_rauw] at h6
          obtain ⟨i0, hi0, hmap⟩ := List.mem_map.mp h6
          exact ⟨i0, hi0, hmap ▸ sameShape_mapOps _ i0⟩
      | inlineAsm => simp [eligibleIn] at he
      | indirect => simp [eligibleIn] at he
    | load i sr => simp [eligibleIn] at he
    | ptrCast i sr => simp [eligibleIn] at he
    | other i ops => simp [eligibleIn] at he
  · rw [processInstr_skip (Bool.not_eq_true _ ▸ Bool.of_not_eq_true he)] at hstep
    injection hstep with h1
    injection h1 with hps hb
    rw [← hps]
    exact ⟨rfl, rfl, fun i hi => ⟨i, hi, sameShape.refl i⟩⟩

/-- `zero_step_preserve` folded over an instruction list. -/
theorem zero_list_preserve {fname : String} :
    ∀ {todo : List Instr} {s s' : PState} {b : Bool}, s.st.nosym = true →
    processList fname todo s = .ok (s', b) →
    s'.st = s.st ∧ s'.M.globals = s.M.globals ∧
    (∀ i ∈ s'.M.allInstrs, ∃ i0 ∈ s.M.allInstrs, sameShape i i0) := by
  intro todo
  induction todo with
  | nil =>
    intro s s' b hns hok
    unfold processList at hok
    injection hok with h1
    injection h1 with hps hb
    rw [← hps]
    exact ⟨rfl, rfl, fun i hi => ⟨i, hi, sameShape.refl i⟩⟩
  | cons ins rest ih =>
    intro s s' b hns hok
    unfold processList at hok
    cases h1 : processInstr fname ins s with
    | error e => rw [h1] at hok; exact Except.noConfusion hok
    | ok r =>
      obtain ⟨s1, b1⟩ := r
      simp only [h1] at hok
      cases h2 : processList fname rest s1 with
      | error e => rw [h2] at hok; exact Except.noConfusion hok
      | ok r2 =>
        obtain ⟨s2, b2⟩ := r2
        rw [h2] at hok
        injection hok with h3
        injection h3 with hps hb
        obtain ⟨e1, e2, e3⟩ := zero_step_preserve hns h1
        obtain ⟨f1, f2, f3⟩ := ih (by rw [e1]; exact hns) h2
        rw [← hps]
        refine ⟨f1.trans e1, f2.trans e2, ?_⟩
        intro i hi
        obtain ⟨i1, hi1, hs1⟩ := f3 i hi
        obtain ⟨i0, hi0, hs0⟩ := e3 i1 hi1
        exact ⟨i0, hi0, hs1.trans hs0⟩

/-- `zero_step_preserve` folded over the whole driver. -/
theorem zero_funcs_preserve :
    ∀ {nms : List String} {s s' : PState} {b : Bool}, s.st.nosym = true →
    runOnFuncs nms s = .ok (s', b) →
    s'.st = s.st ∧ s'.M.globals = s.M.globals ∧
    (∀ i ∈ s'.M.allInstrs, ∃ i0 ∈ s.M.allInstrs, sameShape i i0) := by
  intro nms
  induction nms with
  | nil =>
    intro s s' b hns hok
    unfold runOnFuncs at hok
    injection hok with h1
    injection h1 with hps hb
    rw [← hps]
    exact ⟨rfl, rfl, fun i hi => ⟨i, hi, sameShape.refl i⟩⟩
  | cons nm rest ih =>
    intro s s' b hns hok
    unfold runOnFuncs at hok
    cases h1 : runOnFunction nm s with
    | error e => rw [h1] at hok; exact Except.noConfusion hok
    | ok r =>
      obtain ⟨s1, b1⟩ := r
      simp only [h1] at hok
      cases h2 : runOnFuncs rest s1 with
      | error e => rw [h2] at hok; exact Except.noConfusion hok
      | ok r2 =>
        obtain ⟨s2, b2⟩ := r2
        rw [h2] at hok
        injection hok with h3
        injection h3 with hps hb
        obtain ⟨e1, e2, e3⟩ := zero_list_preserve hns h1
        obtain ⟨f1, f2, f3⟩ := ih (by rw [e1]; exact hns) h2
        rw [← hps]
        refine ⟨f1.trans e1, f2.trans e2, ?_⟩
        intro i hi
        obtain ⟨i1, hi1, hs1⟩ := f3 i hi
        obtain ⟨i0, hi0, hs0⟩ := e3 i1 hi1
        exact ⟨i0, hi0, hs1.trans hs0⟩

/-- C5: under the Zero policy an eligible non-void call is replaced by
the canonical null value of its type in every use and then erased, with
no new globals and no state change; a void-result call is erased with no
substitution under either policy; and a whole Zero-policy run introduces
no globals, no pass-state changes, and no new instructions (in
particular no calls to the make-symbolic hook). -/
theorem C5_zero_policy :
    (∀ (fname : String) (s s' : PState) (b : Bool) (ciId : Nat) (nm : String)
       (retTy : LlvmTy) (args : List Operand) (pre post : List Instr),
       WF s.M →
       eligibleIn s.M.funcs (.call ciId (.direct nm) retTy args) = true →
       ¬retTy = .void → s.st.nosym = true →
       s.M.bodyOf fname = pre ++ Instr.call ciId (.direct nm) retTy args :: post →
       processInstr fname (.call ciId (.direct nm) retTy args) s = .ok (s', b) →
       b = true ∧ s'.st = s.st ∧ s'.M.globals = s.M.globals ∧
       s'.M.bodyOf fname =
         pre.map (Instr.mapOps (rauwOp ciId (.nullConst retTy)))
           ++ post.map (Instr.mapOps (rauwOp ciId (.nullConst retTy))) ∧
       (∀ ins ∈ s'.M.allInstrs, ∀ op ∈ ins.opList, op ≠ .val ciId)) ∧
    (∀ (fname : String) (s s' : PState) (b : Bool) (ciId : Nat) (nm : String)
       (args : List Operand) (pre post : List Instr),
       WF s.M →
       eligibleIn s.M.funcs (.call ciId (.direct nm) .void args) = true →
       s.M.bodyOf fname = pre ++ Instr.call ciId (.direct nm) .void args :: post →
       processInstr fname (.call ciId (.direct nm) .void args) s = .ok (s', b) →
       b = true ∧ s'.st = s.st ∧ s'.M.globals = s.M.globals ∧
       s'.M.bodyOf fname = pre ++ post) ∧
    (∀ (s s' : PState) (b : Bool), s.st.nosym = true →
       runOnModule s = .ok (s', b) →
       s'.st = s.st ∧ s'.M.globals = s.M.globals ∧
       (∀ i ∈ s'.M.allInstrs, ∃ i0 ∈ s.M.allInstrs, sameShape i i0)) := by
  refine ⟨?_, ?_, ?_⟩
  · intro fname s s' b ciId nm retTy args pre post hwf he hv hns hbody hstep
    obtain ⟨hb, hM, hstq, hrm, hlg⟩ := processInstr_zero_inv he hv hns hstep
    have hpren := (body_decomp_pre_ids hwf hbody).1
    refine ⟨hb, hstq, by rw [hM]; rfl, ?_, ?_⟩
    · rw [hM, zeroComp_bodyOf_fname s.M fname (.nullConst retTy) hbody
        (show (Instr.call ciId (CalleeRef.direct nm) retTy args).id = ciId from rfl) hpren]
    · intro ins hins
      rw [hM] at hins
      have h6 := List.Sublist.mem hins (allInstrs_eraseInstr_sublist _ fname ciId)
      exact rauw_no_dangling _ ciId (by intro hc; exact Operand.noConfusion hc) ins h6
  · intro fname s s' b ciId nm args pre post hwf he hbody hstep
    obtain ⟨hb, hM, hstq, hrm, hlg⟩ := processInstr_void_inv he hstep
    have hpren := (body_decomp_pre_ids hwf hbody).1
    refine ⟨hb, hstq, by rw [hM]; rfl, ?_⟩
    rw [hM, eraseOnly_bodyOf_fname s.M fname hbody
      (show (Instr.call ciId (CalleeRef.direct nm) .void args).id = ciId from rfl) hpren]
  · intro s s' b hns hok
    exact zero_funcs_preserve hns hok

/-- C5 witness: a fresh Zero-policy pass on `zM`, whose `main` calls the
undefined non-void `foo` and the undefined void `bar`. -/
theorem C5_zero_policy_witness :
    (WF zS.M ∧
     eligibleIn zS.M.funcs (.call 1 (.direct "foo") (.int 32) []) = true ∧
     zS.st.nosym = true ∧
     processInstr "main" (.call 1 (.direct "foo") (.int 32) []) zS = .ok (zS1, true) ∧
     zS1.st = zS.st ∧ zS1.M.globals = zS.M.globals ∧
     zS1.M.bodyOf "main" =
       [Instr.other 2 [Operand.nullConst (.int 32)],
        Instr.call 3 (.direct "bar") .void [Operand.nullConst (.int 32)]] ∧
     (∀ ins ∈ zS1.M.allInstrs, ∀ op ∈ ins.opList, op ≠ Operand.val 1)) ∧
    (processInstr "main" (.call 3 (.direct "bar") .void [Operand.nullConst (.int 32)]) zS1 =
       .ok (zSfin, true) ∧
     zSfin.st = zS1.st ∧ zSfin.M.globals = zS1.M.globals ∧
     zSfin.M.bodyOf "main" = [Instr.other 2 [Operand.nullConst (.int 32)]]) ∧
    (runOnModule zS = .ok (zSfin, true) ∧ zSfin.st = zS.st ∧ zSfin.M.globals = zS.M.globals ∧
     (∀ i ∈ zSfin.M.allInstrs, ∃ i0 ∈ zS.M.allInstrs, sameShape i i0)) := by
  obtain ⟨hb1, hst1, hg1, hbody1, hnd1⟩ :=
    C5_zero_policy.1 "main" zS zS1 true 1 "foo" (.int 32) []
      [] [Instr.other 2 [Operand.val 1], Instr.call 3 (.direct "bar") .void [Operand.val 1]]
      (by decide) (by decide) (by decide) rfl rfl rfl
  obtain ⟨hb2, hst2, hg2, hbody2⟩ :=
    C5_zero_policy.2.1 "main" zS1 zSfin true 3 "bar"
      [Operand.nullConst (.int 32)] [Instr.other 2 [Operand.nullConst (.int 32)]] []
      (by decide) (by decide) rfl rfl
  obtain ⟨hst3, hg3, hsh3⟩ := C5_zero_policy.2.2 zS zSfin true rfl rfl
  exact ⟨⟨by decide, rfl, rfl, rfl, hst1, hg1, hbody1.trans rfl, hnd1⟩,
    ⟨rfl, hst2, hg2, hbody2.trans rfl⟩, ⟨rfl, hst3, hg3, hsh3⟩⟩

/-- C4 witness: a fresh Symbolic-policy pass on `sM` rewriting the
`foo` call of `main`. -/
theorem C4_symbolic_rewrite_witness :
    WF sS.M ∧ StWF sS.M sS.st ∧
    eligibleIn sS.M.funcs (.call 1 (.direct "foo") (.int 32) []) = true ∧
    ¬(LlvmTy.int 32) = .void ∧ sS.st.nosym = false ∧
    sS.M.bodyOf "main" =
      [] ++ Instr.call 1 (.direct "foo") (.int 32) [] :: [Instr.other 2 [Operand.val 1]] ∧
    processInstr "main" (.call 1 (.direct "foo") (.int 32) []) sS = .ok (sSp, true) ∧
    (true = true ∧
     ∃ g liId injF,
       lookupTy sSp.st.added_globals (.int 32) = some g ∧
       sS.M.nextId ≤ liId ∧
       (∀ i ∈ injF, sS.M.nextId ≤ i.id) ∧
       sSp.M.bodyOf "main" =
         injF ++ ([] : List Instr).map (Instr.mapOps (rauwOp 1 (.val liId)))
           ++ Instr.load liId (.globalRef g)
             :: [Instr.other 2 [Operand.val 1]].map (Instr.mapOps (rauwOp 1 (.val liId))) ∧
       (∀ ins ∈ sSp.M.allInstrs, ∀ op ∈ ins.opList, op ≠ .val 1)) := by
  refine ⟨by decide, by decide, by decide, by decide, rfl, rfl, rfl, ?_⟩
  exact C4_symbolic_rewrite (by decide) (by decide) (by decide) (by decide) rfl
    (show sS.M.bodyOf "main" =
      [] ++ Instr.call 1 (.direct "foo") (.int 32) [] :: [Instr.other 2 [Operand.val 1]] from rfl)
    (show processInstr "main" (.call 1 (.direct "foo") (.int 32) []) sS = .ok (sSp, true) from rfl)

/-- C10 witness: the same rewrite creates two `"nondet"` string globals —
one unconditionally in `replaceCall`, one next to the freshly created
nondeterministic global — starting from a module with none. -/
theorem C10_nondet_name_strings_witness :
    StWF sS.M sS.st ∧
    eligibleIn sS.M.funcs (.call 1 (.direct "foo") (.int 32) []) = true ∧
    ¬(LlvmTy.int 32) = .void ∧ sS.st.nosym = false ∧
    processInstr "main" (.call 1 (.direct "foo") (.int 32) []) sS = .ok (sSp, true) ∧
    countStrNondet sSp.M = 2 ∧ countStrNondet sS.M = 0 ∧
    countStrNondet sSp.M =
      countStrNondet sS.M + 1 +
        (if (lookupTy sS.st.added_globals (.int 32)).isSome then 0 else 1) := by
  refine ⟨by decide, by decide, by decide, rfl, rfl, rfl, rfl, ?_⟩
  exact C10_nondet_name_strings (by decide) (by decide) (by decide) (by decide)
    (show processInstr "main" (.call 1 (.direct "foo") (.int 32) []) sS = .ok (sSp, true) from rfl)

/-- Removed-set/log bookkeeping of processing one eligible call, common
to the void, Zero and Symbolic branches: report once per callee. -/
theorem processInstr_rl {fname : String} {s : PState} {ciId : Nat} {nm : String}
    {retTy : LlvmTy} {args : List Operand} {s' : PState} {b : Bool}
    (he : eligibleIn s.M.funcs (.call ciId (.direct nm) retTy args) = true)
    (hstep : processInstr fname (.call ciId (.direct nm) retTy args) s = .ok (s', b)) :
    b = true ∧
    s'.removed = (if s.removed.contains nm then s.removed else nm :: s.removed) ∧
    s'.logs = (if s.removed.contains nm then s.logs
               else s.logs ++ [diagMsg nm (retTy = .void) s.st.nosym]) := by
  rw [processInstr_elig he] at hstep
  by_cases hv : retTy = .void
  · simp only [if_pos hv] at hstep
    injection hstep with h1
    injection h1 with hps hb
    subst hb
    refine ⟨rfl, ?_, ?_⟩
    · rw [← hps]
      show (if s.removed.contains nm then _ else _ : List String × List String).1 = _
      split_ifs <;> rfl
    · rw [← hps]
      show (if s.removed.contains nm then _ else _ : List String × List String).2 = _
      split_ifs <;> rfl
  · simp only [if_neg hv] at hstep
    by_cases hns : s.st.nosym = true
    · simp only [hns, if_true] at hstep
      injection hstep with h1
      injection h1 with hps hb
      subst hb
      refine ⟨rfl, ?_, ?_⟩
      · rw [← hps]
        show (if s.removed.contains nm then _ else _ : List String × List String).1 = _
        split_ifs <;> rfl
      · rw [← hps]
        show (if s.removed.contains nm then _ else _ : List String × List String).2 = _
        split_ifs <;> simp [hns]
    · have hns' : s.st.nosym = false := by revert hns; cases s.st.nosym <;> simp
      simp only [hns', Bool.false_eq_true, if_false] at hstep
      cases hrc : replaceCall fname ciId retTy s.M s.st with
      | error e =>
        rw [hrc] at hstep
        exact Except.noConfusion hstep
      | ok r =>
        obtain ⟨M1, st1⟩ := r
        rw [hrc] at hstep
        injection hstep with h1
        injection h1 with hps hb
        subst hb
        refine ⟨rfl, ?_, ?_⟩
        · rw [← hps]
          show (if s.removed.contains nm then _ else _ : List String × List String).1 = _
          split_ifs <;> rfl
        · rw [← hps]
          show (if s.removed.contains nm then _ else _ : List String × List String).2 = _
          split_ifs <;> simp [hns']

theorem reported_refl (s : PState) : Reported s s :=
  ⟨[], [], rfl, by simp, rfl, List.nodup_nil, by simp⟩

theorem reported_trans {s1 s2 s3 : PState} (h1 : Reported s1 s2) (h2 : Reported s2 s3) :
    Reported s1 s3 := by
  obtain ⟨n1, l1, hr1, hl1, hlen1, hnd1, hnin1⟩ := h1
  obtain ⟨n2, l2, hr2, hl2, hlen2, hnd2, hnin2⟩ := h2
  refine ⟨n2 ++ n1, l1 ++ l2, by rw [hr2, hr1, List.append_assoc],
    by rw [hl2, hl1, List.append_assoc], by simp [hlen1, hlen2, Nat.add_comm], ?_, ?_⟩
  · rw [List.nodup_append]
    refine ⟨hnd2, hnd1, ?_⟩
    intro x hx2 hx1
    exact hnin2 x hx2 (by rw [hr1]; exact List.mem_append_left _ hx1)
  · intro x hx
    rcases List.mem_append.mp hx with hx | hx
    · intro hmem
      exact hnin2 x hx (by rw [hr1]; exact List.mem_append_right _ hmem)
    · exact hnin1 x hx

/-- One processed instruction moves the reporter's state along
`Reported`: a skip is silent, a repeat elimination is silent, a first
elimination reports its callee once. -/
theorem processInstr_report {fname : String} {ins : Instr} {s s' : PState} {b : Bool}
    (hstep : processInstr fname ins s = .ok (s', b)) : Reported s s' := by
  by_cases he : eligibleIn s.M.funcs ins = true
  · cases ins with
    | call ciId c retTy args =>
      cases c with
      | direct nm =>
        obtain ⟨hb, hrm, hlg⟩ := processInstr_rl he hstep
        by_cases hc : s.removed.contains nm = true
        · exact ⟨[], [], hrm.trans (if_pos hc),
            (hlg.trans (if_pos hc)).trans (List.append_nil s.logs).symm,
            rfl, List.nodup_nil, by simp⟩
        · refine ⟨[nm], [diagMsg nm (retTy = .void) s.st.nosym],
            hrm.trans (if_neg hc), hlg.trans (if_neg hc), rfl, List.nodup_singleton nm, ?_⟩
          intro x hx
          rw [List.mem_singleton] at hx
          subst hx
          simpa using hc
      | inlineAsm => exact Bool.noConfusion he
      | indirect => exact Bool.noConfusion he
    | load i op => exact Bool.noConfusion he
    | ptrCast i op => exact Bool.noConfusion he
    | other i ops => exact Bool.noConfusion he
  · have he' : eligibleIn s.M.funcs ins = false := by
      revert he; cases eligibleIn s.M.funcs ins <;> simp
    rw [processInstr_skip he'] at hstep
    injection hstep with h1
    injection h1 with hps hb
    rw [← hps]
    exact reported_refl s

/-- `processInstr_report` folded over an instruction list. -/
theorem processList_report {fname : String} :
    ∀ {todo : List Instr} {s s' : PState} {b : Bool},
    processList fname todo s = .ok (s', b) → Reported s s' := by
  intro todo
  induction todo with
  | nil =>
    intro s s' b hok
    unfold processList at hok
    injection hok with h1
    injection h1 with hps hb
    rw [← hps]
    exact reported_refl s
  | cons ins rest ih =>
    intro s s' b hok
    unfold processList at hok
    cases h1 : processInstr fname ins s with
    | error e => rw [h1] at hok; exact Except.noConfusion hok
    | ok r =>
      obtain ⟨s1, b1⟩ := r
      simp only [h1] at hok
      cases h2 : processList fname rest s1 with
      | error e => rw [h2] at hok; exact Except.noConfusion hok
      | ok r2 =>
        obtain ⟨s2, b2⟩ := r2
        rw [h2] at hok
        injection hok with h3
        injection h3 with hps hb
        rw [← hps]
        exact reported_trans (processInstr_report h1) (ih h2)

/-- `processInstr_report` folded over the whole driver. -/
theorem runOnFuncs_report :
    ∀ {nms : List String} {s s' : PState} {b : Bool},
    runOnFuncs nms s = .ok (s', b) → Reported s s' := by
  intro nms
  induction nms with
  | nil =>
    intro s s' b hok
    unfold runOnFuncs at hok
    injection hok with h1
    injection h1 with hps hb
    rw [← hps]
    exact reported_refl s
  | cons nm rest ih =>
    intro s s' b hok
    unfold runOnFuncs at hok
    cases h1 : runOnFunction nm s with
    | error e => rw [h1] at hok; exact Except.noConfusion hok
    | ok r =>
      obtain ⟨s1, b1⟩ := r
      simp only [h1] at hok
      cases h2 : runOnFuncs rest s1 with
      | error e => rw [h2] at hok; exact Except.noConfusion hok
      | ok r2 =>
        obtain ⟨s2, b2⟩ := r2
        rw [h2] at hok
        injection hok with h3
        injection h3 with hps hb
        rw [← hps]
        exact reported_trans (processList_report h1) (ih h2)

/-- C9 (amended): the reporter emits exactly one diagnostic line per
distinct eliminated callee, first elimination only — a repeat
elimination is rewritten silently, a first elimination logs one line and
records the callee — and across any run the reported set grows
monotonically, is never reset, and gains exactly one log line per newly
reported callee (`Reported`).  But the set is a function-local `static`
with process lifetime shared by every pass instance, not pass-instance
state: a run never clears it, it can only inherit it (see the
counterexample for a fresh instance inheriting it). -/
theorem C9_first_occurrence_reporting :
    (∀ (fname : String) (s s' : PState) (b : Bool) (ciId : Nat) (nm : String)
       (retTy : LlvmTy) (args : List Operand),
       eligibleIn s.M.funcs (.call ciId (.direct nm) retTy args) = true →
       s.removed.contains nm = true →
       processInstr fname (.call ciId (.direct nm) retTy args) s = .ok (s', b) →
       b = true ∧ s'.removed = s.removed ∧ s'.logs = s.logs) ∧
    (∀ (fname : String) (s s' : PState) (b : Bool) (ciId : Nat) (nm : String)
       (retTy : LlvmTy) (args : List Operand),
       eligibleIn s.M.funcs (.call ciId (.direct nm) retTy args) = true →
       s.removed.contains nm = false →
       processInstr fname (.call ciId (.direct nm) retTy args) s = .ok (s', b) →
       b = true ∧ s'.removed = nm :: s.removed ∧
       s'.logs = s.logs ++ [diagMsg nm (retTy = .void) s.st.nosym]) ∧
    (∀ (nms : List String) (s s' : PState) (b : Bool),
       runOnFuncs nms s = .ok (s', b) → Reported s s') := by
  refine ⟨?_, ?_, ?_⟩
  · intro fname s s' b ciId nm retTy args he hc hstep
    obtain ⟨hb, hrm, hlg⟩ := processInstr_rl he hstep
    exact ⟨hb, hrm.trans (if_pos hc), hlg.trans (if_pos hc)⟩
  · intro fname s s' b ciId nm retTy args he hc hstep
    obtain ⟨hb, hrm, hlg⟩ := processInstr_rl he hstep
    have hc' : ¬s.removed.contains nm = true := by rw [hc]; simp
    exact ⟨hb, hrm.trans (if_neg hc'), hlg.trans (if_neg hc')⟩
  · intro nms s s' b hok
    exact runOnFuncs_report hok

/-- C9 witness: on `zM` a first `foo` elimination reports once; with
`"foo"` inherited in the static set the same elimination is silent; a
full run relates start and end state by `Reported`. -/
theorem C9_first_occurrence_reporting_witness :
    (eligibleIn zS.M.funcs (.call 1 (.direct "foo") (.int 32) []) = true ∧
     zS.removed.contains "foo" = false ∧
     processInstr "main" (.call 1 (.direct "foo") (.int 32) []) zS = .ok (zS1, true) ∧
     zS1.removed = "foo" :: zS.removed ∧
     zS1.logs = zS.logs ++ [diagMsg "foo" (LlvmTy.int 32 = LlvmTy.void) zS.st.nosym]) ∧
    (eligibleIn c9S.M.funcs (.call 1 (.direct "foo") (.int 32) []) = true ∧
     c9S.removed.contains "foo" = true ∧
     processInstr "main" (.call 1 (.direct "foo") (.int 32) []) c9S = .ok (c9S1, true) ∧
     c9S1.removed = c9S.removed ∧ c9S1.logs = c9S.logs) ∧
    (runOnFuncs ["main", "foo", "bar"] zS = .ok (zSfin, true) ∧ Reported zS zSfin) := by
  obtain ⟨hb1, hr1, hl1⟩ :=
    C9_first_occurrence_reporting.2.1 "main" zS zS1 true 1 "foo" (.int 32) []
      (by decide) rfl rfl
  obtain ⟨hb2, hr2, hl2⟩ :=
    C9_first_occurrence_reporting.1 "main" c9S c9S1 true 1 "foo" (.int 32) []
      (by decide) rfl rfl
  have hc := C9_first_occurrence_reporting.2.2 ["main", "foo", "bar"] zS zSfin true rfl
  exact ⟨⟨by decide, rfl, rfl, hr1, hl1⟩, ⟨by decide, rfl, rfl, hr2, hl2⟩, rfl, hc⟩

/-- C9 counterexample: two fresh Zero-policy pass instances run on the
identical module `zM`; the one inheriting the process-persisted static
set `{foo}` still eliminates the `foo` call (it reports modification and
produces the same transformed module) but emits no `foo` diagnostic —
so the reported-callee set is not reset when a fresh pass instance
begins a new run, refuting the pass-instance-state clause. -/
theorem C9_claim_false :
    runOnModule ⟨zM, freshPassState true, ["foo"], []⟩ =
      .ok (⟨zSfin.M, freshPassState true, ["bar", "foo"], [diagMsg "bar" true true]⟩, true) ∧
    diagMsg "foo" false true ∉ [diagMsg "bar" true true] ∧
    runOnModule ⟨zM, freshPassState true, [], []⟩ = .ok (zSfin, true) ∧
    diagMsg "foo" false true ∈ zSfin.logs := by
  exact ⟨rfl, by decide, rfl, by decide⟩

/-! Preservation of module and state well-formedness by every editing
primitive a run step performs. -/

theorem ids_map_mapOps (h : Operand → Operand) (l : List Instr) :
    (l.map (Instr.mapOps h)).map Instr.id = l.map Instr.id := by
  rw [List.map_map]
  apply List.map_congr_left
  intro a _
  simp

theorem globals_rauw (M : Module) (old : Nat) (new : Operand) :
    (M.rauw old new).globals = M.globals := rfl

theorem nextId_rauw (M : Module) (old : Nat) (new : Operand) :
    (M.rauw old new).nextId = M.nextId := rfl

theorem globals_setBody (M : Module) (nm : String) (b : List Instr) :
    (M.setBody nm b).globals = M.globals := rfl

theorem nextId_setBody (M : Module) (nm : String) (b : List Instr) :
    (M.setBody nm b).nextId = M.nextId := rfl

theorem names_setBody (M : Module) (nm : String) (b : List Instr) :
    (M.setBody nm b).funcs.map Func.name = M.funcs.map Func.name := by
  unfold Module.setBody
  exact funcsNames_editBody M.funcs nm (fun _ => some b)

theorem names_rauw (M : Module) (old : Nat) (new : Operand) :
    (M.rauw old new).funcs.map Func.name = M.funcs.map Func.name := by
  unfold Module.rauw
  dsimp only
  rw [List.map_map]
  apply List.map_congr_left
  intro a _
  rfl

/-- Bumping the allocator preserves well-formedness. -/
theorem WF_mono {M : Module} (hwf : WF M) (k : Nat) :
    WF { M with nextId := M.nextId + k } := by
  obtain ⟨h1, h2, h3, h4, h5, h6⟩ := hwf
  have hai : ({ M with nextId := M.nextId + k } : Module).allInstrs = M.allInstrs :=
    allInstrs_congr_funcs rfl
  refine ⟨by rw [hai]; exact h1, ?_, h3, ?_, ?_, h6⟩
  · intro ins hins
    rw [hai] at hins
    exact Nat.lt_of_lt_of_le (h2 ins hins) (by simp)
  · intro g hg
    exact Nat.lt_of_lt_of_le (h4 g hg) (by simp)
  · intro ins hins op hop
    rw [hai] at hins
    have := h5 ins hins op hop
    cases op <;> simp only [Operand.refsBelow] at this ⊢ <;> omega

theorem refsBelow_mono {op : Operand} {a b : Nat} (h : op.refsBelow a) (hab : a ≤ b) :
    op.refsBelow b := by
  cases op <;> simp only [Operand.refsBelow] at h ⊢ <;> omega

/-- `replaceAllUsesWith` preserves well-formedness when the substitute
operand only references allocated ids. -/
theorem WF_rauw {M : Module} (hwf : WF M) (old : Nat) {new : Operand}
    (hnew : new.refsBelow M.nextId) : WF (M.rauw old new) := by
  obtain ⟨h1, h2, h3, h4, h5, h6⟩ := hwf
  have hai := allInstrs_rauw M old new
  refine ⟨?_, ?_, h3, ?_, ?_, ?_⟩
  · rw [hai, ids_map_mapOps]
    exact h1
  · intro ins hins
    rw [hai] at hins
    obtain ⟨i0, hi0, hmap⟩ := List.mem_map.mp hins
    subst hmap
    rw [nextId_rauw]
    simpa using h2 i0 hi0
  · intro g hg
    rw [globals_rauw] at hg
    rw [nextId_rauw]
    exact h4 g hg
  · intro ins hins op hop
    rw [hai] at hins
    obtain ⟨i0, hi0, hmap⟩ := List.mem_map.mp hins
    subst hmap
    rw [opList_mapOps] at hop
    obtain ⟨op0, hop0, hmap⟩ := List.mem_map.mp hop
    subst hmap
    rw [nextId_rauw]
    cases op0 with
    | val j =>
      simp only [rauwOp]
      by_cases hj : j = old
      · rw [if_pos hj]
        exact hnew
      · rw [if_neg hj]
        exact h5 i0 hi0 _ hop0
    | globalRef gid => exact h5 i0 hi0 _ hop0
    | castGlobal gid => exact h5 i0 hi0 _ hop0
    | nullConst ty => trivial
    | intConst ty v => trivial
  · rw [names_rauw]
    exact h6

theorem nodup_insert_middle {α : Type} {xs ys : List α} {a : α}
    (h : (xs ++ ys).Nodup) (ha : a ∉ xs ++ ys) : (xs ++ a :: ys).Nodup := by
  rw [List.nodup_middle]
  exact List.nodup_cons.mpr ⟨ha, h⟩

theorem insertBeforeId_splice (tid : Nat) (n : Instr) :
    ∀ l : List Instr, insertBeforeId tid n l = l ∨
      ∃ p q, l = p ++ q ∧ insertBeforeId tid n l = p ++ n :: q := by
  intro l
  induction l with
  | nil => exact Or.inl rfl
  | cons i rest ih =>
    rw [insertBeforeId_cons]
    by_cases hi : i.id = tid
    · rw [if_pos hi]
      exact Or.inr ⟨[], i :: rest, rfl, rfl⟩
    · rw [if_neg hi]
      rcases ih with h | ⟨p, q, hl, hins⟩
      · rw [h]
        exact Or.inl rfl
      · rw [hins, hl]
        exact Or.inr ⟨i :: p, q, rfl, rfl⟩

theorem globals_eraseInstr (M : Module) (fname : String) (tid : Nat) :
    (M.eraseInstr fname tid).globals = M.globals := rfl

theorem nextId_eraseInstr (M : Module) (fname : String) (tid : Nat) :
    (M.eraseInstr fname tid).nextId = M.nextId := rfl

theorem globals_insertBefore (M : Module) (fname : String) (tid : Nat) (n : Instr) :
    (M.insertBefore fname tid n).globals = M.globals := rfl

theorem nextId_insertBefore (M : Module) (fname : String) (tid : Nat) (n : Instr) :
    (M.insertBefore fname tid n).nextId = M.nextId := rfl

theorem names_eraseInstr (M : Module) (fname : String) (tid : Nat) :
    (M.eraseInstr fname tid).funcs.map Func.name = M.funcs.map Func.name := by
  unfold Module.eraseInstr
  exact funcsNames_editNamed M.funcs fname _ (fun _ => rfl)

theorem names_insertBefore (M : Module) (fname : String) (tid : Nat) (n : Instr) :
    (M.insertBefore fname tid n).funcs.map Func.name = M.funcs.map Func.name := by
  unfold Module.insertBefore
  exact funcsNames_editNamed M.funcs fname _ (fun _ => rfl)

/-- `eraseFromParent` preserves well-formedness. -/
theorem WF_eraseInstr {M : Module} (hwf : WF M) (fname : String) (tid : Nat) :
    WF (M.eraseInstr fname tid) := by
  obtain ⟨h1, h2, h3, h4, h5, h6⟩ := hwf
  have hsub := allInstrs_eraseInstr_sublist M fname tid
  refine ⟨?_, ?_, h3, ?_, ?_, ?_⟩
  · exact h1.sublist (hsub.map Instr.id)
  · intro ins hins
    rw [nextId_eraseInstr]
    exact h2 ins (hsub.mem hins)
  · intro g hg
    rw [globals_eraseInstr] at hg
    rw [nextId_eraseInstr]
    exact h4 g hg
  · intro ins hins op hop
    rw [nextId_eraseInstr]
    exact h5 ins (hsub.mem hins) op hop
  · rw [names_eraseInstr]
    exact h6

/-- `insertBefore` of a freshly allocated instruction preserves
well-formedness. -/
theorem WF_insertBefore {M : Module} (hwf : WF M) (fname : String) (tid : Nat) (n : Instr)
    (hidfresh : n.id ∉ M.allInstrs.map Instr.id)
    (hidlt : n.id < M.nextId)
    (hops : ∀ op ∈ n.opList, op.refsBelow M.nextId) :
    WF (M.insertBefore fname tid n) := by
  cases hf : M.findFunc fname with
  | none =>
    have hnm : ∀ f' ∈ M.funcs, f'.name ≠ fname := by
      intro f' hf' heq
      exact findFuncIn_none_not_mem hf (heq ▸ List.mem_map_of_mem Func.name hf')
    have : M.insertBefore fname tid n = M := by
      unfold Module.insertBefore
      rw [map_editNamed_id _ M.funcs hnm]
    rw [this]
    exact hwf
  | some f =>
    obtain ⟨h1, h2, h3, h4, h5, h6⟩ := hwf
    obtain ⟨A1, A2, hA, hA'⟩ := allInstrs_editNamed M h6 hf
      (fun f' => { f' with body := f'.body.map (insertBeforeId tid n) }) M.globals M.nextId
    have hA'2 : (M.insertBefore fname tid n).allInstrs =
        A1 ++ insertBeforeId tid n (f.body.getD []) ++ A2 := by
      show (Module.mk M.ptrBits
        (M.funcs.map (fun f' => if f'.name = fname then
          { f' with body := f'.body.map (insertBeforeId tid n) } else f')) M.globals
          M.nextId).allInstrs = _
      rw [hA']
      congr 1
      congr 1
      exact Option.getD_map_nil f.body _ rfl
    rcases insertBeforeId_splice tid n (f.body.getD []) with hid | ⟨p, q, hpq, hid⟩
    · refine ⟨?_, ?_, h3, h4, ?_, ?_⟩
      · rw [hA'2, hid, ← hA]
        exact h1
      · intro ins hins
        rw [hA'2, hid, ← hA] at hins
        exact h2 ins hins
      · intro ins hins op hop
        rw [hA'2, hid, ← hA] at hins
        exact h5 ins hins op hop
      · rw [names_insertBefore]
        exact h6
    · rw [hpq] at hA
      rw [hid] at hA'2
    -- allInstrs = A1 ++ (p ++ n :: q) ++ A2, old = A1 ++ (p ++ q) ++ A2
      have hmemo : ∀ x, x ∈ (M.insertBefore fname tid n).allInstrs →
          x = n ∨ x ∈ M.allInstrs := by
        intro x hx
        rw [hA'2] at hx
        rw [hA]
        simp only [List.mem_append, List.mem_cons] at hx ⊢
        tauto
      refine ⟨?_, ?_, h3, h4, ?_, ?_⟩
      · rw [hA'2]
        rw [hA] at h1
        simp only [List.map_append, List.map_cons] at h1 ⊢
        rw [show A1.map Instr.id ++ (p.map Instr.id ++ n.id :: q.map Instr.id) ++
              A2.map Instr.id =
            (A1.map Instr.id ++ p.map Instr.id) ++ n.id ::
              (q.map Instr.id ++ A2.map Instr.id) by simp]
        apply nodup_insert_middle
        · rw [show (A1.map Instr.id ++ p.map Instr.id) ++
              (q.map Instr.id ++ A2.map Instr.id) =
              A1.map Instr.id ++ (p.map Instr.id ++ q.map Instr.id) ++ A2.map Instr.id
              by simp]
          exact h1
        · intro hc
          apply hidfresh
          rw [hA]
          simp only [List.map_append, List.mem_append] at hc ⊢
          tauto
      · intro ins hins
        rw [nextId_insertBefore]
        rcases hmemo ins hins with h | h
        · rw [h]; exact hidlt
        · exact h2 ins h
      · intro ins hins op hop
        rw [nextId_insertBefore]
        rcases hmemo ins hins with h | h
        · rw [h] at hop; exact hops op hop
        · exact h5 ins h op hop
      · rw [names_insertBefore]
        exact h6

theorem allInstrs_of_funcs_eq {M M' : Module} (h : M'.funcs = M.funcs) :
    M'.allInstrs = M.allInstrs := by
  unfold Module.allInstrs
  rw [h]

/-- Appending fresh globals and bumping the allocator accordingly
preserves well-formedness. -/
theorem WF_of_glob_append {M M2 : Module} (hwf : WF M)
    (hfuncs : M2.funcs = M.funcs) {gs : List GlobalVar} {k : Nat}
    (hglob : M2.globals = M.globals ++ gs)
    (hni : M2.nextId = M.nextId + k)
    (hgids : (gs.map GlobalVar.gid).Nodup)
    (hge : ∀ g ∈ gs, M.nextId ≤ g.gid ∧ g.gid < M.nextId + k) :
    WF M2 := by
  obtain ⟨h1, h2, h3, h4, h5, h6⟩ := hwf
  have hai : M2.allInstrs = M.allInstrs := allInstrs_of_funcs_eq hfuncs
  refine ⟨by rw [hai]; exact h1, ?_, ?_, ?_, ?_, by rw [hfuncs]; exact h6⟩
  · intro ins hins
    rw [hai] at hins
    rw [hni]
    exact Nat.lt_of_lt_of_le (h2 ins hins) (by omega)
  · rw [hglob, List.map_append, List.nodup_append]
    refine ⟨h3, hgids, ?_⟩
    intro a ha hb
    obtain ⟨ga, hga, hgaeq⟩ := List.mem_map.mp ha
    obtain ⟨gb, hgb, hgbeq⟩ := List.mem_map.mp hb
    have hlt := h4 ga hga
    have hge2 := (hge gb hgb).1
    omega
  · intro g hg
    rw [hglob] at hg
    rw [hni]
    rcases List.mem_append.mp hg with h | h
    · exact Nat.lt_of_lt_of_le (h4 g h) (by omega)
    · exact (hge g h).2
  · intro ins hins op hop
    rw [hai] at hins
    rw [hni]
    exact refsBelow_mono (h5 ins hins op hop) (by omega)

/-- Well-formedness of the module produced by a cache miss: the two/three
fresh globals and the two injected instructions use fresh ids. -/
theorem M2_WF_of_miss {M M2 : Module} {Ty : LlvmTy} {szTy : LlvmTy} (hwf : WF M)
    (hbodyM2 : M2.bodyOf "main" =
      Instr.ptrCast (M.nextId + 2) (.globalRef (M.nextId + 1)) ::
      Instr.call (M.nextId + 4) (.direct "__VERIFIER_make_symbolic") .void
        [.val (M.nextId + 2), .intConst szTy (typeAllocSize M.ptrBits Ty),
         .castGlobal (M.nextId + 3)] ::
      M.bodyOf "main")
    (hglob : M2.globals = M.globals ++
      [⟨M.nextId, "", .arrayI8 7, true, .strNondet⟩,
       ⟨M.nextId + 1, "nondet_gl_undef", Ty, false, .nullOf Ty⟩,
       ⟨M.nextId + 3, "", .arrayI8 7, true, .strNondet⟩])
    (hni : M2.nextId = M.nextId + 5)
    (hnames : M2.funcs.map Func.name = M.funcs.map Func.name ∨
      (findFuncIn M.funcs "__VERIFIER_make_symbolic" = none ∧
       M2.funcs.map Func.name = M.funcs.map Func.name ++ ["__VERIFIER_make_symbolic"]))
    (hallI : ∃ A1 A2, M.allInstrs = A1 ++ M.bodyOf "main" ++ A2 ∧
      M2.allInstrs = A1 ++
        (Instr.ptrCast (M.nextId + 2) (.globalRef (M.nextId + 1)) ::
         Instr.call (M.nextId + 4) (.direct "__VERIFIER_make_symbolic") .void
           [.val (M.nextId + 2), .intConst szTy (typeAllocSize M.ptrBits Ty),
            .castGlobal (M.nextId + 3)] ::
         M.bodyOf "main") ++ A2) :
    WF M2 := by
  obtain ⟨h1, h2, h3, h4, h5, h6⟩ := hwf
  obtain ⟨A1, A2, hA, hA'⟩ := hallI
  have hidbound : ∀ i ∈ M.allInstrs, i.id < M.nextId := h2
  have hmemo : ∀ x, x ∈ M2.allInstrs →
      x = Instr.ptrCast (M.nextId + 2) (.globalRef (M.nextId + 1)) ∨
      x = Instr.call (M.nextId + 4) (.direct "__VERIFIER_make_symbolic") .void
        [.val (M.nextId + 2), .intConst szTy (typeAllocSize M.ptrBits Ty),
         .castGlobal (M.nextId + 3)] ∨
      x ∈ M.allInstrs := by
    intro x hx
    rw [hA'] at hx
    rw [hA]
    simp only [List.mem_append, List.mem_cons] at hx ⊢
    tauto
  refine ⟨?_, ?_, ?_, ?_, ?_, ?_⟩
  · rw [hA']
    rw [hA] at h1
    simp only [List.map_append, List.map_cons, Instr.id] at h1 ⊢
    rw [show A1.map Instr.id ++ ((M.nextId + 2) :: (M.nextId + 4) ::
          (M.bodyOf "main").map Instr.id) ++ A2.map Instr.id =
        A1.map Instr.id ++ (M.nextId + 2) ::
          (A1.map Instr.id ++ (M.nextId + 4) ::
            ((M.bodyOf "main").map Instr.id ++ A2.map Instr.id)).drop
              (A1.map Instr.id).length from ?_]
    · apply nodup_insert_middle
      · rw [List.drop_left]
        apply nodup_insert_middle
        · rw [show A1.map Instr.id ++ ((M.bodyOf "main").map Instr.id ++ A2.map Instr.id) =
              A1.map Instr.id ++ (M.bodyOf "main").map Instr.id ++ A2.map Instr.id by simp]
          exact h1
        · intro hc
          have hc2 : M.nextId + 4 ∈ A1.map Instr.id ++
              (M.bodyOf "main").map Instr.id ++ A2.map Instr.id := by
            simp only [List.mem_append] at hc ⊢
            tauto
          rw [← List.map_append, ← List.map_append, ← hA] at hc2
          obtain ⟨i0, hi0, heq⟩ := List.mem_map.mp hc2
          have := hidbound i0 hi0
          omega
      · rw [List.drop_left]
        intro hc
        have hc2 : M.nextId + 2 ∈ A1.map Instr.id ++
            (M.nextId + 4) :: ((M.bodyOf "main").map Instr.id ++ A2.map Instr.id) := hc
        simp only [List.mem_append, List.mem_cons] at hc2
        rcases hc2 with h | h | h
        · have hc3 : (M.nextId + 2 : Nat) ∈ A1.map Instr.id ++
              (M.bodyOf "main").map Instr.id ++ A2.map Instr.id := by
            simp only [List.mem_append]
            tauto
          rw [← List.map_append, ← List.map_append, ← hA] at hc3
          obtain ⟨i0, hi0, heq⟩ := List.mem_map.mp hc3
          have := hidbound i0 hi0
          omega
        · omega
        · have hc3 : (M.nextId + 2 : Nat) ∈ A1.map Instr.id ++
              (M.bodyOf "main").map Instr.id ++ A2.map Instr.id := by
            simp only [List.mem_append] at h ⊢
            tauto
          rw [← List.map_append, ← List.map_append, ← hA] at hc3
          obtain ⟨i0, hi0, heq⟩ := List.mem_map.mp hc3
          have := hidbound i0 hi0
          omega
    · rw [List.drop_left]
      simp
  · intro ins hins
    rw [hni]
    rcases hmemo ins hins with h | h | h
    · rw [h]; simp only [Instr.id]; omega
    · rw [h]; simp only [Instr.id]; omega
    · exact Nat.lt_of_lt_of_le (hidbound ins h) (by omega)
  · rw [hglob, List.map_append, List.nodup_append]
    refine ⟨h3, ?_, ?_⟩
    · simp only [List.map_cons, List.map_nil]
      refine List.nodup_cons.mpr ⟨?_, List.nodup_cons.mpr ⟨?_, List.nodup_singleton _⟩⟩
      · intro h
        simp only [List.mem_cons, List.mem_singleton, List.not_mem_nil, or_false] at h
        omega
      · intro h
        simp only [List.mem_singleton, List.not_mem_nil, or_false, List.mem_cons] at h
        omega
    · intro a ha hb
      obtain ⟨ga, hga, hgaeq⟩ := List.mem_map.mp ha
      have hlt := h4 ga hga
      simp only [List.map_cons, List.map_nil, List.mem_cons, List.mem_singleton,
        List.not_mem_nil, or_false] at hb
      rcases hb with h | h | h <;> omega
  · intro g hg
    rw [hglob] at hg
    rw [hni]
    rcases List.mem_append.mp hg with h | h
    · exact Nat.lt_of_lt_of_le (h4 g h) (by omega)
    · simp only [List.mem_cons, List.mem_singleton, List.not_mem_nil, or_false] at h
      rcases h with h | h | h <;> (subst h; simp only; omega)
  · intro ins hins op hop
    rw [hni]
    rcases hmemo ins hins with h | h | h
    · subst h
      simp only [Instr.opList, List.mem_singleton] at hop
      subst hop
      simp only [Operand.refsBelow]
      omega
    · subst h
      simp only [Instr.opList, List.mem_cons, List.mem_singleton] at hop
      rcases hop with h | h | h
      · subst h; simp only [Operand.refsBelow]; omega
      · subst h; trivial
      · rcases h with h | h
        · subst h; simp only [Operand.refsBelow]; omega
        · cases h
    · exact refsBelow_mono (h5 ins h op hop) (by omega)
  · rcases hnames with h | ⟨hv, h⟩
    · rw [h]; exact h6
    · rw [h]
      have := nodup_names_append_vms h6 hv
      rw [List.map_append] at this
      exact this

theorem comp_nextId (M2 : Module) (fname : String) (ciId g liId : Nat) :
    (((({ M2 with nextId := M2.nextId + 1 } : Module).insertBefore fname ciId
        (.load liId (.globalRef g))).rauw ciId (.val liId)).eraseInstr fname ciId).nextId =
      M2.nextId + 1 := rfl

theorem comp_ptrBits (M2 : Module) (fname : String) (ciId g liId : Nat) :
    (((({ M2 with nextId := M2.nextId + 1 } : Module).insertBefore fname ciId
        (.load liId (.globalRef g))).rauw ciId (.val liId)).eraseInstr fname ciId).ptrBits =
      M2.ptrBits := rfl

/-- The `replaceCall` composite — insert a fresh load, redirect the uses,
erase the call — preserves well-formedness. -/
theorem comp_WF {M2 : Module} (hwf2 : WF M2) (fname : String) (ciId : Nat) {g : Nat}
    (hg : g < M2.nextId) :
    WF (((({ M2 with nextId := M2.nextId + 1 } : Module).insertBefore fname ciId
        (.load M2.nextId (.globalRef g))).rauw ciId (.val M2.nextId)).eraseInstr fname ciId) := by
  apply WF_eraseInstr
  have hbump : WF ({ M2 with nextId := M2.nextId + 1 } : Module) := WF_mono hwf2 1
  have hai : ({ M2 with nextId := M2.nextId + 1 } : Module).allInstrs = M2.allInstrs :=
    allInstrs_of_funcs_eq rfl
  have hins : WF (({ M2 with nextId := M2.nextId + 1 } : Module).insertBefore fname ciId
      (.load M2.nextId (.globalRef g))) := by
    apply WF_insertBefore hbump
    · intro hc
      rw [hai] at hc
      obtain ⟨i0, hi0, heq⟩ := List.mem_map.mp hc
      have := hwf2.2.1 i0 hi0
      have heq2 : i0.id = M2.nextId := heq
      omega
    · show M2.nextId < M2.nextId + 1
      omega
    · intro op hop
      simp only [Instr.opList, List.mem_singleton] at hop
      subst hop
      show g < M2.nextId + 1
      omega
  apply WF_rauw hins
  rw [nextId_insertBefore]
  show M2.nextId < M2.nextId + 1
  omega

theorem neverElig_mapOps {ins : Instr} (h : neverElig ins) (ρ : Operand → Operand) :
    neverElig (Instr.mapOps ρ ins) := by
  intro fs
  rw [eligibleIn_of_sameShape fs (sameShape_mapOps ρ ins)]
  exact h fs

theorem mapOps_identity (i : Instr) : Instr.mapOps (fun op => op) i = i := by
  cases i <;> simp [Instr.mapOps]

theorem map_mapOps_identity (l : List Instr) :
    l.map (Instr.mapOps (fun op => op)) = l := by
  rw [show l.map (Instr.mapOps (fun op => op)) = l.map id from
    List.map_congr_left (fun a _ => mapOps_identity a), List.map_id]

theorem StWF_of_nextId_eq {M M' : Module} {st : PassState} (h : StWF M st)
    (hni : M'.nextId = M.nextId) : StWF M' st := by
  obtain ⟨h1, h2, h3⟩ := h
  exact ⟨h1, h2, fun p hp => by rw [hni]; exact h3 p hp⟩

theorem StWF_of_nextId_le {M M' : Module} {st : PassState} (h : StWF M st)
    (hni : M.nextId ≤ M'.nextId) : StWF M' st := by
  obtain ⟨h1, h2, h3⟩ := h
  exact ⟨h1, h2, fun p hp => Nat.lt_of_lt_of_le (h3 p hp) hni⟩

theorem keys_nodup_append {l : List (LlvmTy × Nat)} {T : LlvmTy} (g : Nat)
    (h : (l.map Prod.fst).Nodup) (hnone : lookupTy l T = none) :
    ((l ++ [(T, g)]).map Prod.fst).Nodup := by
  rw [List.map_append, List.nodup_append]
  refine ⟨h, by simp, ?_⟩
  intro a ha hb
  simp only [List.map_cons, List.map_nil, List.mem_singleton] at hb
  rw [hb] at ha
  exact (lookupTy_none_iff l T).mp hnone ha

theorem names_mem_of_funcs_names {fs : List Func} {ns' : List String} {f : Func}
    (hf : f ∈ fs) (h : fs.map Func.name = ns') : f.name ∈ ns' := by
  rw [← h]
  exact List.mem_map_of_mem Func.name hf

/-- Master inversion of processing one eligible call, all policies: the
threaded invariants survive, the names can only grow by the hook
declaration, the processed function's body is rewritten around the
erased call with only never-eligible fresh material inserted, and every
other function's body is at most operand-rewritten with never-eligible
material prepended (to `main` only). -/
theorem elig_step_master {fname : String} {s s' : PState} {b : Bool} {ciId : Nat}
    {nm : String} {retTy : LlvmTy} {args : List Operand}
    (hwf : WF s.M) (hst : StWF s.M s.st)
    (he : eligibleIn s.M.funcs (.call ciId (.direct nm) retTy args) = true)
    (hstep : processInstr fname (.call ciId (.direct nm) retTy args) s = .ok (s', b)) :
    b = true ∧ WF s'.M ∧ StWF s'.M s'.st ∧ SigStable s.M s'.M ∧
    s.M.nextId ≤ s'.M.nextId ∧
    (s'.M.funcs.map Func.name = s.M.funcs.map Func.name ∨
      s'.M.funcs.map Func.name = s.M.funcs.map Func.name ++ ["__VERIFIER_make_symbolic"]) ∧
    (∀ (done cur' : List Instr) (c : Instr),
       s.M.bodyOf fname = done ++ c :: cur' → c.id = ciId →
       ∃ ρ inj mid, RhoOk s.M.nextId ciId ρ ∧
         (∀ j ∈ inj, neverElig j ∧ s.M.nextId ≤ j.id) ∧
         (∀ j ∈ mid, neverElig j ∧ s.M.nextId ≤ j.id) ∧
         s'.M.bodyOf fname =
           inj ++ done.map (Instr.mapOps ρ) ++ mid ++ cur'.map (Instr.mapOps ρ)) ∧
    (∀ nm', nm' ≠ fname →
       ∃ ρ' inj', RhoOk s.M.nextId ciId ρ' ∧
         (∀ j ∈ inj', neverElig j ∧ s.M.nextId ≤ j.id) ∧
         (nm' ≠ "main" → inj' = []) ∧
         s'.M.bodyOf nm' = inj' ++ (s.M.bodyOf nm').map (Instr.mapOps ρ')) := by
  by_cases hvoid : retTy = .void
  · subst hvoid
    obtain ⟨hb, hM, hstq, hrm, hlg⟩ := processInstr_void_inv he hstep
    subst hb
    refine ⟨rfl, ?_, ?_, ?_, ?_, ?_, ?_, ?_⟩
    · rw [hM]
      exact WF_eraseInstr hwf fname ciId
    · rw [hstq]
      exact StWF_of_nextId_eq hst (by rw [hM, nextId_eraseInstr])
    · rw [hM]
      exact SigStable_eraseInstr s.M fname ciId
    · rw [hM, nextId_eraseInstr]
    · left
      rw [hM, names_eraseInstr]
    · intro done cur' c hbody hcid
      have hpre := (body_decomp_pre_ids hwf hbody).1
      refine ⟨fun op => op, [], [], Or.inl rfl, by simp, by simp, ?_⟩
      rw [hM, eraseOnly_bodyOf_fname s.M fname hbody hcid
        (fun i hi => by rw [← hcid]; exact hpre i hi)]
      rw [map_mapOps_identity, map_mapOps_identity]
      simp
    · intro nm' hne
      refine ⟨fun op => op, [], Or.inl rfl, by simp, fun _ => rfl, ?_⟩
      rw [hM, bodyOf_eraseInstr_other hne, map_mapOps_identity]
      simp
  · by_cases hnosym : s.st.nosym = true
    · obtain ⟨hb, hM, hstq, hrm, hlg⟩ := processInstr_zero_inv he hvoid hnosym hstep
      subst hb
      have hwfr : WF (s.M.rauw ciId (.nullConst retTy)) := WF_rauw hwf ciId trivial
      refine ⟨rfl, ?_, ?_, ?_, ?_, ?_, ?_, ?_⟩
      · rw [hM]
        exact WF_eraseInstr hwfr fname ciId
      · rw [hstq]
        exact StWF_of_nextId_eq hst (by rw [hM, nextId_eraseInstr, nextId_rauw])
      · rw [hM]
        exact SigStable.comp (SigStable_rauw s.M ciId (.nullConst retTy))
          (SigStable_eraseInstr _ fname ciId)
      · rw [hM, nextId_eraseInstr, nextId_rauw]
      · left
        rw [hM, names_eraseInstr, names_rauw]
      · intro done cur' c hbody hcid
        have hpre := (body_decomp_pre_ids hwf hbody).1
        refine ⟨rauwOp ciId (.nullConst retTy), [], [],
          Or.inr ⟨.nullConst retTy, rfl, fun q h => Operand.noConfusion h,
            fun li h => absurd h (by intro hc; exact Operand.noConfusion hc)⟩,
          by simp, by simp, ?_⟩
        rw [hM, zeroComp_bodyOf_fname s.M fname (.nullConst retTy) hbody hcid
          (fun i hi => by rw [← hcid]; exact hpre i hi)]
        simp
      · intro nm' hne
        refine ⟨rauwOp ciId (.nullConst retTy), [],
          Or.inr ⟨.nullConst retTy, rfl, fun q h => Operand.noConfusion h,
            fun li h => absurd h (by intro hc; exact Operand.noConfusion hc)⟩,
          by simp, fun _ => rfl, ?_⟩
        rw [hM, bodyOf_eraseInstr_other hne, bodyOf_rauw]
        simp
    · have hns' : s.st.nosym = false := by revert hnosym; cases s.st.nosym <;> simp
      obtain ⟨hb, hrm, hlg, M2, g, szTy, hMcomp, hns, hvms', hlk, hgb, hnb, hpb, hsig, hcases⟩ :=
        processInstr_sym_inv hst he hvoid hns' hstep
      subst hb
      have hwf2 : WF M2 := by
        rcases hcases with ⟨hlk0, hsteq, hfuncs, hglob, hni⟩ |
          ⟨hlk0, hgid, hag, hv2, hbodyM2, hother, hglob, hni, hnames, hallI⟩
        · refine WF_of_glob_append hwf hfuncs hglob hni (by simp) ?_
          intro g1 hg1
          simp only [List.mem_singleton] at hg1
          subst hg1
          simp only
          omega
        · exact M2_WF_of_miss hwf hbodyM2 hglob hni hnames (hallI hwf.2.2.2.2.2)
      have hwfc : WF s'.M := by
        rw [hMcomp]
        exact comp_WF hwf2 fname ciId hgb
      have hnic : s'.M.nextId = M2.nextId + 1 := by
        rw [hMcomp]
        exact comp_nextId M2 fname ciId g M2.nextId
      have hstw : StWF s'.M s'.st := by
        refine ⟨hvms', ?_, ?_⟩
        · rcases hcases with ⟨hlk0, hsteq, hfuncs, hglob, hni⟩ |
            ⟨hlk0, hgid, hag, hv2, hbodyM2, hother, hglob, hni, hnames, hallI⟩
          · rw [hsteq]
            exact hst.2.1
          · rw [hag]
            exact keys_nodup_append _ hst.2.1 hlk0
        · intro p hp
          rw [hnic]
          rcases hcases with ⟨hlk0, hsteq, hfuncs, hglob, hni⟩ |
            ⟨hlk0, hgid, hag, hv2, hbodyM2, hother, hglob, hni, hnames, hallI⟩
          · rw [hsteq] at hp
            have := hst.2.2 p hp
            omega
          · rw [hag] at hp
            rcases List.mem_append.mp hp with h | h
            · have := hst.2.2 p h
              omega
            · simp only [List.mem_singleton] at h
              subst h
              simp only
              omega
      have hsigc : SigStable s.M s'.M := by
        rw [hMcomp]
        exact SigStable.comp hsig (comp_sigStable M2 fname ciId g M2.nextId)
      have hnamesC : s'.M.funcs.map Func.name = M2.funcs.map Func.name := by
        rw [hMcomp]
        exact comp_funcs_names M2 fname ciId g M2.nextId
      have hciIdlt : ∀ (done cur' : List Instr) (c : Instr),
          s.M.bodyOf fname = done ++ c :: cur' → c.id = ciId → ciId < s.M.nextId := by
        intro done cur' c hbody hcid
        rw [← hcid]
        exact WF.body_ids_lt hwf fname c (by rw [hbody]; simp)
      refine ⟨rfl, hwfc, hstw, hsigc, by omega, ?_, ?_, ?_⟩
      · rcases hcases with ⟨hlk0, hsteq, hfuncs, hglob, hni⟩ |
          ⟨hlk0, hgid, hag, hv2, hbodyM2, hother, hglob, hni, hnames, hallI⟩
        · left
          rw [hnamesC, hfuncs]
        · rcases hnames with h | ⟨hv, h⟩
          · left
            rw [hnamesC, h]
          · right
            rw [hnamesC, h]
      · intro done cur' c hbody hcid
        have hpre := (body_decomp_pre_ids hwf hbody).1
        have hlt := hciIdlt done cur' c hbody hcid
        rcases hcases with ⟨hlk0, hsteq, hfuncs, hglob, hni⟩ |
          ⟨hlk0, hgid, hag, hv2, hbodyM2, hother, hglob, hni, hnames, hallI⟩
        · have hb2 : M2.bodyOf fname = done ++ c :: cur' := by
            rw [bodyOf_congr_funcs hfuncs fname]
            exact hbody
          refine ⟨rauwOp ciId (.val M2.nextId), [],
            [Instr.load M2.nextId (.globalRef g)],
            Or.inr ⟨Operand.val M2.nextId, rfl, fun q h => Operand.noConfusion h,
            fun li h => by injection h with h2; omega⟩,
            by simp, ?_, ?_⟩
          · intro j hj
            rw [List.mem_singleton] at hj
            subst hj
            exact ⟨neverElig_load _ _, show s.M.nextId ≤ M2.nextId by omega⟩
          · rw [hMcomp, comp_bodyOf_fname M2 fname g hb2 hcid
              (fun i hi => by rw [← hcid]; exact hpre i hi) (by omega)]
            simp
        · by_cases hm : fname = "main"
          · subst hm
            have hb2 : M2.bodyOf "main" =
                (Instr.ptrCast (s.M.nextId + 2) (.globalRef (s.M.nextId + 1)) ::
                 Instr.call (s.M.nextId + 4) (.direct "__VERIFIER_make_symbolic") .void
                   [.val (s.M.nextId + 2), .intConst szTy (typeAllocSize s.M.ptrBits retTy),
                    .castGlobal (s.M.nextId + 3)] :: done) ++ c :: cur' := by
              rw [hbodyM2, hbody]
              simp
            refine ⟨rauwOp ciId (.val M2.nextId),
              [Instr.mapOps (rauwOp ciId (.val M2.nextId))
                 (Instr.ptrCast (s.M.nextId + 2) (.globalRef (s.M.nextId + 1))),
               Instr.mapOps (rauwOp ciId (.val M2.nextId))
                 (Instr.call (s.M.nextId + 4) (.direct "__VERIFIER_make_symbolic") .void
                   [.val (s.M.nextId + 2), .intConst szTy (typeAllocSize s.M.ptrBits retTy),
                    .castGlobal (s.M.nextId + 3)])],
              [Instr.load M2.nextId (.globalRef g)], Or.inr ⟨Operand.val M2.nextId, rfl, fun q h => Operand.noConfusion h,
            fun li h => by injection h with h2; omega⟩, ?_, ?_, ?_⟩
            · intro j hj
              rcases List.mem_cons.mp hj with h | h
              · subst h
                exact ⟨neverElig_mapOps (neverElig_ptrCast _ _) _,
                  show s.M.nextId ≤ s.M.nextId + 2 by omega⟩
              · rw [List.mem_singleton] at h
                subst h
                exact ⟨neverElig_mapOps (neverElig_vmsCall _ _ _) _,
                  show s.M.nextId ≤ s.M.nextId + 4 by omega⟩
            · intro j hj
              rw [List.mem_singleton] at hj
              subst hj
              exact ⟨neverElig_load _ _, show s.M.nextId ≤ M2.nextId by omega⟩
            · rw [hMcomp, comp_bodyOf_fname M2 "main" g hb2 hcid ?_ (by omega)]
              · simp
              · intro i hi
                rcases List.mem_cons.mp hi with h | h
                · subst h
                  show s.M.nextId + 2 ≠ ciId
                  omega
                · rcases List.mem_cons.mp h with h | h
                  · subst h
                    show s.M.nextId + 4 ≠ ciId
                    omega
                  · rw [← hcid]
                    exact hpre i h
          · have hb2 : M2.bodyOf fname = done ++ c :: cur' := by
              rw [hother fname hm]
              exact hbody
            refine ⟨rauwOp ciId (.val M2.nextId), [],
              [Instr.load M2.nextId (.globalRef g)],
              Or.inr ⟨Operand.val M2.nextId, rfl, fun q h => Operand.noConfusion h,
            fun li h => by injection h with h2; omega⟩,
              by simp, ?_, ?_⟩
            · intro j hj
              rw [List.mem_singleton] at hj
              subst hj
              exact ⟨neverElig_load _ _, show s.M.nextId ≤ M2.nextId by omega⟩
            · rw [hMcomp, comp_bodyOf_fname M2 fname g hb2 hcid
                (fun i hi => by rw [← hcid]; exact hpre i hi) (by omega)]
              simp
      · intro nm' hne
        have hcomp2 : s'.M.bodyOf nm' =
            (M2.bodyOf nm').map (Instr.mapOps (rauwOp ciId (.val M2.nextId))) := by
          rw [hMcomp]
          exact comp_bodyOf_other M2 fname g hne
        rcases hcases with ⟨hlk0, hsteq, hfuncs, hglob, hni⟩ |
          ⟨hlk0, hgid, hag, hv2, hbodyM2, hother, hglob, hni, hnames, hallI⟩
        · refine ⟨rauwOp ciId (.val M2.nextId), [], Or.inr ⟨Operand.val M2.nextId, rfl, fun q h => Operand.noConfusion h,
            fun li h => by injection h with h2; omega⟩,
            by simp, fun _ => rfl, ?_⟩
          rw [hcomp2, bodyOf_congr_funcs hfuncs nm']
          simp
        · by_cases hm : nm' = "main"
          · subst hm
            refine ⟨rauwOp ciId (.val M2.nextId),
              [Instr.mapOps (rauwOp ciId (.val M2.nextId))
                 (Instr.ptrCast (s.M.nextId + 2) (.globalRef (s.M.nextId + 1))),
               Instr.mapOps (rauwOp ciId (.val M2.nextId))
                 (Instr.call (s.M.nextId + 4) (.direct "__VERIFIER_make_symbolic") .void
                   [.val (s.M.nextId + 2), .intConst szTy (typeAllocSize s.M.ptrBits retTy),
                    .castGlobal (s.M.nextId + 3)])], Or.inr ⟨Operand.val M2.nextId, rfl, fun q h => Operand.noConfusion h,
            fun li h => by injection h with h2; omega⟩, ?_, ?_, ?_⟩
            · intro j hj
              rcases List.mem_cons.mp hj with h | h
              · subst h
                exact ⟨neverElig_mapOps (neverElig_ptrCast _ _) _,
                  show s.M.nextId ≤ s.M.nextId + 2 by omega⟩
              · rw [List.mem_singleton] at h
                subst h
                exact ⟨neverElig_mapOps (neverElig_vmsCall _ _ _) _,
                  show s.M.nextId ≤ s.M.nextId + 4 by omega⟩
            · intro h
              exact absurd rfl h
            · rw [hcomp2, hbodyM2]
              simp
          · refine ⟨rauwOp ciId (.val M2.nextId), [], Or.inr ⟨Operand.val M2.nextId, rfl, fun q h => Operand.noConfusion h,
            fun li h => by injection h with h2; omega⟩,
              by simp, fun _ => rfl, ?_⟩
            rw [hcomp2, hother nm' hm]
            simp

theorem bodyOf_of_not_found {M : Module} {nm : String} (h : M.findFunc nm = none) :
    M.bodyOf nm = [] := by
  unfold Module.bodyOf
  rw [h]

theorem findFuncIn_self_of_nodup {fs : List Func} (hnd : (fs.map Func.name).Nodup)
    {f : Func} (hf : f ∈ fs) : findFuncIn fs f.name = some f := by
  induction fs with
  | nil => cases hf
  | cons a rest ih =>
    rw [List.map_cons, List.nodup_cons] at hnd
    rcases List.mem_cons.mp hf with h | h
    · subst h
      unfold findFuncIn
      rw [List.find?_cons_of_pos _ (by simp)]
    · unfold findFuncIn
      rw [List.find?_cons_of_neg _ ?_]
      · exact ih hnd.2 h
      · simp only [decide_eq_true_eq]
        intro hc
        exact hnd.1 (hc ▸ List.mem_map_of_mem Func.name h)

theorem forall2_sameShape_refl (l : List Instr) : List.Forall₂ sameShape l l :=
  List.forall₂_same.mpr (fun x _ => sameShape.refl x)

theorem forall2_sameShape_map (ρ : Operand → Operand) :
    ∀ {cur todo : List Instr}, List.Forall₂ sameShape cur todo →
      List.Forall₂ sameShape (cur.map (Instr.mapOps ρ)) todo := by
  intro cur todo h
  induction h with
  | nil => exact List.Forall₂.nil
  | cons hab _ ih =>
    exact List.Forall₂.cons ((sameShape_mapOps ρ _).trans hab) ih

theorem skip_survives {M M' : Module} (hsig : SigStable M M') {i0 : Instr}
    (ρ : Operand → Operand) (h : eligibleIn M.funcs i0 = false) :
    eligibleIn M'.funcs (Instr.mapOps ρ i0) = false := by
  rw [eligibleIn_of_sameShape _ (sameShape_mapOps ρ i0)]
  exact eligible_false_stable hsig h

/-- `NamesInv` survives one eligible step. -/
theorem NamesInv_step {ns : List String} {fname : String} {s s' : PState}
    (hfn : fname ∈ ns)
    (hnames : s'.M.funcs.map Func.name = s.M.funcs.map Func.name ∨
      s'.M.funcs.map Func.name = s.M.funcs.map Func.name ++ ["__VERIFIER_make_symbolic"])
    {N ciId : Nat}
    (hoth : ∀ nm', nm' ≠ fname →
      ∃ ρ' inj', RhoOk N ciId ρ' ∧ (∀ j ∈ inj', neverElig j ∧ N ≤ j.id) ∧
        (nm' ≠ "main" → inj' = []) ∧
        s'.M.bodyOf nm' = inj' ++ (s.M.bodyOf nm').map (Instr.mapOps ρ'))
    (hni : NamesInv ns s.M) : NamesInv ns s'.M := by
  obtain ⟨hn1, hn2⟩ := hni
  constructor
  · intro f hf
    have hmem : f.name ∈ s'.M.funcs.map Func.name := List.mem_map_of_mem Func.name hf
    have hmem2 : f.name ∈ s.M.funcs.map Func.name ∨ f.name = "__VERIFIER_make_symbolic" := by
      rcases hnames with h | h
      · rw [h] at hmem
        exact Or.inl hmem
      · rw [h] at hmem
        rcases List.mem_append.mp hmem with h2 | h2
        · exact Or.inl h2
        · rw [List.mem_singleton] at h2
          exact Or.inr h2
    rcases hmem2 with h | h
    · obtain ⟨f0, hf0, hf0n⟩ := List.mem_map.mp h
      rcases hn1 f0 hf0 with h2 | h2
      · exact Or.inl (hf0n ▸ h2)
      · exact Or.inr (hf0n ▸ h2)
    · exact Or.inr h
  · intro hvn
    have hne : ("__VERIFIER_make_symbolic" : String) ≠ fname := by
      intro hc
      exact hvn (hc ▸ hfn)
    obtain ⟨ρ', inj', hρ', hinj, hinjnil, hbody⟩ := hoth "__VERIFIER_make_symbolic" hne
    rw [hbody, hinjnil (by decide), hn2 hvn]
    rfl

/-- Master induction over one function's snapshot walk: the walked prefix
and every already-processed function stay skip-classified, and when the
walk completes the whole body is skip-classified. -/
theorem processList_master {fname : String} :
    ∀ {todo : List Instr} {s s' : PState} {b : Bool},
    processList fname todo s = .ok (s', b) →
    WF s.M → StWF s.M s.st →
    ∀ {ns : List String}, fname ∈ ns → NamesInv ns s.M →
    ∀ {done cur : List Instr},
    s.M.bodyOf fname = done ++ cur →
    List.Forall₂ sameShape cur todo →
    (∀ i ∈ done, eligibleIn s.M.funcs i = false) →
    ∀ {doneNs : List String}, fname ∉ doneNs →
    (∀ nm' ∈ doneNs, ∀ i ∈ s.M.bodyOf nm', eligibleIn s.M.funcs i = false) →
    WF s'.M ∧ StWF s'.M s'.st ∧ SigStable s.M s'.M ∧ NamesInv ns s'.M ∧
    (∀ i ∈ s'.M.bodyOf fname, eligibleIn s'.M.funcs i = false) ∧
    (∀ nm' ∈ doneNs, ∀ i ∈ s'.M.bodyOf nm', eligibleIn s'.M.funcs i = false) := by
  intro todo
  induction todo with
  | nil =>
    intro s s' b hok hwf hst ns hfn hni done cur hbody hsh hskip doneNs hnotin hdone
    unfold processList at hok
    injection hok with h1
    injection h1 with hps hb
    have hcur : cur = [] := List.forall₂_nil_right_iff.mp hsh
    subst hcur
    rw [← hps]
    refine ⟨hwf, hst, SigStable.rfl s.M, hni, ?_, hdone⟩
    intro i hi
    rw [hbody, List.append_nil] at hi
    exact hskip i hi
  | cons t todo' ih =>
    intro s s' b hok hwf hst ns hfn hni done cur hbody hsh hskip doneNs hnotin hdone
    unfold processList at hok
    cases h1 : processInstr fname t s with
    | error e => rw [h1] at hok; exact Except.noConfusion hok
    | ok r =>
      obtain ⟨s1, b1⟩ := r
      simp only [h1] at hok
      cases h2 : processList fname todo' s1 with
      | error e => rw [h2] at hok; exact Except.noConfusion hok
      | ok r2 =>
        obtain ⟨s2, b2⟩ := r2
        rw [h2] at hok
        injection hok with h3
        injection h3 with hps hb
        rw [← hps]
        obtain ⟨c, cur', hct, hsh', hcur⟩ := List.forall₂_cons_right_iff.mp hsh
        subst hcur
        by_cases hel : eligibleIn s.M.funcs t = true
        · cases t with
          | call tId tc tTy targs =>
            cases tc with
            | direct tnm =>
              obtain ⟨hb1, hwf1, hst1, hsig1, hle1, hnames1, hbodyF, hoth⟩ :=
                elig_step_master hwf hst hel h1
              have hcid : c.id = tId := sameShape.id_eq hct
              obtain ⟨ρ, inj, mid, hρ, hinj, hmid, hbody1⟩ := hbodyF done cur' c hbody hcid
              have hni1 : NamesInv ns s1.M := NamesInv_step hfn hnames1 hoth hni
              have hbody1x : s1.M.bodyOf fname =
                  (inj ++ done.map (Instr.mapOps ρ) ++ mid) ++ cur'.map (Instr.mapOps ρ) := by
                rw [hbody1]
              have hskip1 : ∀ i ∈ inj ++ done.map (Instr.mapOps ρ) ++ mid,
                  eligibleIn s1.M.funcs i = false := by
                intro i hi
                rcases List.mem_append.mp hi with hi | hi
                · rcases List.mem_append.mp hi with hi | hi
                  · exact (hinj i hi).1 s1.M.funcs
                  · obtain ⟨i0, hi0, hmap⟩ := List.mem_map.mp hi
                    subst hmap
                    exact skip_survives hsig1 ρ (hskip i0 hi0)
                · exact (hmid i hi).1 s1.M.funcs
              have hdone1 : ∀ nm' ∈ doneNs, ∀ i ∈ s1.M.bodyOf nm',
                  eligibleIn s1.M.funcs i = false := by
                intro nm' hnm' i hi
                have hne : nm' ≠ fname := fun hc => hnotin (hc ▸ hnm')
                obtain ⟨ρ', inj', hρ', hinj', hinjnil, hb'⟩ := hoth nm' hne
                rw [hb'] at hi
                rcases List.mem_append.mp hi with hi | hi
                · exact (hinj' i hi).1 s1.M.funcs
                · obtain ⟨i0, hi0, hmap⟩ := List.mem_map.mp hi
                  subst hmap
                  exact skip_survives hsig1 ρ' (hdone nm' hnm' i0 hi0)
              obtain ⟨hwf2, hst2, hsig2, hni2, hF2, hD2⟩ :=
                ih h2 hwf1 hst1 hfn hni1 hbody1x (forall2_sameShape_map ρ hsh')
                  hskip1 hnotin hdone1
              exact ⟨hwf2, hst2, hsig1.comp hsig2, hni2, hF2, hD2⟩
            | inlineAsm => exact Bool.noConfusion hel
            | indirect => exact Bool.noConfusion hel
          | load i op => exact Bool.noConfusion hel
          | ptrCast i op => exact Bool.noConfusion hel
          | other i ops => exact Bool.noConfusion hel
        · have hel' : eligibleIn s.M.funcs t = false := by
            revert hel
            cases eligibleIn s.M.funcs t <;> simp
          rw [processInstr_skip hel'] at h1
          injection h1 with h1x
          injection h1x with hs1 hb1
          have hcs : eligibleIn s.M.funcs c = false := by
            rw [eligibleIn_of_sameShape s.M.funcs hct]
            exact hel'
          have hbody2 : s.M.bodyOf fname = (done ++ [c]) ++ cur' := by
            rw [hbody]
            simp
          have hskip2 : ∀ i ∈ done ++ [c], eligibleIn s.M.funcs i = false := by
            intro i hi
            rcases List.mem_append.mp hi with hi | hi
            · exact hskip i hi
            · rw [List.mem_singleton] at hi
              subst hi
              exact hcs
          rw [← hs1] at h2
          exact ih h2 hwf hst hfn hni hbody2 hsh' hskip2 hnotin hdone

/-- Master induction over the whole driver: after the run, every function
whose name was processed has a fully skip-classified body. -/
theorem runOnFuncs_master :
    ∀ {nms : List String} {s s' : PState} {b : Bool},
    runOnFuncs nms s = .ok (s', b) →
    WF s.M → StWF s.M s.st →
    ∀ {ns : List String}, (∀ x ∈ nms, x ∈ ns) → NamesInv ns s.M →
    nms.Nodup →
    ∀ {doneNs : List String},
    (∀ x ∈ nms, x ∉ doneNs) →
    (∀ nm' ∈ doneNs, ∀ i ∈ s.M.bodyOf nm', eligibleIn s.M.funcs i = false) →
    WF s'.M ∧ StWF s'.M s'.st ∧ SigStable s.M s'.M ∧ NamesInv ns s'.M ∧
    (∀ nm' ∈ doneNs ++ nms, ∀ i ∈ s'.M.bodyOf nm', eligibleIn s'.M.funcs i = false) := by
  intro nms
  induction nms with
  | nil =>
    intro s s' b hok hwf hst ns hsub hni hnd doneNs hdisj hdone
    unfold runOnFuncs at hok
    injection hok with h1
    injection h1 with hps hb
    rw [← hps]
    refine ⟨hwf, hst, SigStable.rfl s.M, hni, ?_⟩
    intro nm' hnm'
    rw [List.append_nil] at hnm'
    exact hdone nm' hnm'
  | cons nm rest ih =>
    intro s s' b hok hwf hst ns hsub hni hnd doneNs hdisj hdone
    unfold runOnFuncs at hok
    cases h1 : runOnFunction nm s with
    | error e => rw [h1] at hok; exact Except.noConfusion hok
    | ok r =>
      obtain ⟨s1, b1⟩ := r
      simp only [h1] at hok
      cases h2 : runOnFuncs rest s1 with
      | error e => rw [h2] at hok; exact Except.noConfusion hok
      | ok r2 =>
        obtain ⟨s2, b2⟩ := r2
        rw [h2] at hok
        injection hok with h3
        injection h3 with hps hb
        rw [← hps]
        rw [List.nodup_cons] at hnd
        have hstep := processList_master
          (show processList nm (s.M.bodyOf nm) s = .ok (s1, b1) from h1) hwf hst
          (hsub nm (by simp)) hni
          (show s.M.bodyOf nm = [] ++ s.M.bodyOf nm from rfl)
          (forall2_sameShape_refl (s.M.bodyOf nm))
          (by intro i hi; cases hi)
          (hdisj nm (by simp)) hdone
        obtain ⟨hwf1, hst1, hsig1, hni1, hF1, hD1⟩ := hstep
        have hdone1 : ∀ nm' ∈ nm :: doneNs, ∀ i ∈ s1.M.bodyOf nm',
            eligibleIn s1.M.funcs i = false := by
          intro nm' hnm'
          rcases List.mem_cons.mp hnm' with h | h
          · subst h
            exact hF1
          · exact hD1 nm' h
        have hdisj1 : ∀ x ∈ rest, x ∉ nm :: doneNs := by
          intro x hx
          rw [List.mem_cons]
          rintro (h | h)
          · exact hnd.1 (h ▸ hx)
          · exact hdisj x (by simp [hx]) h
        obtain ⟨hwf2, hst2, hsig2, hni2, hAll⟩ :=
          ih h2 hwf1 hst1 (fun x hx => hsub x (by simp [hx])) hni1 hnd.2 hdisj1 hdone1
        refine ⟨hwf2, hst2, hsig1.comp hsig2, hni2, ?_⟩
        intro nm' hnm'
        apply hAll nm'
        simp only [List.mem_append, List.mem_cons] at hnm' ⊢
        tauto

/-- After one full run, every instruction of the module is
skip-classified. -/
theorem run_all_skip {s s' : PState} {b : Bool}
    (hwf : WF s.M) (hst : StWF s.M s.st)
    (hok : runOnModule s = .ok (s', b)) :
    ∀ i ∈ s'.M.allInstrs, s'.M.eligible i = false := by
  unfold runOnModule at hok
  have hni : NamesInv (s.M.funcs.map Func.name) s.M := by
    constructor
    · intro f hf
      exact Or.inl (List.mem_map_of_mem Func.name hf)
    · intro hvn
      apply bodyOf_of_not_found
      cases hv : s.M.findFunc "__VERIFIER_make_symbolic" with
      | none => rfl
      | some f =>
        exact absurd (findFuncIn_name hv ▸
          List.mem_map_of_mem Func.name (findFuncIn_mem hv)) hvn
  obtain ⟨hwf', hst', hsig', hni', hAll⟩ :=
    runOnFuncs_master hok hwf hst (fun x hx => hx) hni hwf.2.2.2.2.2
      (show ∀ x ∈ s.M.funcs.map Func.name, x ∉ ([] : List String) from
        fun x hx h => by cases h)
      (fun nm' hnm' => by cases hnm')
  intro i hi
  obtain ⟨f, hf, hif⟩ := List.mem_flatMap.mp hi
  have hbody : s'.M.bodyOf f.name = f.body.getD [] := by
    unfold Module.bodyOf Module.findFunc
    rw [findFuncIn_self_of_nodup hwf'.2.2.2.2.2 hf]
  have hib : i ∈ s'.M.bodyOf f.name := by
    rw [hbody]
    exact hif
  show eligibleIn s'.M.funcs i = false
  rcases hni'.1 f hf with h | h
  · exact hAll f.name (by simpa using h) i hib
  · by_cases hvn : ("__VERIFIER_make_symbolic" : String) ∈ s.M.funcs.map Func.name
    · exact hAll f.name (by rw [h]; simpa using hvn) i hib
    · rw [h] at hib
      rw [hni'.2 hvn] at hib
      cases hib

/-- C1: after one full run over every function, no eligible call site —
a call to a resolvable, named, non-intrinsic, bodyless callee that is
not allow-listed and not `__VERIFIER_`-prefixed — remains anywhere in
the program. -/
theorem C1_no_leftover_eligible {s s' : PState} {b : Bool}
    (hwf : WF s.M) (hst : StWF s.M s.st)
    (hok : runOnModule s = .ok (s', b)) :
    ∀ i ∈ s'.M.allInstrs, s'.M.eligible i = false :=
  run_all_skip hwf hst hok

/-- C1 witness: the full Symbolic-policy run on `sM` leaves no eligible
call site. -/
theorem C1_no_leftover_eligible_witness :
    WF sS.M ∧ StWF sS.M sS.st ∧
    runOnModule sS = .ok (sSp, true) ∧
    (∀ i ∈ sSp.M.allInstrs, sSp.M.eligible i = false) := by
  refine ⟨by decide, by decide, rfl, ?_⟩
  exact C1_no_leftover_eligible (show WF sS.M by decide) (show StWF sS.M sS.st by decide)
    (show runOnModule sS = .ok (sSp, true) from rfl)

theorem processList_allskip {fname : String} :
    ∀ {todo : List Instr} {s : PState},
    (∀ i ∈ todo, eligibleIn s.M.funcs i = false) →
    processList fname todo s = .ok (s, false) := by
  intro todo
  induction todo with
  | nil => intro s _; rfl
  | cons t rest ih =>
    intro s h
    unfold processList
    rw [processInstr_skip (h t (by simp))]
    dsimp only
    rw [ih (fun i hi => h i (by simp [hi]))]
    rfl

theorem runOnFuncs_allskip :
    ∀ {nms : List String} {s : PState},
    (∀ i ∈ s.M.allInstrs, eligibleIn s.M.funcs i = false) →
    runOnFuncs nms s = .ok (s, false) := by
  intro nms
  induction nms with
  | nil => intro s _; rfl
  | cons nm rest ih =>
    intro s h
    unfold runOnFuncs
    have h1 : runOnFunction nm s = .ok (s, false) := by
      unfold runOnFunction
      apply processList_allskip
      intro i hi
      exact h i (List.Sublist.mem hi (bodyOf_sublist_allInstrs s.M nm))
    rw [h1]
    dsimp only
    rw [ih h]
    rfl

/-- C7: the pass is idempotent — a second full run on the output of a
first run changes nothing and reports every function unchanged (the
injected hook calls are themselves skip-classified on the second run). -/
theorem C7_idempotent {s s' : PState} {b : Bool}
    (hwf : WF s.M) (hst : StWF s.M s.st)
    (hok : runOnModule s = .ok (s', b)) :
    runOnModule s' = .ok (s', false) ∧
    (∀ fname, runOnFunction fname s' = .ok (s', false)) := by
  have hall := run_all_skip hwf hst hok
  constructor
  · unfold runOnModule
    exact runOnFuncs_allskip hall
  · intro fname
    unfold runOnFunction
    apply processList_allskip
    intro i hi
    exact hall i (List.Sublist.mem hi (bodyOf_sublist_allInstrs s'.M fname))

/-- C7 witness: rerunning the pass on the transformed `sM` is a no-op
that reports "unchanged". -/
theorem C7_idempotent_witness :
    WF sS.M ∧ StWF sS.M sS.st ∧ runOnModule sS = .ok (sSp, true) ∧
    runOnModule sSp = .ok (sSp, false) ∧
    runOnFunction "main" sSp = .ok (sSp, false) := by
  have h := C7_idempotent (show WF sS.M by decide) (show StWF sS.M sS.st by decide)
    (show runOnModule sS = .ok (sSp, true) from rfl)
  exact ⟨by decide, by decide, rfl, h.1, h.2 "main"⟩

/-- C6 (amended): a Skip-classified instruction is processed as a strict
no-op — module, pass state, reported set and diagnostics unchanged, no
modification reported — so classification itself has no side effects.
Over a whole run, however, a skip-classified call site is not left
byte-for-byte unchanged: eliminating an eligible call rewrites its uses
module-wide, including inside a skipped call's argument list (see the
counterexample); the skipped site keeps only its id, callee and return
type. -/
theorem C6_skip_no_side_effects {fname : String} {ins : Instr} {s : PState}
    (he : eligibleIn s.M.funcs ins = false) :
    processInstr fname ins s = .ok (s, false) :=
  processInstr_skip he

/-- C6 witness: the allow-listed `free` call of `c6M` is skip-classified
and its processing is the identity. -/
theorem C6_skip_no_side_effects_witness :
    eligibleIn c6S.M.funcs (.call 2 (.direct "free") .void [.val 1]) = false ∧
    processInstr "main" (.call 2 (.direct "free") .void [.val 1]) c6S = .ok (c6S, false) := by
  refine ⟨rfl, ?_⟩
  exact C6_skip_no_side_effects
    (show eligibleIn c6S.M.funcs (.call 2 (.direct "free") .void [.val 1]) = false from rfl)

/-- C6 counterexample: after the run on `c6M` the skip-classified `free`
call site is no longer byte-for-byte identical — its argument, the
eliminated `foo` call's result, has been replaced by the zero constant —
refuting the claim that skip-classified call sites are left completely
unchanged by the run. -/
theorem C6_claim_false :
    eligibleIn c6M.funcs (.call 2 (.direct "free") .void [.val 1]) = false ∧
    Instr.call 2 (.direct "free") .void [.val 1] ∈ c6M.bodyOf "main" ∧
    runOnModule c6S = .ok (c6fin, true) ∧
    Instr.call 2 (.direct "free") .void [.val 1] ∉ c6fin.M.allInstrs ∧
    Instr.call 2 (.direct "free") .void [.nullConst (.int 32)] ∈ c6fin.M.bodyOf "main" := by
  exact ⟨rfl, by decide, rfl, by decide, by decide⟩

theorem isInitShape_mapOps_eq {g ciId : Nat} {v : Operand}
    (hne : g + 1 ≠ ciId) (hv : ∀ li, v = .val li → li ≠ g + 1) (i : Instr) :
    isInitShape g (Instr.mapOps (rauwOp ciId v) i) = isInitShape g i := by
  cases i with
  | call k callee retTy args =>
    cases callee with
    | direct nm =>
      cases args with
      | nil => rfl
      | cons a rest =>
        cases a with
        | val x =>
          simp only [Instr.mapOps, List.map_cons]
          by_cases hx : x = ciId
          · subst hx
            simp only [rauwOp, if_pos rfl]
            have h1 : ¬(x = g + 1) := fun hc => hne (hc ▸ rfl)
            cases v with
            | val li =>
              have h2 : ¬(li = g + 1) := hv li rfl
              simp [isInitShape, h1, h2]
            | globalRef q => simp [isInitShape, h1]
            | castGlobal q => simp [isInitShape, h1]
            | nullConst t => simp [isInitShape, h1]
            | intConst t w => simp [isInitShape, h1]
          · simp only [rauwOp, if_neg hx]
            rfl
        | globalRef q => rfl
        | castGlobal q => rfl
        | nullConst t => rfl
        | intConst t w => rfl
    | inlineAsm => rfl
    | indirect => rfl
  | load k src => rfl
  | ptrCast k src => rfl
  | other k ops => rfl

theorem find_by_id_of_mem_nodup {l : List Instr} {i : Instr}
    (hnd : (l.map Instr.id).Nodup) (hmem : i ∈ l) :
    l.find? (fun j => j.id = i.id) = some i := by
  induction l with
  | nil => cases hmem
  | cons a rest ih =>
    rw [List.map_cons, List.nodup_cons] at hnd
    rcases List.mem_cons.mp hmem with h | h
    · subst h
      rw [List.find?_cons_of_pos _ (by simp)]
    · rw [List.find?_cons_of_neg _ ?_]
      · exact ih hnd.2 h
      · simp only [decide_eq_true_eq]
        intro hc
        apply hnd.1
        rw [hc]
        exact List.mem_map_of_mem Instr.id h

theorem findInstrById_of_mem_nodup {M : Module} {i : Instr}
    (hnd : (M.allInstrs.map Instr.id).Nodup) (hmem : i ∈ M.allInstrs) :
    M.findInstrById i.id = some i := by
  unfold Module.findInstrById
  exact find_by_id_of_mem_nodup hnd hmem

theorem allInstrs_insertBefore_splice (M : Module) (hnd : (M.funcs.map Func.name).Nodup)
    (fname : String) (tid : Nat) (n : Instr) :
    (M.insertBefore fname tid n).allInstrs = M.allInstrs ∨
    ∃ X Y, M.allInstrs = X ++ Y ∧
      (M.insertBefore fname tid n).allInstrs = X ++ n :: Y := by
  cases hf : M.findFunc fname with
  | none =>
    left
    have hnm : ∀ f' ∈ M.funcs, f'.name ≠ fname := by
      intro f' hf' heq
      exact findFuncIn_none_not_mem hf (heq ▸ List.mem_map_of_mem Func.name hf')
    have : M.insertBefore fname tid n = M := by
      unfold Module.insertBefore
      rw [map_editNamed_id _ M.funcs hnm]
    rw [this]
  | some f =>
    obtain ⟨A1, A2, hA, hA'⟩ := allInstrs_editNamed M hnd hf
      (fun f' => { f' with body := f'.body.map (insertBeforeId tid n) }) M.globals M.nextId
    have hA'2 : (M.insertBefore fname tid n).allInstrs =
        A1 ++ insertBeforeId tid n (f.body.getD []) ++ A2 := by
      show (Module.mk M.ptrBits
        (M.funcs.map (fun f' => if f'.name = fname then
          { f' with body := f'.body.map (insertBeforeId tid n) } else f')) M.globals
          M.nextId).allInstrs = _
      rw [hA']
      congr 1
      congr 1
      exact Option.getD_map_nil f.body _ rfl
    rcases insertBeforeId_splice tid n (f.body.getD []) with hid | ⟨p, q, hpq, hid⟩
    · left
      rw [hA'2, hid, ← hA]
    · right
      refine ⟨A1 ++ p, q ++ A2, ?_, ?_⟩
      · rw [hA, hpq]
        simp
      · rw [hA'2, hid]
        simp

theorem eraseP_splice {tid : Nat} {pre post : List Instr} {e : Instr}
    (hpre : ∀ i ∈ pre, i.id ≠ tid) (hid : e.id = tid) :
    (pre ++ e :: post).eraseP (fun i => i.id = tid) = pre ++ post := by
  induction pre with
  | nil =>
    simp only [List.nil_append]
    rw [List.eraseP_cons_of_pos]
    simp [hid]
  | cons a rest ih =>
    simp only [List.cons_append]
    rw [List.eraseP_cons_of_neg, ih (fun i hi => hpre i (by simp [hi]))]
    simp [hpre a (by simp)]

theorem allInstrs_eraseInstr_splice (M : Module) (hnd : (M.funcs.map Func.name).Nodup)
    (fname : String) (tid : Nat) {pre post : List Instr} {e : Instr}
    (hbody : M.bodyOf fname = pre ++ e :: post)
    (hpre : ∀ i ∈ pre, i.id ≠ tid) (hid : e.id = tid) :
    ∃ X Y, M.allInstrs = X ++ e :: Y ∧
      (M.eraseInstr fname tid).allInstrs = X ++ Y := by
  cases hf : M.findFunc fname with
  | none =>
    rw [bodyOf_of_not_found hf] at hbody
    exact absurd hbody.symm (by simp)
  | some f =>
    have hfb : f.body.getD [] = pre ++ e :: post := by
      rw [← hbody]
      unfold Module.bodyOf
      rw [hf]
    obtain ⟨A1, A2, hA, hA'⟩ := allInstrs_editNamed M hnd hf
      (fun f' => { f' with body := f'.body.map (List.eraseP (fun i => i.id = tid)) })
      M.globals M.nextId
    have hA'2 : (M.eraseInstr fname tid).allInstrs =
        A1 ++ (f.body.getD []).eraseP (fun i => i.id = tid) ++ A2 := by
      show (Module.mk M.ptrBits
        (M.funcs.map (fun f' => if f'.name = fname then
          { f' with body := f'.body.map (List.eraseP (fun i => i.id = tid)) } else f'))
          M.globals M.nextId).allInstrs = _
      rw [hA']
      congr 1
      congr 1
      exact Option.getD_map_nil f.body _ rfl
    refine ⟨A1 ++ pre, post ++ A2, ?_, ?_⟩
    · rw [hA, hfb]
      simp
    · rw [hA'2, hfb, eraseP_splice hpre hid]
      simp

theorem filterlen_splice_in {P : Instr → Bool} {X Y : List Instr} {n : Instr}
    (h : P n = false) :
    ((X ++ n :: Y).filter P).length = ((X ++ Y).filter P).length := by
  simp [List.filter_append, List.filter_cons, h]

theorem CastFacts_congr {g : Nat} {M M' : Module} (h : M'.funcs = M.funcs)
    (hc : CastFacts g M) : CastFacts g M' := by
  obtain ⟨h1, h2, h3⟩ := hc
  have hai : M'.allInstrs = M.allInstrs := allInstrs_of_funcs_eq h
  exact ⟨by rw [hai]; exact h1, by rw [hai]; exact h2, by rw [hai]; exact h3⟩

theorem CastFacts_rauw {g ciId : Nat} {v : Operand} {M : Module}
    (hne : g + 1 ≠ ciId) (hv : ∀ li, v = .val li → li ≠ g + 1)
    (hvg : ∀ q, v ≠ .globalRef q)
    (hc : CastFacts g M) : CastFacts g (M.rauw ciId v) := by
  obtain ⟨h1, h2, h3⟩ := hc
  have hai := allInstrs_rauw M ciId v
  refine ⟨?_, ?_, ?_⟩
  · rw [hai, List.filter_map, List.length_map]
    rw [List.filter_congr (fun i _ => ?_)]
    · exact h1
    · exact isInitShape_mapOps_eq hne hv i
  · rw [hai]
    have hfix : Instr.mapOps (rauwOp ciId v) (Instr.ptrCast (g + 1) (.globalRef g)) =
        Instr.ptrCast (g + 1) (.globalRef g) := by
      apply mapOps_fix
      intro op hop
      simp only [Instr.opList, List.mem_singleton] at hop
      subst hop
      simp
    rw [← hfix]
    exact List.mem_map_of_mem _ h2
  · intro i hi k src hik hsrc
    rw [hai] at hi
    obtain ⟨i0, hi0, hmap⟩ := List.mem_map.mp hi
    rw [hik] at hmap
    cases i0 with
    | ptrCast k0 src0 =>
      have hmap2 : Instr.ptrCast k0 (rauwOp ciId v src0) = Instr.ptrCast k src := hmap
      injection hmap2 with hk hsrc0
      subst hk
      subst hsrc
      cases src0 with
      | val x =>
        simp only [rauwOp] at hsrc0
        by_cases hx : x = ciId
        · rw [if_pos hx] at hsrc0
          exact absurd hsrc0 (hvg g)
        · rw [if_neg hx] at hsrc0
          exact Operand.noConfusion hsrc0
      | globalRef q =>
        have hq : q = g := by
          have : Operand.globalRef q = Operand.globalRef g := hsrc0
          injection this
        subst hq
        exact h3 _ hi0 _ (.globalRef q) rfl rfl
      | castGlobal q => exact Operand.noConfusion hsrc0
      | nullConst t => exact Operand.noConfusion hsrc0
      | intConst t w => exact Operand.noConfusion hsrc0
    | call a c r ar => exact Instr.noConfusion hmap
    | load a sr => exact Instr.noConfusion hmap
    | other a ops => exact Instr.noConfusion hmap

theorem CastFacts_insertBefore {g : Nat} {M : Module}
    (hnd : (M.funcs.map Func.name).Nodup) {fname : String} {tid : Nat} {n : Instr}
    (hPn : isInitShape g n = false)
    (hncast : ∀ k src, n ≠ Instr.ptrCast k src)
    (hc : CastFacts g M) : CastFacts g (M.insertBefore fname tid n) := by
  obtain ⟨h1, h2, h3⟩ := hc
  rcases allInstrs_insertBefore_splice M hnd fname tid n with hsp | ⟨X, Y, hXY, hsp⟩
  · exact ⟨by rw [hsp]; exact h1, by rw [hsp]; exact h2, by rw [hsp]; exact h3⟩
  · refine ⟨?_, ?_, ?_⟩
    · rw [hsp, filterlen_splice_in hPn, ← hXY]
      exact h1
    · rw [hsp]
      have : Instr.ptrCast (g + 1) (.globalRef g) ∈ X ++ Y := by
        rw [← hXY]
        exact h2
      simp only [List.mem_append, List.mem_cons] at this ⊢
      tauto
    · intro i hi k src hik hsrc
      rw [hsp] at hi
      simp only [List.mem_append, List.mem_cons] at hi
      rcases hi with hi | hi | hi
      · exact h3 i (by rw [hXY]; exact List.mem_append_left _ hi) k src hik hsrc
      · subst hi
        exact absurd hik (hncast k src)
      · exact h3 i (by rw [hXY]; exact List.mem_append_right _ hi) k src hik hsrc

theorem CastFacts_eraseInstr {g : Nat} {M : Module}
    (hnd : (M.funcs.map Func.name).Nodup) {fname : String} {tid : Nat}
    {pre post : List Instr} {e : Instr}
    (hbody : M.bodyOf fname = pre ++ e :: post)
    (hpre : ∀ i ∈ pre, i.id ≠ tid) (hid : e.id = tid)
    (hPe : isInitShape g e = false)
    (hecast : ∀ k src, e ≠ Instr.ptrCast k src)
    (hc : CastFacts g M) : CastFacts g (M.eraseInstr fname tid) := by
  obtain ⟨h1, h2, h3⟩ := hc
  obtain ⟨X, Y, hXY, hsp⟩ := allInstrs_eraseInstr_splice M hnd fname tid hbody hpre hid
  refine ⟨?_, ?_, ?_⟩
  · rw [hsp]
    rw [hXY, filterlen_splice_in hPe] at h1
    exact h1
  · rw [hsp]
    have h2' : Instr.ptrCast (g + 1) (.globalRef g) ∈ X ++ e :: Y := by
      rw [← hXY]
      exact h2
    simp only [List.mem_append, List.mem_cons] at h2' ⊢
    rcases h2' with h | h | h
    · exact Or.inl h
    · exact absurd h.symm (hecast _ _)
    · exact Or.inr h
  · intro i hi k src hik hsrc
    rw [hsp] at hi
    apply h3 i ?_ k src hik hsrc
    rw [hXY]
    simp only [List.mem_append, List.mem_cons] at hi ⊢
    tauto

theorem prefix_split {inj rest done cur' : List Instr} {c : Instr}
    (h : inj ++ rest = done ++ c :: cur') (hc : c ∉ inj) :
    ∃ d2, done = inj ++ d2 ∧ rest = d2 ++ c :: cur' := by
  rcases List.append_eq_append_iff.mp h with ⟨a, ha1, ha2⟩ | ⟨b, hb1, hb2⟩
  · exact ⟨a, ha1, ha2⟩
  · cases b with
    | nil =>
      rw [List.append_nil] at hb1
      refine ⟨[], by rw [hb1, List.append_nil], ?_⟩
      rw [List.nil_append]
      exact hb2.symm
    | cons x xs =>
      exfalso
      have hx : x = c := by
        have := hb2
        rw [List.cons_append] at this
        injection this with h1 _
        exact h1.symm
      apply hc
      rw [hb1, hx]
      simp

theorem isInitShape_of_callee_ne {g : Nat} {k : Nat} {nm : String} {retTy : LlvmTy}
    {args : List Operand} (h : nm ≠ "__VERIFIER_make_symbolic") :
    isInitShape g (.call k (.direct nm) retTy args) = false := by
  cases args with
  | nil => rfl
  | cons a rest =>
    cases a with
    | val x => simp [isInitShape, h]
    | globalRef q => rfl
    | castGlobal q => rfl
    | nullConst t => rfl
    | intConst t w => rfl

theorem elig_callee_ne_vms {fs : List Func} {i : Nat} {nm : String} {retTy : LlvmTy}
    {args : List Operand} (he : eligibleIn fs (.call i (.direct nm) retTy args) = true) :
    nm ≠ "__VERIFIER_make_symbolic" := by
  obtain ⟨callee, h1, h2, h3, h4, h5⟩ := eligible_direct_inv he
  intro hc
  subst hc
  rw [strStartsWith_vms] at h4
  exact Bool.noConfusion h4

theorem isInitShape_false_of_refsBelow {g B : Nat} {i : Instr}
    (hops : ∀ op ∈ i.opList, op.refsBelow B) (hB : B ≤ g + 1) :
    isInitShape g i = false := by
  cases i with
  | call k callee retTy args =>
    cases callee with
    | direct nm =>
      cases args with
      | nil => rfl
      | cons a rest =>
        cases a with
        | val x =>
          have hx := hops (.val x) (by simp [Instr.opList])
          simp only [Operand.refsBelow] at hx
          have : ¬(x = g + 1) := by omega
          simp [isInitShape, this]
        | globalRef q => rfl
        | castGlobal q => rfl
        | nullConst t => rfl
        | intConst t w => rfl
    | inlineAsm => rfl
    | indirect => rfl
  | load k src => rfl
  | ptrCast k src => rfl
  | other k ops => rfl

theorem isInitShape_rho {g N ciId : Nat} {ρ : Operand → Operand}
    (hρ : RhoOk N ciId ρ) (hgc : g + 1 ≠ ciId) (hgN : g + 1 < N) (i : Instr) :
    isInitShape g (Instr.mapOps ρ i) = isInitShape g i := by
  rcases hρ with h | ⟨v, hv, hvg, hvv⟩
  · rw [h, mapOps_identity]
  · rw [hv]
    apply isInitShape_mapOps_eq hgc
    intro li hli
    have := hvv li hli
    omega

theorem mapOps_ptrCast_inv {ρ : Operand → Operand} {e : Instr} {k : Nat} {src : Operand}
    (h : Instr.mapOps ρ e = Instr.ptrCast k src) : ∃ src0, e = Instr.ptrCast k src0 := by
  cases e with
  | ptrCast k0 src0 =>
    have h2 : Instr.ptrCast k0 (ρ src0) = Instr.ptrCast k src := h
    injection h2 with hk hs
    subst hk
    exact ⟨src0, rfl⟩
  | call a c r ar => exact Instr.noConfusion h
  | load a sr => exact Instr.noConfusion h
  | other a ops => exact Instr.noConfusion h

/-- `CastFacts` survives the whole `replaceCall` composite. -/
theorem CastFacts_comp {g : Nat} {M2 : Module} (hnd : (M2.funcs.map Func.name).Nodup)
    {fname : String} {ciId : Nat} (g0 : Nat)
    {pre post : List Instr} {e : Instr}
    (hbody : M2.bodyOf fname = pre ++ e :: post)
    (hpre : ∀ i ∈ pre, i.id ≠ ciId) (hid : e.id = ciId)
    (hciId : ciId < M2.nextId) (hgn : g + 1 < M2.nextId) (hgc : g + 1 ≠ ciId)
    (hPe : isInitShape g e = false) (hecast : ∀ k src, e ≠ Instr.ptrCast k src)
    (hc : CastFacts g M2) :
    CastFacts g (((({ M2 with nextId := M2.nextId + 1 } : Module).insertBefore fname ciId
        (.load M2.nextId (.globalRef g0))).rauw ciId (.val M2.nextId)).eraseInstr
          fname ciId) := by
  have hcb : CastFacts g ({ M2 with nextId := M2.nextId + 1 } : Module) :=
    CastFacts_congr rfl hc
  have hci : CastFacts g (({ M2 with nextId := M2.nextId + 1 } : Module).insertBefore
      fname ciId (.load M2.nextId (.globalRef g0))) :=
    CastFacts_insertBefore hnd rfl
      (fun k src hc2 => Instr.noConfusion hc2) hcb
  have hcr : CastFacts g ((({ M2 with nextId := M2.nextId + 1 } : Module).insertBefore
      fname ciId (.load M2.nextId (.globalRef g0))).rauw ciId (.val M2.nextId)) :=
    CastFacts_rauw hgc (fun li h => by injection h with h2; omega)
      (fun q h => Operand.noConfusion h) hci
  have hbody4 : ((({ M2 with nextId := M2.nextId + 1 } : Module).insertBefore
      fname ciId (.load M2.nextId (.globalRef g0))).rauw ciId (.val M2.nextId)).bodyOf fname =
      (pre.map (Instr.mapOps (rauwOp ciId (.val M2.nextId)))
        ++ [Instr.mapOps (rauwOp ciId (.val M2.nextId))
             (Instr.load M2.nextId (.globalRef g0))])
        ++ Instr.mapOps (rauwOp ciId (.val M2.nextId)) e
          :: post.map (Instr.mapOps (rauwOp ciId (.val M2.nextId))) := by
    rw [bodyOf_rauw, bodyOf_insertBefore_same,
      bodyOf_congr_funcs (show ({ M2 with nextId := M2.nextId + 1 } : Module).funcs =
        M2.funcs from rfl), hbody,
      insertBeforeId_append_nomatch hpre, insertBeforeId_cons_match hid]
    simp
  apply CastFacts_eraseInstr ?hnd4 hbody4 ?hpre4 ?hid4 ?hPe4 ?hecast4 hcr
  case hnd4 =>
    rw [names_rauw, names_insertBefore]
    exact hnd
  case hpre4 =>
    intro i hi
    rcases List.mem_append.mp hi with hi | hi
    · obtain ⟨i0, hi0, hmap⟩ := List.mem_map.mp hi
      subst hmap
      rw [Instr.id_mapOps]
      exact hpre i0 hi0
    · rw [List.mem_singleton] at hi
      subst hi
      rw [Instr.id_mapOps]
      show M2.nextId ≠ ciId
      omega
  case hid4 =>
    rw [Instr.id_mapOps]
    exact hid
  case hPe4 =>
    rw [isInitShape_mapOps_eq hgc (fun li h => by injection h with h2; omega)]
    exact hPe
  case hecast4 =>
    intro k src hc2
    obtain ⟨src0, hsrc0⟩ := mapOps_ptrCast_inv hc2
    exact hecast k src0 hsrc0

theorem CastFacts_M2_miss_old {M M2 : Module} {g : Nat} {Ty szTy : LlvmTy}
    (hallI : ∃ A1 A2, M.allInstrs = A1 ++ M.bodyOf "main" ++ A2 ∧
      M2.allInstrs = A1 ++
        (Instr.ptrCast (M.nextId + 2) (.globalRef (M.nextId + 1)) ::
         Instr.call (M.nextId + 4) (.direct "__VERIFIER_make_symbolic") .void
           [.val (M.nextId + 2), .intConst szTy (typeAllocSize M.ptrBits Ty),
            .castGlobal (M.nextId + 3)] ::
         M.bodyOf "main") ++ A2)
    (hg4 : g + 4 ≤ M.nextId)
    (hc : CastFacts g M) : CastFacts g M2 := by
  obtain ⟨A1, A2, hA, hA'⟩ := hallI
  obtain ⟨h1, h2, h3⟩ := hc
  have hP1 : isInitShape g (Instr.ptrCast (M.nextId + 2) (.globalRef (M.nextId + 1))) =
      false := rfl
  have hP2 : isInitShape g (Instr.call (M.nextId + 4) (.direct "__VERIFIER_make_symbolic")
      .void [.val (M.nextId + 2), .intConst szTy (typeAllocSize M.ptrBits Ty),
        .castGlobal (M.nextId + 3)]) = false := by
    simp only [isInitShape, Bool.and_eq_false_iff]
    right
    simp only [decide_eq_false_iff_not]
    omega
  refine ⟨?_, ?_, ?_⟩
  · rw [hA']
    rw [show A1 ++
        (Instr.ptrCast (M.nextId + 2) (.globalRef (M.nextId + 1)) ::
         Instr.call (M.nextId + 4) (.direct "__VERIFIER_make_symbolic") .void
           [.val (M.nextId + 2), .intConst szTy (typeAllocSize M.ptrBits Ty),
            .castGlobal (M.nextId + 3)] ::
         M.bodyOf "main") ++ A2 =
      A1 ++ Instr.ptrCast (M.nextId + 2) (.globalRef (M.nextId + 1)) ::
        (Instr.call (M.nextId + 4) (.direct "__VERIFIER_make_symbolic") .void
           [.val (M.nextId + 2), .intConst szTy (typeAllocSize M.ptrBits Ty),
            .castGlobal (M.nextId + 3)] ::
         (M.bodyOf "main" ++ A2)) by simp]
    rw [filterlen_splice_in hP1]
    rw [show A1 ++
        (Instr.call (M.nextId + 4) (.direct "__VERIFIER_make_symbolic") .void
           [.val (M.nextId + 2), .intConst szTy (typeAllocSize M.ptrBits Ty),
            .castGlobal (M.nextId + 3)] ::
         (M.bodyOf "main" ++ A2)) =
      A1 ++ Instr.call (M.nextId + 4) (.direct "__VERIFIER_make_symbolic") .void
           [.val (M.nextId + 2), .intConst szTy (typeAllocSize M.ptrBits Ty),
            .castGlobal (M.nextId + 3)] :: (M.bodyOf "main" ++ A2) from rfl]
    rw [filterlen_splice_in hP2]
    rw [show A1 ++ (M.bodyOf "main" ++ A2) = A1 ++ M.bodyOf "main" ++ A2 by simp, ← hA]
    exact h1
  · rw [hA']
    rw [hA] at h2
    have hm : Instr.ptrCast (g + 1) (.globalRef g) ∈ A1 ∨
        Instr.ptrCast (g + 1) (.globalRef g) ∈ M.bodyOf "main" ∨
        Instr.ptrCast (g + 1) (.globalRef g) ∈ A2 := by
      rcases List.mem_append.mp h2 with h | h
      · rcases List.mem_append.mp h with h' | h'
        · exact Or.inl h'
        · exact Or.inr (Or.inl h')
      · exact Or.inr (Or.inr h)
    rcases hm with h | h | h
    · exact List.mem_append_left _ (List.mem_append_left _ h)
    · exact List.mem_append_left _ (List.mem_append_right _
        (List.mem_cons_of_mem _ (List.mem_cons_of_mem _ h)))
    · exact List.mem_append_right _ h
  · intro i hi k src hik hsrc
    rw [hA'] at hi
    rcases List.mem_append.mp hi with hi | hi
    · rcases List.mem_append.mp hi with hi | hi
      · refine h3 i ?_ k src hik hsrc
        rw [hA]
        exact List.mem_append_left _ (List.mem_append_left _ hi)
      · rcases List.mem_cons.mp hi with hi | hi
        · subst hi
          injection hik with hk hs
          exfalso
          rw [← hs] at hsrc
          injection hsrc with hg2
          omega
        · rcases List.mem_cons.mp hi with hi | hi
          · subst hi
            exact Instr.noConfusion hik
          · refine h3 i ?_ k src hik hsrc
            rw [hA]
            exact List.mem_append_left _ (List.mem_append_right _ hi)
    · refine h3 i ?_ k src hik hsrc
      rw [hA]
      exact List.mem_append_right _ hi

theorem CastFacts_M2_new {M M2 : Module} {Ty szTy : LlvmTy} (hwf : WF M)
    (hallI : ∃ A1 A2, M.allInstrs = A1 ++ M.bodyOf "main" ++ A2 ∧
      M2.allInstrs = A1 ++
        (Instr.ptrCast (M.nextId + 2) (.globalRef (M.nextId + 1)) ::
         Instr.call (M.nextId + 4) (.direct "__VERIFIER_make_symbolic") .void
           [.val (M.nextId + 2), .intConst szTy (typeAllocSize M.ptrBits Ty),
            .castGlobal (M.nextId + 3)] ::
         M.bodyOf "main") ++ A2) :
    CastFacts (M.nextId + 1) M2 := by
  obtain ⟨A1, A2, hA, hA'⟩ := hallI
  have hPold : ∀ i ∈ M.allInstrs, isInitShape (M.nextId + 1) i = false := by
    intro i hi
    exact isInitShape_false_of_refsBelow (fun op hop => hwf.2.2.2.2.1 i hi op hop) (by omega)
  have hP2 : isInitShape (M.nextId + 1) (Instr.call (M.nextId + 4)
      (.direct "__VERIFIER_make_symbolic") .void
      [.val (M.nextId + 2), .intConst szTy (typeAllocSize M.ptrBits Ty),
       .castGlobal (M.nextId + 3)]) = true := by
    simp [isInitShape]
  refine ⟨?_, ?_, ?_⟩
  · rw [hA']
    have hfA1 : A1.filter (fun i => isInitShape (M.nextId + 1) i) = [] := by
      rw [List.filter_eq_nil_iff]
      intro a ha
      rw [hPold a (by rw [hA]; exact List.mem_append_left _ (List.mem_append_left _ ha))]
      simp
    have hfmb : (M.bodyOf "main").filter (fun i => isInitShape (M.nextId + 1) i) = [] := by
      rw [List.filter_eq_nil_iff]
      intro a ha
      rw [hPold a (by rw [hA]; exact List.mem_append_left _ (List.mem_append_right _ ha))]
      simp
    have hfA2 : A2.filter (fun i => isInitShape (M.nextId + 1) i) = [] := by
      rw [List.filter_eq_nil_iff]
      intro a ha
      rw [hPold a (by rw [hA]; exact List.mem_append_right _ ha)]
      simp
    rw [List.filter_append, List.filter_append, List.filter_cons, List.filter_cons]
    simp only [hfA1, hfA2, hfmb, hP2]
    simp [isInitShape]
  · rw [hA']
    refine List.mem_append_left _ (List.mem_append_right _ ?_)
    show Instr.ptrCast (M.nextId + 1 + 1) (.globalRef (M.nextId + 1)) ∈ _
    rw [show M.nextId + 1 + 1 = M.nextId + 2 from rfl]
    simp
  · intro i hi k src hik hsrc
    rw [hA'] at hi
    rcases List.mem_append.mp hi with hi | hi
    · rcases List.mem_append.mp hi with hi | hi
      · exfalso
        have hmem0 : i ∈ M.allInstrs := by
          rw [hA]
          exact List.mem_append_left _ (List.mem_append_left _ hi)
        subst hik
        have := hwf.2.2.2.2.1 _ hmem0 src (by simp [Instr.opList])
        rw [hsrc] at this
        simp only [Operand.refsBelow] at this
        omega
      · rcases List.mem_cons.mp hi with hi | hi
        · subst hi
          injection hik with hk hs
          omega
        · rcases List.mem_cons.mp hi with hi | hi
          · subst hi
            exact Instr.noConfusion hik
          · exfalso
            have hmem0 : i ∈ M.allInstrs := by
              rw [hA]
              exact List.mem_append_left _ (List.mem_append_right _ hi)
            subst hik
            have := hwf.2.2.2.2.1 _ hmem0 src (by simp [Instr.opList])
            rw [hsrc] at this
            simp only [Operand.refsBelow] at this
            omega
    · exfalso
      have hmem0 : i ∈ M.allInstrs := by
        rw [hA]
        exact List.mem_append_right _ hi
      subst hik
      have := hwf.2.2.2.2.1 _ hmem0 src (by simp [Instr.opList])
      rw [hsrc] at this
      simp only [Operand.refsBelow] at this
      omega

/-- Per-policy evolution of the cache and the per-global `CastFacts`
through one eligible step, including the bookkeeping of a freshly
created global on a Symbolic-policy cache miss. -/
theorem C3_cast_step {N0 : Nat} {fname : String} {s s' : PState} {b : Bool}
    {ciId : Nat} {nm : String} {retTy : LlvmTy} {args args2 : List Operand}
    {done cur' : List Instr}
    (hwf : WF s.M) (hst : StWF s.M s.st)
    (he : eligibleIn s.M.funcs (.call ciId (.direct nm) retTy args) = true)
    (hbody : s.M.bodyOf fname = done ++ (Instr.call ciId (.direct nm) retTy args2) :: cur')
    (hstep : processInstr fname (.call ciId (.direct nm) retTy args) s = .ok (s', b))
    (hciIdN0 : ciId < N0) (hN : N0 ≤ s.M.nextId) :
    (s'.st.added_globals = s.st.added_globals ∧ s.M.nextId ≤ s'.M.nextId ∧
       (∀ g : Nat, N0 ≤ g → g + 4 ≤ s.M.nextId → CastFacts g s.M → CastFacts g s'.M)) ∨
    (s'.st.added_globals = s.st.added_globals ++ [(retTy, s.M.nextId + 1)] ∧
       s.M.nextId + 5 ≤ s'.M.nextId ∧
       (∀ g : Nat, N0 ≤ g → g + 4 ≤ s.M.nextId → CastFacts g s.M → CastFacts g s'.M) ∧
       CastFacts (s.M.nextId + 1) s'.M ∧
       (∃ inj rest, s'.M.bodyOf "main" = inj ++ rest ∧ (∀ i ∈ inj, N0 ≤ i.id) ∧
          ∃ c0 ∈ inj, isInitShape (s.M.nextId + 1) c0 = true)) := by
  have hcallee_ne : nm ≠ "__VERIFIER_make_symbolic" := elig_callee_ne_vms he
  have hciIdlt : ciId < s.M.nextId := by
    have := WF.body_ids_lt hwf fname (Instr.call ciId (.direct nm) retTy args2)
      (by rw [hbody]; simp)
    exact this
  have hpre := (body_decomp_pre_ids hwf hbody).1
  have hpre' : ∀ i ∈ done, i.id ≠ ciId := fun i hi => hpre i hi
  by_cases hvoid : retTy = .void
  · subst hvoid
    obtain ⟨hb, hM, hstq, hrm, hlg⟩ := processInstr_void_inv he hstep
    left
    refine ⟨by rw [hstq], by rw [hM, nextId_eraseInstr], ?_⟩
    intro g hgN0 hg4 hc
    rw [hM]
    exact CastFacts_eraseInstr hwf.2.2.2.2.2 hbody hpre' rfl
      (isInitShape_of_callee_ne hcallee_ne)
      (fun k src hc2 => Instr.noConfusion hc2) hc
  · by_cases hnosym : s.st.nosym = true
    · obtain ⟨hb, hM, hstq, hrm, hlg⟩ := processInstr_zero_inv he hvoid hnosym hstep
      left
      refine ⟨by rw [hstq], by rw [hM, nextId_eraseInstr, nextId_rauw], ?_⟩
      intro g hgN0 hg4 hc
      rw [hM]
      have hc1 : CastFacts g (s.M.rauw ciId (.nullConst retTy)) :=
        CastFacts_rauw (by omega) (fun li h => absurd h (fun hc2 => Operand.noConfusion hc2))
          (fun q h => Operand.noConfusion h) hc
      have hbodyr : (s.M.rauw ciId (.nullConst retTy)).bodyOf fname =
          done.map (Instr.mapOps (rauwOp ciId (.nullConst retTy)))
            ++ (Instr.call ciId (.direct nm) retTy
                 (args2.map (rauwOp ciId (.nullConst retTy))))
              :: cur'.map (Instr.mapOps (rauwOp ciId (.nullConst retTy))) := by
        rw [bodyOf_rauw, hbody]
        simp [Instr.mapOps]
      refine CastFacts_eraseInstr ?_ hbodyr ?_ rfl
        (isInitShape_of_callee_ne hcallee_ne)
        (fun k src hc2 => Instr.noConfusion hc2) hc1
      · rw [names_rauw]
        exact hwf.2.2.2.2.2
      · intro i hi
        obtain ⟨i0, hi0, hmap⟩ := List.mem_map.mp hi
        subst hmap
        rw [Instr.id_mapOps]
        exact hpre' i0 hi0
    · have hns' : s.st.nosym = false := by revert hnosym; cases s.st.nosym <;> simp
      obtain ⟨hb, hrm, hlg, M2, g0, szTy, hMcomp, hns, hvms', hlk, hgb, hnb, hpb,
        hsig, hcases⟩ := processInstr_sym_inv hst he hvoid hns' hstep
      have hnic : s'.M.nextId = M2.nextId + 1 := by
        rw [hMcomp]
        exact comp_nextId M2 fname ciId g0 M2.nextId
      rcases hcases with ⟨hlk0, hsteq, hfuncs, hglob, hni⟩ |
        ⟨hlk0, hgid, hag, hv2, hbodyM2, hother, hglob, hni, hnames, hallI⟩
      · -- cache hit
        left
        have hnd2 : (M2.funcs.map Func.name).Nodup := by
          rw [hfuncs]
          exact hwf.2.2.2.2.2
        refine ⟨by rw [hsteq], by omega, ?_⟩
        intro g hgN0 hg4 hc
        have hcM2 : CastFacts g M2 := CastFacts_congr hfuncs hc
        have hbody2 : M2.bodyOf fname =
            done ++ (Instr.call ciId (.direct nm) retTy args2) :: cur' := by
          rw [bodyOf_congr_funcs hfuncs fname]
          exact hbody
        rw [hMcomp]
        exact CastFacts_comp hnd2 g0 hbody2 hpre' rfl (by omega) (by omega) (by omega)
          (isInitShape_of_callee_ne hcallee_ne)
          (fun k src hc2 => Instr.noConfusion hc2) hcM2
      · -- cache miss: a fresh global and its initialization
        right
        have hnd2 : (M2.funcs.map Func.name).Nodup := by
          rcases hnames with h | ⟨hv, h⟩
          · rw [h]
            exact hwf.2.2.2.2.2
          · rw [h]
            have := nodup_names_append_vms hwf.2.2.2.2.2 hv
            rw [List.map_append] at this
            exact this
        have hallI2 := hallI hwf.2.2.2.2.2
        have htrans : ∀ g : Nat, N0 ≤ g → g + 4 ≤ s.M.nextId →
            CastFacts g s.M → CastFacts g s'.M := by
          intro g hgN0 hg4 hc
          have hcM2 : CastFacts g M2 := CastFacts_M2_miss_old hallI2 (by omega) hc
          have hbody2 : M2.bodyOf fname =
              (if fname = "main" then
                 (Instr.ptrCast (s.M.nextId + 2) (.globalRef (s.M.nextId + 1)) ::
                  Instr.call (s.M.nextId + 4) (.direct "__VERIFIER_make_symbolic") .void
                    [.val (s.M.nextId + 2), .intConst szTy (typeAllocSize s.M.ptrBits retTy),
                     .castGlobal (s.M.nextId + 3)] :: done)
               else done)
              ++ (Instr.call ciId (.direct nm) retTy args2) :: cur' := by
            by_cases hm : fname = "main"
            · subst hm
              rw [if_pos rfl, hbodyM2, hbody]
              simp
            · rw [if_neg hm, hother fname hm]
              exact hbody
          rw [hMcomp]
          refine CastFacts_comp hnd2 g0 hbody2 ?_ rfl (by omega) (by omega) (by omega)
            (isInitShape_of_callee_ne hcallee_ne)
            (fun k src hc2 => Instr.noConfusion hc2) hcM2
          intro i hi
          by_cases hm : fname = "main"
          · rw [if_pos hm] at hi
            rcases List.mem_cons.mp hi with h | h
            · subst h
              show s.M.nextId + 2 ≠ ciId
              omega
            · rcases List.mem_cons.mp h with h | h
              · subst h
                show s.M.nextId + 4 ≠ ciId
                omega
              · exact hpre' i h
          · rw [if_neg hm] at hi
            exact hpre' i hi
        have hcnew : CastFacts (s.M.nextId + 1) s'.M := by
          have hcM2 : CastFacts (s.M.nextId + 1) M2 := CastFacts_M2_new hwf hallI2
          have hbody2 : M2.bodyOf fname =
              (if fname = "main" then
                 (Instr.ptrCast (s.M.nextId + 2) (.globalRef (s.M.nextId + 1)) ::
                  Instr.call (s.M.nextId + 4) (.direct "__VERIFIER_make_symbolic") .void
                    [.val (s.M.nextId + 2), .intConst szTy (typeAllocSize s.M.ptrBits retTy),
                     .castGlobal (s.M.nextId + 3)] :: done)
               else done)
              ++ (Instr.call ciId (.direct nm) retTy args2) :: cur' := by
            by_cases hm : fname = "main"
            · subst hm
              rw [if_pos rfl, hbodyM2, hbody]
              simp
            · rw [if_neg hm, hother fname hm]
              exact hbody
          rw [hMcomp]
          refine CastFacts_comp hnd2 g0 hbody2 ?_ rfl (by omega) (by omega) (by omega)
            (isInitShape_of_callee_ne hcallee_ne)
            (fun k src hc2 => Instr.noConfusion hc2) hcM2
          intro i hi
          by_cases hm : fname = "main"
          · rw [if_pos hm] at hi
            rcases List.mem_cons.mp hi with h | h
            · subst h
              show s.M.nextId + 2 ≠ ciId
              omega
            · rcases List.mem_cons.mp h with h | h
              · subst h
                show s.M.nextId + 4 ≠ ciId
                omega
              · exact hpre' i h
          · rw [if_neg hm] at hi
            exact hpre' i hi
        have hnewsplit : ∃ inj rest, s'.M.bodyOf "main" = inj ++ rest ∧
            (∀ i ∈ inj, N0 ≤ i.id) ∧
            ∃ c0 ∈ inj, isInitShape (s.M.nextId + 1) c0 = true := by
          have hinitP : isInitShape (s.M.nextId + 1)
              (Instr.mapOps (rauwOp ciId (.val M2.nextId))
                (Instr.call (s.M.nextId + 4) (.direct "__VERIFIER_make_symbolic") .void
                  [.val (s.M.nextId + 2), .intConst szTy (typeAllocSize s.M.ptrBits retTy),
                   .castGlobal (s.M.nextId + 3)])) = true := by
            rw [isInitShape_mapOps_eq (by omega) (fun li h => by injection h with h2; omega)]
            simp [isInitShape]
          by_cases hm : fname = "main"
          · subst hm
            have hb2 : M2.bodyOf "main" =
                (Instr.ptrCast (s.M.nextId + 2) (.globalRef (s.M.nextId + 1)) ::
                 Instr.call (s.M.nextId + 4) (.direct "__VERIFIER_make_symbolic") .void
                   [.val (s.M.nextId + 2), .intConst szTy (typeAllocSize s.M.ptrBits retTy),
                    .castGlobal (s.M.nextId + 3)] :: done)
                ++ (Instr.call ciId (.direct nm) retTy args2) :: cur' := by
              rw [hbodyM2, hbody]
              simp
            have hpre2 : ∀ i ∈
                (Instr.ptrCast (s.M.nextId + 2) (.globalRef (s.M.nextId + 1)) ::
                 Instr.call (s.M.nextId + 4) (.direct "__VERIFIER_make_symbolic") .void
                   [.val (s.M.nextId + 2), .intConst szTy (typeAllocSize s.M.ptrBits retTy),
                    .castGlobal (s.M.nextId + 3)] :: done), i.id ≠ ciId := by
              intro i hi
              rcases List.mem_cons.mp hi with h | h
              · subst h
                show s.M.nextId + 2 ≠ ciId
                omega
              · rcases List.mem_cons.mp h with h | h
                · subst h
                  show s.M.nextId + 4 ≠ ciId
                  omega
                · exact hpre' i h
            rw [hMcomp, comp_bodyOf_fname M2 "main" g0 hb2
              (show (Instr.call ciId (CalleeRef.direct nm) retTy args2).id = ciId from rfl)
              hpre2 (by omega)]
            rw [List.map_cons, List.map_cons]
            refine ⟨[Instr.mapOps (rauwOp ciId (.val M2.nextId))
                 (Instr.ptrCast (s.M.nextId + 2) (.globalRef (s.M.nextId + 1))),
               Instr.mapOps (rauwOp ciId (.val M2.nextId))
                 (Instr.call (s.M.nextId + 4) (.direct "__VERIFIER_make_symbolic") .void
                   [.val (s.M.nextId + 2), .intConst szTy (typeAllocSize s.M.ptrBits retTy),
                    .castGlobal (s.M.nextId + 3)])],
              done.map (Instr.mapOps (rauwOp ciId (.val M2.nextId)))
                ++ Instr.load M2.nextId (.globalRef g0)
                  :: cur'.map (Instr.mapOps (rauwOp ciId (.val M2.nextId))), ?_, ?_, ?_⟩
            · simp
            · intro i hi
              rcases List.mem_cons.mp hi with h | h
              · subst h
                rw [Instr.id_mapOps]
                show N0 ≤ s.M.nextId + 2
                omega
              · rw [List.mem_singleton] at h
                subst h
                rw [Instr.id_mapOps]
                show N0 ≤ s.M.nextId + 4
                omega
            · refine ⟨_, by simp, hinitP⟩
          · have hbmain : s'.M.bodyOf "main" =
                (M2.bodyOf "main").map (Instr.mapOps (rauwOp ciId (.val M2.nextId))) := by
              rw [hMcomp]
              exact comp_bodyOf_other M2 fname g0 (fun hc => hm hc.symm)
            rw [hbmain, hbodyM2, List.map_cons, List.map_cons]
            refine ⟨[Instr.mapOps (rauwOp ciId (.val M2.nextId))
                 (Instr.ptrCast (s.M.nextId + 2) (.globalRef (s.M.nextId + 1))),
               Instr.mapOps (rauwOp ciId (.val M2.nextId))
                 (Instr.call (s.M.nextId + 4) (.direct "__VERIFIER_make_symbolic") .void
                   [.val (s.M.nextId + 2), .intConst szTy (typeAllocSize s.M.ptrBits retTy),
                    .castGlobal (s.M.nextId + 3)])],
              (s.M.bodyOf "main").map (Instr.mapOps (rauwOp ciId (.val M2.nextId))),
              ?_, ?_, ?_⟩
            · simp
            · intro i hi
              rcases List.mem_cons.mp hi with h | h
              · subst h
                rw [Instr.id_mapOps]
                show N0 ≤ s.M.nextId + 2
                omega
              · rw [List.mem_singleton] at h
                subst h
                rw [Instr.id_mapOps]
                show N0 ≤ s.M.nextId + 4
                omega
            · refine ⟨_, by simp, hinitP⟩
        exact ⟨hag, by omega, htrans, hcnew, hnewsplit⟩

/-- One eligible step preserves the C3 invariant (and creates the
bookkeeping for a freshly created nondeterministic global). -/
theorem C3_elig_step {N0 : Nat} {fname : String} {s s' : PState} {b : Bool}
    {ciId : Nat} {nm : String} {retTy : LlvmTy} {args args2 : List Operand}
    {done cur' : List Instr}
    (hwf : WF s.M) (hst : StWF s.M s.st) (hN : N0 ≤ s.M.nextId)
    (he : eligibleIn s.M.funcs (.call ciId (.direct nm) retTy args) = true)
    (hbody : s.M.bodyOf fname = done ++ (Instr.call ciId (.direct nm) retTy args2) :: cur')
    (hstep : processInstr fname (.call ciId (.direct nm) retTy args) s = .ok (s', b))
    (hI : C3Inv N0 s) : C3Inv N0 s' ∧ N0 ≤ s'.M.nextId := by
  obtain ⟨hIg, hIfresh⟩ := hI
  obtain ⟨hb1, hwf1, hst1, hsig1, hle1, hnames1, hbodyF, hoth⟩ :=
    elig_step_master hwf hst he hstep
  have hcid : (Instr.call ciId (.direct nm) retTy args2).id = ciId := rfl
  obtain ⟨ρ, inj0, mid, hρ, hinj0, hmid, hbody1⟩ := hbodyF done cur' _ hbody hcid
  have hciIdlt : ciId < s.M.nextId := by
    have := WF.body_ids_lt hwf fname (Instr.call ciId (.direct nm) retTy args2)
      (by rw [hbody]; simp)
    exact this
  have hNle : N0 ≤ s'.M.nextId := le_trans hN hle1
  have hcallee_ne : nm ≠ "__VERIFIER_make_symbolic" := elig_callee_ne_vms he
  -- the processed call's id is below the run-entry allocator mark
  have hciIdN0 : ciId < N0 := by
    by_contra hcon
    have hfr := hIfresh fname (Instr.call ciId (.direct nm) retTy args2)
      (by rw [hbody]; simp) (by omega)
    have := hfr s.M.funcs
    rw [eligibleIn_of_sameShape s.M.funcs
      (show sameShape (Instr.call ciId (.direct nm) retTy args2)
        (Instr.call ciId (.direct nm) retTy args) from ⟨rfl, rfl, rfl⟩)] at this
    rw [he] at this
    exact Bool.noConfusion this
  -- I3 preservation
  have hIfresh' : ∀ nm', ∀ i ∈ s'.M.bodyOf nm', N0 ≤ i.id → neverElig i := by
    intro nm' i hi hid
    by_cases hnm : nm' = fname
    · subst hnm
      rw [hbody1] at hi
      rcases List.mem_append.mp hi with hi | hi
      · rcases List.mem_append.mp hi with hi | hi
        · rcases List.mem_append.mp hi with hi | hi
          · exact (hinj0 i hi).1
          · obtain ⟨i0, hi0, hmap⟩ := List.mem_map.mp hi
            subst hmap
            refine neverElig_mapOps (hIfresh nm' i0 ?_ ?_) ρ
            · rw [hbody]
              exact List.mem_append_left _ hi0
            · rw [Instr.id_mapOps] at hid
              exact hid
        · exact (hmid i hi).1
      · obtain ⟨i0, hi0, hmap⟩ := List.mem_map.mp hi
        subst hmap
        refine neverElig_mapOps (hIfresh nm' i0 ?_ ?_) ρ
        · rw [hbody]
          refine List.mem_append_right _ (List.mem_cons_of_mem _ hi0)
        · rw [Instr.id_mapOps] at hid
          exact hid
    · obtain ⟨ρ', inj', hρ', hinj', hinjnil, hb'⟩ := hoth nm' hnm
      rw [hb'] at hi
      rcases List.mem_append.mp hi with hi | hi
      · exact (hinj' i hi).1
      · obtain ⟨i0, hi0, hmap⟩ := List.mem_map.mp hi
        subst hmap
        rw [Instr.id_mapOps] at hid
        exact neverElig_mapOps (hIfresh nm' i0 hi0 hid) ρ'
  -- main-split preservation for already-recorded globals
  have hsplit' : ∀ p : LlvmTy × Nat, p ∈ s.st.added_globals →
      ∃ inj rest, s'.M.bodyOf "main" = inj ++ rest ∧ (∀ i ∈ inj, N0 ≤ i.id) ∧
        ∃ c0 ∈ inj, isInitShape p.2 c0 = true := by
    intro p hp
    obtain ⟨hpN0, hp4, hcast, inj, rest, hmsplit, hinjid, c0, hc0, hc0P⟩ := hIg p hp
    have hrho : ∀ i0, isInitShape p.2 (Instr.mapOps ρ i0) = isInitShape p.2 i0 := by
      intro i0
      exact isInitShape_rho hρ (by omega) (by omega) i0
    by_cases hm : fname = "main"
    · subst hm
      have hcnotinj : (Instr.call ciId (.direct nm) retTy args2) ∉ inj := by
        intro hin
        have hfr := hIfresh "main" _ (by rw [hmsplit]; exact List.mem_append_left _ hin)
          (by have := hinjid _ hin; omega)
        have := hfr s.M.funcs
        rw [eligibleIn_of_sameShape s.M.funcs
          (show sameShape (Instr.call ciId (.direct nm) retTy args2)
            (Instr.call ciId (.direct nm) retTy args) from ⟨rfl, rfl, rfl⟩)] at this
        rw [he] at this
        exact Bool.noConfusion this
      obtain ⟨d2, hd2, hrest⟩ := prefix_split (hmsplit.symm.trans hbody) hcnotinj
      refine ⟨inj0 ++ inj.map (Instr.mapOps ρ),
        d2.map (Instr.mapOps ρ) ++ mid ++ cur'.map (Instr.mapOps ρ), ?_, ?_, ?_⟩
      · rw [hbody1, hd2]
        simp
      · intro i hi
        rcases List.mem_append.mp hi with hi | hi
        · have := (hinj0 i hi).2
          omega
        · obtain ⟨i0, hi0, hmap⟩ := List.mem_map.mp hi
          subst hmap
          rw [Instr.id_mapOps]
          exact hinjid i0 hi0
      · refine ⟨Instr.mapOps ρ c0, List.mem_append_right _ (List.mem_map_of_mem _ hc0), ?_⟩
        rw [hrho c0]
        exact hc0P
    · obtain ⟨ρ', inj', hρ', hinj', hinjnil, hb'⟩ := hoth "main" (fun hc => hm hc.symm)
      have hrho' : ∀ i0, isInitShape p.2 (Instr.mapOps ρ' i0) = isInitShape p.2 i0 := by
        intro i0
        exact isInitShape_rho hρ' (by omega) (by omega) i0
      refine ⟨inj' ++ inj.map (Instr.mapOps ρ'), rest.map (Instr.mapOps ρ'), ?_, ?_, ?_⟩
      · rw [hb', hmsplit]
        simp
      · intro i hi
        rcases List.mem_append.mp hi with hi | hi
        · have := (hinj' i hi).2
          omega
        · obtain ⟨i0, hi0, hmap⟩ := List.mem_map.mp hi
          subst hmap
          rw [Instr.id_mapOps]
          exact hinjid i0 hi0
      · refine ⟨Instr.mapOps ρ' c0, List.mem_append_right _ (List.mem_map_of_mem _ hc0), ?_⟩
        rw [hrho' c0]
        exact hc0P
  rcases C3_cast_step hwf hst he hbody hstep hciIdN0 hN with
    ⟨hagEq, hle', htrans⟩ | ⟨hagEq, hle5, htrans, hcnew, hnewsplit⟩
  · refine ⟨⟨?_, hIfresh'⟩, hNle⟩
    intro p hp'
    rw [hagEq] at hp'
    obtain ⟨hpN0, hp4, hcast, hsp⟩ := hIg p hp'
    exact ⟨hpN0, by omega, htrans p.2 hpN0 hp4 hcast, hsplit' p hp'⟩
  · refine ⟨⟨?_, hIfresh'⟩, hNle⟩
    intro p hp'
    rw [hagEq] at hp'
    rcases List.mem_append.mp hp' with hp2 | hp2
    · obtain ⟨hpN0, hp4, hcast, hsp⟩ := hIg p hp2
      exact ⟨hpN0, by omega, htrans p.2 hpN0 hp4 hcast, hsplit' p hp2⟩
    · rw [List.mem_singleton] at hp2
      subst hp2
      exact ⟨by show N0 ≤ s.M.nextId + 1; omega,
        by show s.M.nextId + 1 + 4 ≤ s'.M.nextId; omega, hcnew, hnewsplit⟩

/-- The C3 invariant is preserved by the walk of one function. -/
theorem processList_C3 {N0 : Nat} {fname : String} :
    ∀ {todo : List Instr} {s s' : PState} {b : Bool},
    processList fname todo s = .ok (s', b) →
    WF s.M → StWF s.M s.st → N0 ≤ s.M.nextId → C3Inv N0 s →
    ∀ {done cur : List Instr},
    s.M.bodyOf fname = done ++ cur →
    List.Forall₂ sameShape cur todo →
    WF s'.M ∧ StWF s'.M s'.st ∧ N0 ≤ s'.M.nextId ∧ C3Inv N0 s' := by
  intro todo
  induction todo with
  | nil =>
    intro s s' b hok hwf hst hN hI done cur hbody hsh
    unfold processList at hok
    injection hok with h1
    injection h1 with hps hb
    rw [← hps]
    exact ⟨hwf, hst, hN, hI⟩
  | cons t todo' ih =>
    intro s s' b hok hwf hst hN hI done cur hbody hsh
    unfold processList at hok
    cases h1 : processInstr fname t s with
    | error e => rw [h1] at hok; exact Except.noConfusion hok
    | ok r =>
      obtain ⟨s1, b1⟩ := r
      simp only [h1] at hok
      cases h2 : processList fname todo' s1 with
      | error e => rw [h2] at hok; exact Except.noConfusion hok
      | ok r2 =>
        obtain ⟨s2, b2⟩ := r2
        rw [h2] at hok
        injection hok with h3
        injection h3 with hps hb
        rw [← hps]
        obtain ⟨c, cur', hct, hsh', hcur⟩ := List.forall₂_cons_right_iff.mp hsh
        subst hcur
        by_cases hel : eligibleIn s.M.funcs t = true
        · cases t with
          | call tId tc tTy targs =>
            cases tc with
            | direct tnm =>
              cases c with
              | call cid cc crt cargs =>
                obtain ⟨hcid, hcc, hcrt⟩ := hct
                subst hcid
                subst hcc
                subst hcrt
                obtain ⟨hb1, hwf1, hst1, hsig1, hle1, hnames1, hbodyF, hoth⟩ :=
                  elig_step_master hwf hst hel h1
                obtain ⟨hI1, hN1⟩ := C3_elig_step hwf hst hN hel hbody h1 hI
                obtain ⟨ρ, inj, mid, hρ, hinj, hmid, hbody1⟩ :=
                  hbodyF done cur' _ hbody rfl
                have hbody1x : s1.M.bodyOf fname =
                    (inj ++ done.map (Instr.mapOps ρ) ++ mid)
                      ++ cur'.map (Instr.mapOps ρ) := by
                  rw [hbody1]
                exact ih h2 hwf1 hst1 hN1 hI1 hbody1x (forall2_sameShape_map ρ hsh')
              | load a sr => exact absurd hct (by simp [sameShape])
              | ptrCast a sr => exact absurd hct (by simp [sameShape])
              | other a ops => exact absurd hct (by simp [sameShape])
            | inlineAsm => exact Bool.noConfusion hel
            | indirect => exact Bool.noConfusion hel
          | load i op => exact Bool.noConfusion hel
          | ptrCast i op => exact Bool.noConfusion hel
          | other i ops => exact Bool.noConfusion hel
        · have hel' : eligibleIn s.M.funcs t = false := by
            revert hel
            cases eligibleIn s.M.funcs t <;> simp
          rw [processInstr_skip hel'] at h1
          injection h1 with h1x
          injection h1x with hs1 hb1
          have hbody2 : s.M.bodyOf fname = (done ++ [c]) ++ cur' := by
            rw [hbody]
            simp
          rw [← hs1] at h2
          exact ih h2 hwf hst hN hI hbody2 hsh'

/-- The C3 invariant is preserved by the whole driver loop. -/
theorem runOnFuncs_C3 {N0 : Nat} :
    ∀ {nms : List String} {s s' : PState} {b : Bool},
    runOnFuncs nms s = .ok (s', b) →
    WF s.M → StWF s.M s.st → N0 ≤ s.M.nextId → C3Inv N0 s →
    WF s'.M ∧ StWF s'.M s'.st ∧ N0 ≤ s'.M.nextId ∧ C3Inv N0 s' := by
  intro nms
  induction nms with
  | nil =>
    intro s s' b hok hwf hst hN hI
    unfold runOnFuncs at hok
    injection hok with h1
    injection h1 with hps hb
    rw [← hps]
    exact ⟨hwf, hst, hN, hI⟩
  | cons nm rest ih =>
    intro s s' b hok hwf hst hN hI
    unfold runOnFuncs at hok
    cases h1 : runOnFunction nm s with
    | error e => rw [h1] at hok; exact Except.noConfusion hok
    | ok r =>
      obtain ⟨s1, b1⟩ := r
      simp only [h1] at hok
      cases h2 : runOnFuncs rest s1 with
      | error e => rw [h2] at hok; exact Except.noConfusion hok
      | ok r2 =>
        obtain ⟨s2, b2⟩ := r2
        rw [h2] at hok
        injection hok with h3
        injection h3 with hps hb
        rw [← hps]
        obtain ⟨hwf1, hst1, hN1, hI1⟩ :=
          processList_C3
            (show processList nm (s.M.bodyOf nm) s = .ok (s1, b1) from h1) hwf hst hN hI
            (show s.M.bodyOf nm = [] ++ s.M.bodyOf nm from rfl)
            (forall2_sameShape_refl (s.M.bodyOf nm))
        exact ih h2 hwf1 hst1 hN1 hI1

/-- In a module with distinct instruction ids and `CastFacts g`, the
relational recognizer `isVmsInitFor` agrees with the syntactic shape
`isInitShape`. -/
theorem isVmsInitFor_eq_isInitShape {M : Module} {g : Nat}
    (hnd : (M.allInstrs.map Instr.id).Nodup) (hcf : CastFacts g M) (i : Instr) :
    isVmsInitFor M g i = isInitShape g i := by
  obtain ⟨hone, hmem, huniq⟩ := hcf
  cases i with
  | call k callee retTy args =>
    cases callee with
    | direct nm =>
      cases args with
      | nil => rfl
      | cons a rest =>
        cases a with
        | val c =>
          simp only [isVmsInitFor, isInitShape]
          by_cases hnm : nm = "__VERIFIER_make_symbolic"
          · simp only [hnm, decide_True, Bool.true_and]
            by_cases hc : c = g + 1
            · subst hc
              have hfind : M.findInstrById (g + 1) =
                  some (Instr.ptrCast (g + 1) (.globalRef g)) := by
                have h := findInstrById_of_mem_nodup hnd hmem
                exact h
              rw [hfind]
              simp
            · cases hfind : M.findInstrById c with
              | none => simp [hc]
              | some j =>
                have hjid : j.id = c := by
                  have := List.find?_some hfind
                  simpa using this
                have hjmem : j ∈ M.allInstrs := List.mem_of_find?_eq_some hfind
                cases j with
                | call k2 c2 r2 a2 => simp [hc]
                | load k2 src => simp [hc]
                | other k2 ops => simp [hc]
                | ptrCast k2 src =>
                  cases src with
                  | globalRef g2 =>
                    by_cases hg : g2 = g
                    · subst hg
                      have hk2 := huniq _ hjmem k2 (.globalRef g2) rfl rfl
                      have hkc : k2 = c := hjid
                      exact absurd (by omega) hc
                    · simp [hg, hc]
                  | val x => simp [hc]
                  | castGlobal q => simp [hc]
                  | nullConst t => simp [hc]
                  | intConst t w => simp [hc]
          · simp [hnm]
        | globalRef q => rfl
        | castGlobal q => rfl
        | nullConst t => rfl
        | intConst t w => rfl
    | inlineAsm => rfl
    | indirect => rfl
  | load k src => rfl
  | ptrCast k src => rfl
  | other k ops => rfl

/-- A pristine pass instance satisfies the C3 invariant at entry. -/
theorem C3Inv_init {s : PState} (hwf : WF s.M)
    (hpr : s.st.added_globals = []) : C3Inv s.M.nextId s := by
  constructor
  · intro p hp
    rw [hpr] at hp
    cases hp
  · intro nm i hi hN
    exact absurd (hwf.2.1 i (bodyOf_mem_allInstrs hi)) (by omega)

/-- C3: for every nondeterministic global created during a run starting
from a fresh pass instance, exactly one call to
`__VERIFIER_make_symbolic` for it exists in the final program, and it
sits in a pass-inserted prefix of `main` that precedes every
originally-present instruction of `main`; moreover the call (and the
pointer cast it uses) is created at the moment the global is first
created, inserted immediately before `main`'s current first
instruction. -/
theorem C3_single_initialization :
    (∀ (s s' : PState) (b : Bool),
       WF s.M → StWF s.M s.st → s.st.added_globals = [] →
       runOnModule s = .ok (s', b) →
       ∀ p ∈ s'.st.added_globals,
         s.M.nextId ≤ p.2 ∧
         (s'.M.allInstrs.filter (fun i => isVmsInitFor s'.M p.2 i)).length = 1 ∧
         ∃ inj rest, s'.M.bodyOf "main" = inj ++ rest ∧
           (∀ i ∈ inj, s.M.nextId ≤ i.id) ∧
           (∀ i ∈ s'.M.bodyOf "main", i.id < s.M.nextId → i ∈ rest) ∧
           ∃ c ∈ inj, isVmsInitFor s'.M p.2 c = true) ∧
    (∀ (Ty : LlvmTy) (M : Module) (st : PassState) (mainF : Func),
       lookupTy st.added_globals Ty = none →
       (st.vms = none ∨ st.vms = some "__VERIFIER_make_symbolic") →
       M.findFunc "main" = some mainF →
       mainF.body.getD [] ≠ [] →
       ∃ M' st' szTy,
         getGlobalNondet Ty M st = .ok (M.nextId, M', st') ∧
         st'.added_globals = st.added_globals ++ [(Ty, M.nextId)] ∧
         M'.bodyOf "main" =
           Instr.ptrCast (M.nextId + 1) (.globalRef M.nextId) ::
           Instr.call (M.nextId + 3) (.direct "__VERIFIER_make_symbolic") .void
             [.val (M.nextId + 1), .intConst szTy (typeAllocSize M.ptrBits Ty),
              .castGlobal (M.nextId + 2)] ::
           M.bodyOf "main" ∧
         isInitShape M.nextId
           (Instr.call (M.nextId + 3) (.direct "__VERIFIER_make_symbolic") .void
             [.val (M.nextId + 1), .intConst szTy (typeAllocSize M.ptrBits Ty),
              .castGlobal (M.nextId + 2)]) = true) := by
  constructor
  · intro s s' b hwf hst hpr hok p hp
    unfold runOnModule at hok
    obtain ⟨hwf', hst', hN', hI'⟩ :=
      runOnFuncs_C3 hok hwf hst (Nat.le_refl _) (C3Inv_init hwf hpr)
    obtain ⟨hN0g, hg4, hcf, inj, rest, hsplit, hfresh, c, hcinj, hcshape⟩ :=
      hI'.1 p hp
    refine ⟨hN0g, ?_, inj, rest, hsplit, hfresh, ?_, c, hcinj, ?_⟩
    · rw [List.filter_congr
        (fun i _ => isVmsInitFor_eq_isInitShape hwf'.1 hcf i)]
      exact hcf.1
    · intro i hi hlt
      rw [hsplit] at hi
      rcases List.mem_append.mp hi with h | h
      · exact absurd (hfresh i h) (by omega)
      · exact h
    · rw [isVmsInitFor_eq_isInitShape hwf'.1 hcf]
      exact hcshape
  · intro Ty M st mainF hmiss hvms hmain hne
    obtain ⟨M', st', szTy, hok, hbody, hoth, hgl, hnid, hpb, hag, hns, hv, hsig,
      hnames, hsplice⟩ := getGlobalNondet_miss hmiss hvms hmain hne
    refine ⟨M', st', szTy, hok, hag, hbody, ?_⟩
    simp [isInitShape]

/-- C3 witness: the Symbolic run on `sS` creates the global `5` with a
single initialization call preceding the original body of `main`, and a
concrete cache miss injects the cast and call at the front of `main`. -/
theorem C3_single_initialization_witness :
    ((∀ p ∈ sSp.st.added_globals,
       sS.M.nextId ≤ p.2 ∧
       (sSp.M.allInstrs.filter (fun i => isVmsInitFor sSp.M p.2 i)).length = 1 ∧
       ∃ inj rest, sSp.M.bodyOf "main" = inj ++ rest ∧
         (∀ i ∈ inj, sS.M.nextId ≤ i.id) ∧
         (∀ i ∈ sSp.M.bodyOf "main", i.id < sS.M.nextId → i ∈ rest) ∧
         ∃ c ∈ inj, isVmsInitFor sSp.M p.2 c = true) ∧
     (∃ M' st' szTy,
        getGlobalNondet (.int 32) sM (freshPassState false) =
          .ok (sM.nextId, M', st') ∧
        st'.added_globals = (freshPassState false).added_globals ++
          [(.int 32, sM.nextId)] ∧
        M'.bodyOf "main" =
          Instr.ptrCast (sM.nextId + 1) (.globalRef sM.nextId) ::
          Instr.call (sM.nextId + 3) (.direct "__VERIFIER_make_symbolic") .void
            [.val (sM.nextId + 1), .intConst szTy (typeAllocSize sM.ptrBits (.int 32)),
             .castGlobal (sM.nextId + 2)] ::
          sM.bodyOf "main" ∧
        isInitShape sM.nextId
          (Instr.call (sM.nextId + 3) (.direct "__VERIFIER_make_symbolic") .void
            [.val (sM.nextId + 1), .intConst szTy (typeAllocSize sM.ptrBits (.int 32)),
             .castGlobal (sM.nextId + 2)]) = true)) :=
  ⟨C3_single_initialization.1 sS sSp true (by decide) (by decide) rfl
     (show runOnModule sS = .ok (sSp, true) from rfl),
   C3_single_initialization.2 (.int 32) sM (freshPassState false)
     ⟨"main", false, some sMainBody⟩ rfl (Or.inl rfl) rfl (by decide)⟩

end DU
